import Mathlib

/-!
Verification of the protox protocol-buffers runtime (encoding primitives,
field codecs and the message runtime) against its natural-language
specification.  Byte streams are modelled as `List Nat` (each byte `< 256`),
Python integers as `Int`/`Nat`, and Python exceptions as explicit error
values in `Except`.
-/

set_option maxHeartbeats 1600000

namespace Protox

/-- Errors raised by decoders (`protox.exceptions.MessageDecodeError` and the
other exception classes that can escape the decode loop). -/
inductive DecodeErr where
  /-- MessageDecodeError: unexpected end of stream when reading a varint. -/
  | truncatedVarint
  /-- MessageDecodeError: exceeded 10 bytes maximum length when reading a varint. -/
  | varintTooLong
  /-- MessageDecodeError: `decode_bytes` read fewer bytes than advertised. -/
  | truncatedBytes
  /-- MessageDecodeError: field's declared wire type differs from the one read. -/
  | wireTypeMismatch
  /-- MessageDecodeError: strict decode finished without a required field. -/
  | missingRequiredField (name : String)
  /-- NotImplementedError raised by the group wire-type skip entries. -/
  | groupsNotImplemented
  /-- KeyError: wire type outside the `wire_type_to_decoder` table. -/
  | unknownWireType
  /-- MessageDecodeError: a fixed32/fixed64 skip read fewer bytes than needed. -/
  | truncatedFixed
  /-- ValueError raised by `validate_value` during message construction. -/
  | valueError
  /-- AttributeError: constructor keyword that is not a declared field. -/
  | attributeError
  /-- UnicodeDecodeError from `bytes.decode('utf-8')` in `String.decode`
  (not a MessageDecodeError, so it always propagates). -/
  | unicodeDecode
  /-- Embedding artifact: recursion budget exhausted (never reached with the
  budgets the top-level entry points choose). -/
  | fuelOut
deriving DecidableEq, Repr

/-- Errors raised while encoding. -/
inductive EncodeErr where
  /-- MessageEncodeError: `to_bytes` on a message missing required fields. -/
  | missingRequired
  /-- TypeError from `field.encode(None)` on a required-but-unset field. -/
  | typeErrorNone
  /-- `encode_varint` applied to a negative int never terminates; the
  embedding surfaces that divergence as an explicit error value. -/
  | varintNegative
  /-- UnicodeEncodeError from `value.encode('utf-8')` in `String.encode_value`
  (a lone surrogate in the stored `str`). -/
  | unicodeError
  /-- `struct.error` from packing a fixed-width value outside its range. -/
  | structError
  /-- OverflowError from `struct.pack('<f')` on a finite double outside the
  binary32 range, or from converting a too-large int to a C double. -/
  | overflowError
deriving DecidableEq, Repr

@[simp] theorem error_bind {e : Type} {a b : Type} (err : e) (f : a → Except e b) :
    (Except.error err >>= f) = Except.error err := rfl

@[simp] theorem ok_bind {e : Type} {a b : Type} (x : a) (f : a → Except e b) :
    ((Except.ok x : Except e a) >>= f) = f x := rfl

/-! ## Primitive codec: `protox/encoding.py` -/

/-- Loop body of `encode_varint`: `x` is `value & 127` and `v` the value
shifted right by seven bits; emits continuation-flagged bytes while `v`
is nonzero. -/
def encodeVarintGo (x v : Nat) : List Nat :=
  if h : v = 0 then
    [x]
  else
    (x ||| 128) :: encodeVarintGo (v % 128) (v / 128)
decreasing_by
  exact Nat.div_lt_self (Nat.pos_of_ne_zero h) (by omega)

/-- `encode_varint(value)` for a non-negative Python int. -/
def encode_varint (value : Nat) : List Nat :=
  encodeVarintGo (value % 128) (value / 128)

/-- One step of `decode_varint`'s ten-iteration loop: `rv` and `shift`
accumulate the little-endian base-128 chunks. -/
def decodeVarintLoop : Nat → Nat → Nat → List Nat → Except DecodeErr (Nat × List Nat)
  | 0, _, _, _ => .error .varintTooLong
  | _ + 1, _, _, [] => .error .truncatedVarint
  | n + 1, rv, shift, b :: rest =>
    let rv2 := rv ||| ((b % 128) <<< shift)
    if b &&& 128 = 0 then
      .ok (rv2, rest)
    else
      decodeVarintLoop n rv2 (shift + 7) rest

/-- `decode_varint(stream)`: reads at most ten bytes, returns the decoded
value and the remaining stream. -/
def decode_varint (s : List Nat) : Except DecodeErr (Nat × List Nat) :=
  decodeVarintLoop 10 0 0 s

/-- `encode_varint` lifted to Python ints: on a negative argument the
Python loop never terminates (`value >>= 7` keeps the value negative),
which the embedding reports as `EncodeErr.varintNegative`. -/
def encodeVarintInt (i : Int) : Except EncodeErr (List Nat) :=
  if i < 0 then .error .varintNegative else .ok (encode_varint i.toNat)

/-- `encode_bytes(data)`: varint length prefix followed by the payload. -/
def encode_bytes (data : List Nat) : List Nat :=
  encode_varint data.length ++ data

/-- `decode_bytes(stream)`: reads a varint length then that many bytes,
failing when the stream is shorter than advertised. -/
def decode_bytes (s : List Nat) : Except DecodeErr (List Nat × List Nat) := do
  let (len, s₁) ← decode_varint s
  if s₁.length < len then
    .error .truncatedBytes
  else
    .ok (s₁.take len, s₁.drop len)

/-- `decode_header(stream)`: a varint tag split into field number and wire
type. -/
def decode_header (s : List Nat) : Except DecodeErr ((Nat × Nat) × List Nat) := do
  let (header, s₁) ← decode_varint s
  .ok ((header >>> 3, header &&& 7), s₁)

/-! ### Zigzag, fixed-width and floating-point codecs (`fields.py`, `struct`) -/

/-- `y ^ s` for `s` either `0` or `-1`, the only values the arithmetic
shifts in the zigzag codec produce on ints of the validated widths: XOR
against zero is the identity, XOR against all-ones is the bitwise
complement `-y - 1`. -/
def xorSign (y s : Int) : Int :=
  if s = 0 then y else -y - 1

/-- `encode_zig_zag32(x) = (x << 1) ^ (x >> 31)`: Python's arithmetic
right shift is floor division. -/
def encode_zig_zag32 (x : Int) : Int :=
  xorSign (x * 2) (Int.fdiv x (2 ^ 31))

/-- `encode_zig_zag64(x) = (x << 1) ^ (x >> 63)`. -/
def encode_zig_zag64 (x : Int) : Int :=
  xorSign (x * 2) (Int.fdiv x (2 ^ 63))

/-- `decode_zig_zag(x) = (x >> 1) ^ -(x & 1)`. -/
def decode_zig_zag (x : Int) : Int :=
  xorSign (Int.fdiv x 2) (-(x % 2))

/-- `struct.pack` little-endian: `w` bytes of `n`, least significant
first. -/
def encode_le : Nat → Nat → List Nat
  | 0, _ => []
  | w + 1, n => n % 256 :: encode_le w (n / 256)

/-- `struct.unpack` little-endian: the value of a byte list. -/
def leVal : List Nat → Nat
  | [] => 0
  | b :: r => b + 256 * leVal r

/-- `stream.read(w)` + `struct.unpack` for the fixed-width decoders:
errors when fewer than `w` bytes remain. -/
def decode_le (w : Nat) (s : List Nat) : Except DecodeErr (Nat × List Nat) :=
  if s.length < w then .error .truncatedFixed
  else .ok (leVal (s.take w), s.drop w)

/-- Two's-complement bit pattern of a signed value at width `w`
(`struct.pack('<i')` / `('<q')`). -/
def toTwos (w : Nat) (i : Int) : Nat :=
  (i % (2 ^ w : Nat)).toNat

/-- Signed reinterpretation of a `w`-bit pattern (`struct.unpack('<i')` /
`('<q')`). -/
def fromTwos (w : Nat) (n : Nat) : Int :=
  if n < 2 ^ (w - 1) then (n : Int) else (n : Int) - 2 ^ w

/-! Python floats are IEEE-754 binary64 values; the embedding stores them
as their 64-bit patterns, on which `struct.pack`/`unpack` and `==` are
pure functions. -/

/-- Exponent field of a binary64 pattern. -/
def fpExp64 (b : Nat) : Nat := b / 2 ^ 52 % 2 ^ 11

/-- Fraction field of a binary64 pattern. -/
def fpFrac64 (b : Nat) : Nat := b % 2 ^ 52

/-- Sign bit of a binary64 pattern. -/
def fpSign64 (b : Nat) : Nat := b / 2 ^ 63 % 2

/-- NaN: all-ones exponent, nonzero fraction. -/
def fpIsNan64 (b : Nat) : Bool :=
  fpExp64 b = 2047 && fpFrac64 b ≠ 0

/-- `+0.0` or `-0.0`. -/
def fpIsZero64 (b : Nat) : Bool :=
  fpExp64 b = 0 && fpFrac64 b = 0

/-- `value < 0` on a float: true for negative non-zero non-NaN values
(`-0.0 < 0` and `nan < 0` are false). -/
def fpIsNeg64 (b : Nat) : Bool :=
  fpSign64 b = 1 && !fpIsNan64 b && !fpIsZero64 b

/-- IEEE `==` on two binary64 patterns: false when either is NaN, true on
identical patterns and on `+0.0 == -0.0`. -/
def fpEq64 (a b : Nat) : Bool :=
  if fpIsNan64 a || fpIsNan64 b then false
  else a == b || (fpIsZero64 a && fpIsZero64 b)

/-- Exact Python `int == float` comparison: false for NaN and infinities;
a finite pattern with significand `S` and scale `2 ^ E` equals `i` iff the
exact integers `i * 2 ^ max 0 (-E)` and `± S * 2 ^ max 0 E` agree. -/
def fpEqInt (b : Nat) (i : Int) : Bool :=
  if fpExp64 b = 2047 then false
  else
    let e := fpExp64 b
    let sAbs : Int := if e = 0 then fpFrac64 b else 2 ^ 52 + fpFrac64 b
    let sv : Int := if fpSign64 b = 1 then -sAbs else sAbs
    let E : Int := (max e 1 : Int) - 1075
    if 0 ≤ E then i == sv * 2 ^ E.toNat else sv == i * 2 ^ (-E).toNat

/-- Round `v / 2 ^ k` to nearest, ties to even. -/
def rneShift (v k : Nat) : Nat :=
  let q := v / 2 ^ k
  let r := v % 2 ^ k
  if 2 ^ k < 2 * r ∨ (2 * r = 2 ^ k ∧ q % 2 = 1) then q + 1 else q

/-- `struct.unpack('<f')`: widen a binary32 pattern to binary64 (exact). -/
def fp32to64 (b : Nat) : Nat :=
  let s := b / 2 ^ 31 % 2
  let e := b / 2 ^ 23 % 2 ^ 8
  let f := b % 2 ^ 23
  if e = 255 then s * 2 ^ 63 + 2047 * 2 ^ 52 + f * 2 ^ 29
  else if e = 0 then
    if f = 0 then s * 2 ^ 63
    else
      -- binary32 subnormal `f * 2 ^ (-149)` renormalizes with the top set
      -- bit of `f` as the implied one
      let m := Nat.log2 f
      s * 2 ^ 63 + (m + 874) * 2 ^ 52 + (f - 2 ^ m) * 2 ^ (52 - m)
  else s * 2 ^ 63 + (e + 896) * 2 ^ 52 + f * 2 ^ 29

/-- `struct.pack('<f')` on a double: narrow a binary64 pattern to binary32
with round-to-nearest-even (the C `double` → `float` conversion). -/
def fp64to32 (b : Nat) : Nat :=
  let s := fpSign64 b
  let e := fpExp64 b
  let f := fpFrac64 b
  if e = 2047 then
    -- infinities keep their sign; a NaN keeps the top payload bits and has
    -- the quiet bit forced on (the C double → float cast)
    if f = 0 then s * 2 ^ 31 + 255 * 2 ^ 23
    else s * 2 ^ 31 + 255 * 2 ^ 23 + 2 ^ 22 + f / 2 ^ 29 % 2 ^ 22
  else if 897 ≤ e then
    -- can renormalize: significand `2 ^ 52 + f`, drop 29 bits; rounding up
    -- to `2 ^ 24` carries into the exponent
    let m := rneShift (2 ^ 52 + f) 29
    let e32 := if m = 2 ^ 24 then e - 895 else e - 896
    let m32 := if m = 2 ^ 24 then 0 else m - 2 ^ 23
    if 255 ≤ e32 then s * 2 ^ 31 + 255 * 2 ^ 23
    else s * 2 ^ 31 + e32 * 2 ^ 23 + m32
  else
    -- result is a binary32 subnormal (or zero, or rounds up to the
    -- smallest normal, which the plain addition of `2 ^ 23` encodes)
    let S := if e = 0 then f else 2 ^ 52 + f
    s * 2 ^ 31 + rneShift S (926 - max e 1)

/-- The int → C double conversion performed by `struct.pack('<d', i)`
(round-to-nearest-even for magnitudes above `2 ^ 53`). -/
def intToFp64 (i : Int) : Nat :=
  let s := if i < 0 then 1 else 0
  let n := i.natAbs
  if n = 0 then 0
  else
    let m := Nat.log2 n
    if m ≤ 52 then s * 2 ^ 63 + (m + 1023) * 2 ^ 52 + (n - 2 ^ m) * 2 ^ (52 - m)
    else
      let q := rneShift n (m - 52)
      if q = 2 ^ 53 then s * 2 ^ 63 + (m + 1024) * 2 ^ 52
      else s * 2 ^ 63 + (m + 1023) * 2 ^ 52 + (q - 2 ^ 52)

/-- `struct.pack('<f')` raises OverflowError when a finite double rounds
outside the binary32 range (rounding to infinity included). -/
def pack_f (b : Nat) : Except EncodeErr Nat :=
  let r := fp64to32 b
  if fpExp64 b ≠ 2047 ∧ 255 ≤ r / 2 ^ 23 % 2 ^ 8 then .error .overflowError
  else .ok r

/-- The int → C double conversion, with the OverflowError Python raises
for magnitudes that round to infinity (at or above `2 ^ 1024 - 2 ^ 970`,
the halfway point to `2 ^ 1024`). -/
def intToFp64E (i : Int) : Except EncodeErr Nat :=
  if 2 ^ 1024 - 2 ^ 970 ≤ i.natAbs then .error .overflowError
  else .ok (intToFp64 i)

/-- `MAX_FLOAT` (`protox.constants`, the largest finite binary32 value) as
a binary64 pattern. -/
def maxFloatPat : Nat := 0x47EFFFFFE0000000

/-- `MAX_DOUBLE` (the largest finite binary64 value) as a pattern. -/
def maxDoublePat : Nat := 0x7FEFFFFFFFFFFFFF

/-- `MAX_FLOAT` as an exact integer, for `int > MAX_FLOAT`. -/
def maxFloatInt : Int := (2 ^ 24 - 1) * 2 ^ 104

/-- `MAX_DOUBLE` as an exact integer, for `int > MAX_DOUBLE`. -/
def maxDoubleInt : Int := (2 ^ 53 - 1) * 2 ^ 971

/-- `Float.validate_value` / `Double.validate_value` on a stored float:
negative values skip the max check (and all NaN comparisons are false);
non-negative finite patterns order like their values, so `value >
max_value` is a pattern comparison. -/
def validFloatPat (maxPat b : Nat) : Bool :=
  if fpIsNan64 b then true
  else if fpIsNeg64 b then true
  else !decide (maxPat < b)

/-! ### UTF-8 (`str.encode('utf-8')` / `bytes.decode('utf-8')`) -/

/-- The UTF-8 bytes of one unicode scalar value. -/
def utf8EncodeChar (c : Nat) : List Nat :=
  if c < 0x80 then [c]
  else if c < 0x800 then [0xC0 + c / 64, 0x80 + c % 64]
  else if c < 0x10000 then
    [0xE0 + c / 4096, 0x80 + c / 64 % 64, 0x80 + c % 64]
  else
    [0xF0 + c / 262144, 0x80 + c / 4096 % 64, 0x80 + c / 64 % 64,
      0x80 + c % 64]

/-- `value.encode('utf-8')`: UnicodeEncodeError on a lone surrogate
(U+D800–U+DFFF); Python `str` cannot hold code points above U+10FFFF. -/
def utf8Encode : List Nat → Except EncodeErr (List Nat)
  | [] => .ok []
  | c :: cs =>
    if 0xD800 ≤ c ∧ c < 0xE000 then .error .unicodeError
    else if 0x110000 ≤ c then .error .unicodeError
    else do
      let rest ← utf8Encode cs
      .ok (utf8EncodeChar c ++ rest)

/-- A UTF-8 continuation byte. -/
def utf8Cont (b : Nat) : Prop := 0x80 ≤ b ∧ b < 0xC0

instance (b : Nat) : Decidable (utf8Cont b) := by
  unfold utf8Cont
  infer_instance

/-- Read the continuation byte of a two-byte sequence. -/
def utf8Take2 : Nat → List Nat → Except DecodeErr (Nat × List Nat)
  | b0, b1 :: r2 =>
    if utf8Cont b1 then .ok ((b0 - 0xC0) * 64 + (b1 - 0x80), r2)
    else .error .unicodeDecode
  | _, [] => .error .unicodeDecode

/-- Read the continuation bytes of a three-byte sequence (with the
overlong check on lead `0xE0` and the surrogate check on lead `0xED`). -/
def utf8Take3 : Nat → List Nat → Except DecodeErr (Nat × List Nat)
  | b0, b1 :: b2 :: r3 =>
    if utf8Cont b1 ∧ utf8Cont b2 ∧ (b0 = 0xE0 → 0xA0 ≤ b1) ∧
        (b0 = 0xED → b1 < 0xA0) then
      .ok ((b0 - 0xE0) * 4096 + (b1 - 0x80) * 64 + (b2 - 0x80), r3)
    else .error .unicodeDecode
  | _, _ => .error .unicodeDecode

/-- Read the continuation bytes of a four-byte sequence (with the
overlong check on lead `0xF0` and the range check on lead `0xF4`). -/
def utf8Take4 : Nat → List Nat → Except DecodeErr (Nat × List Nat)
  | b0, b1 :: b2 :: b3 :: r4 =>
    if utf8Cont b1 ∧ utf8Cont b2 ∧ utf8Cont b3 ∧ (b0 = 0xF0 → 0x90 ≤ b1) ∧
        (b0 = 0xF4 → b1 < 0x90) then
      .ok ((b0 - 0xF0) * 262144 + (b1 - 0x80) * 4096 + (b2 - 0x80) * 64 +
        (b3 - 0x80), r4)
    else .error .unicodeDecode
  | _, _ => .error .unicodeDecode

/-- Read one code point: dispatch on the lead byte with the standard
continuation, overlong, surrogate and range checks of a strict UTF-8
decoder. -/
def utf8Step (b0 : Nat) (rest : List Nat) : Except DecodeErr (Nat × List Nat) :=
  if b0 < 0x80 then .ok (b0, rest)
  else if b0 < 0xC2 then .error .unicodeDecode
  else if b0 < 0xE0 then utf8Take2 b0 rest
  else if b0 < 0xF0 then utf8Take3 b0 rest
  else if b0 < 0xF5 then utf8Take4 b0 rest
  else .error .unicodeDecode

theorem utf8Take2_shrinks (b0 : Nat) (rest : List Nat) (c : Nat) (r2 : List Nat)
    (h : utf8Take2 b0 rest = .ok (c, r2)) : r2.length ≤ rest.length := by
  cases rest with
  | nil => exact nomatch h
  | cons b1 r =>
    rw [utf8Take2] at h
    split_ifs at h
    injection h with e
    injection e with e1 e2
    subst e2
    simp

theorem utf8Take3_shrinks (b0 : Nat) (rest : List Nat) (c : Nat) (r2 : List Nat)
    (h : utf8Take3 b0 rest = .ok (c, r2)) : r2.length ≤ rest.length := by
  cases rest with
  | nil => exact nomatch h
  | cons b1 r =>
    cases r with
    | nil => exact nomatch h
    | cons b2 r3 =>
      rw [utf8Take3] at h
      split_ifs at h
      injection h with e
      injection e with e1 e2
      subst e2
      simp
      omega

theorem utf8Take4_shrinks (b0 : Nat) (rest : List Nat) (c : Nat) (r2 : List Nat)
    (h : utf8Take4 b0 rest = .ok (c, r2)) : r2.length ≤ rest.length := by
  cases rest with
  | nil => exact nomatch h
  | cons b1 r =>
    cases r with
    | nil => exact nomatch h
    | cons b2 r3 =>
      cases r3 with
      | nil => exact nomatch h
      | cons b3 r4 =>
        rw [utf8Take4] at h
        split_ifs at h
        injection h with e
        injection e with e1 e2
        subst e2
        simp
        omega

theorem utf8Step_shrinks (b0 : Nat) (rest : List Nat) (c : Nat) (r2 : List Nat)
    (h : utf8Step b0 rest = .ok (c, r2)) : r2.length ≤ rest.length := by
  rw [utf8Step] at h
  split_ifs at h
  · injection h with e
    injection e with e1 e2
    subst e2
    exact le_refl _
  · exact utf8Take2_shrinks b0 rest c r2 h
  · exact utf8Take3_shrinks b0 rest c r2 h
  · exact utf8Take4_shrinks b0 rest c r2 h

/-- `data.decode('utf-8')` (strict): read code points until the bytes run
out, failing on any malformed sequence. -/
def utf8Decode : List Nat → Except DecodeErr (List Nat)
  | [] => .ok []
  | b0 :: rest =>
    match h : utf8Step b0 rest with
    | .error e => .error e
    | .ok (c, r2) => do
      let cs ← utf8Decode r2
      .ok (c :: cs)
termination_by s => s.length
decreasing_by
  have hs := utf8Step_shrinks _ _ _ _ (by assumption)
  simp only [List.length_cons]
  omega

theorem utf8Decode_cons_ok (b0 : Nat) (rest : List Nat) (c : Nat) (r2 : List Nat)
    (h : utf8Step b0 rest = .ok (c, r2)) :
    utf8Decode (b0 :: rest) = (do
      let cs ← utf8Decode r2
      Except.ok (c :: cs)) := by
  rw [utf8Decode.eq_def]
  split
  · rename_i heq
    exact nomatch heq
  · rename_i c2 r22 heq
    injection heq with e1 e2
    subst e1
    subst e2
    split
    · rename_i e heq2
      rw [h] at heq2
      exact nomatch heq2
    · rename_i c3 r23 heq2
      rw [h] at heq2
      injection heq2 with e
      injection e with e1 e2
      subst e1
      subst e2
      rfl

/-- The state of `encode_varint`'s loop variable for an arbitrary Python
int: Python's `value >>= 7` is floor division by `2^7`. -/
def varintShift (v : Int) : Int := Int.fdiv v 128

/-- Iterating the loop shift `n` times from an initial value. -/
def varintShiftIter : Nat → Int → Int
  | 0, v => v
  | n + 1, v => varintShiftIter n (varintShift v)

/-! ### Bit-level helper lemmas -/

theorem lor_of_lt_128 {x : Nat} (hx : x < 128) : x ||| 128 = x + 128 := by
  have h := Nat.mul_add_lt_is_or (b := x) (i := 7) (by simpa using hx) 1
  simp only [Nat.mul_one] at h
  have h7 : (2 : Nat) ^ 7 = 128 := by norm_num
  rw [h7] at h
  rw [Nat.lor_comm, ← h]
  omega

theorem and_128_eq_zero {x : Nat} (hx : x < 128) : x &&& 128 = 0 := by
  have h7 : (128 : Nat) = 2 ^ 7 := by norm_num
  rw [h7, Nat.and_two_pow]
  have : x.testBit 7 = false := Nat.testBit_lt_two_pow (by simpa using hx)
  simp [this]

theorem lor_128_and_128 (x : Nat) : (x ||| 128) &&& 128 = 128 := by
  have h7 : (128 : Nat) = 2 ^ 7 := by norm_num
  rw [h7, Nat.and_two_pow, Nat.testBit_lor, Nat.testBit_two_pow_self, Bool.or_true]
  norm_num

theorem shiftLeft_chunk_lor {x : Nat} (v shift : Nat) (hx : x < 128) :
    (x <<< shift) ||| (v <<< (shift + 7)) = (x + 128 * v) <<< shift := by
  simp only [Nat.shiftLeft_eq]
  have hb : x * 2 ^ shift < 2 ^ (shift + 7) := by
    rw [Nat.pow_add]
    have : (2 : Nat) ^ 7 = 128 := by norm_num
    rw [this]
    calc x * 2 ^ shift < 128 * 2 ^ shift :=
          (Nat.mul_lt_mul_right (Nat.two_pow_pos shift)).mpr hx
      _ = 2 ^ shift * 128 := Nat.mul_comm _ _
  have h := Nat.mul_add_lt_is_or hb v
  have hcomm : v * 2 ^ (shift + 7) = 2 ^ (shift + 7) * v := Nat.mul_comm _ _
  rw [hcomm, Nat.lor_comm, ← h]
  rw [Nat.pow_add]
  ring

/-! ### Round-trip of the varint codec -/

theorem encodeVarintGo_ne_nil (x v : Nat) : encodeVarintGo x v ≠ [] := by
  rw [encodeVarintGo]
  split <;> simp

theorem encodeVarintGo_length {n : Nat} : ∀ {v} (x : Nat), v < 128 ^ n →
    (encodeVarintGo x v).length ≤ n + 1 := by
  induction n with
  | zero =>
    intro v x hv
    have : v = 0 := by simpa using hv
    rw [encodeVarintGo]
    simp [this]
  | succ n ih =>
    intro v x hv
    rw [encodeVarintGo]
    split
    · simp
    · have hdiv : v / 128 < 128 ^ n := by
        rw [Nat.div_lt_iff_lt_mul (by norm_num)]
        calc v < 128 ^ (n + 1) := hv
          _ = 128 ^ n * 128 := by rw [Nat.pow_succ]
      simpa using Nat.succ_le_succ (ih (v % 128) hdiv)

theorem encodeVarintGo_getLast (v : Nat) : ∀ (x : Nat), x < 128 →
    ∃ b, (encodeVarintGo x v).getLast? = some b ∧ b &&& 128 = 0 := by
  induction v using Nat.strong_induction_on with
  | _ v ih =>
    intro x hx
    rw [encodeVarintGo]
    split
    · exact ⟨x, by simp, and_128_eq_zero hx⟩
    · rename_i hv
      obtain ⟨b, hb, hb2⟩ := ih (v / 128)
        (Nat.div_lt_self (Nat.pos_of_ne_zero hv) (by norm_num))
        (v % 128) (Nat.mod_lt _ (by norm_num))
      refine ⟨b, ?_, hb2⟩
      obtain ⟨c, l, hcl⟩ :=
        List.exists_cons_of_ne_nil (encodeVarintGo_ne_nil (v % 128) (v / 128))
      rw [hcl, List.getLast?_cons_cons, ← hcl, hb]

theorem decodeVarintLoop_encodeGo (v : Nat) : ∀ x rv shift rest fuel,
    x < 128 → (encodeVarintGo x v).length ≤ fuel →
    decodeVarintLoop fuel rv shift (encodeVarintGo x v ++ rest)
      = .ok (rv ||| ((x + 128 * v) <<< shift), rest) := by
  induction v using Nat.strong_induction_on with
  | _ v ih =>
    intro x rv shift rest fuel hx hlen
    rw [encodeVarintGo] at hlen ⊢
    by_cases hv : v = 0
    · subst hv
      simp only [dif_pos] at hlen ⊢
      obtain ⟨n, rfl⟩ : ∃ n, fuel = n + 1 := by
        cases fuel with
        | zero => simp at hlen
        | succ n => exact ⟨n, rfl⟩
      simp only [List.cons_append, List.nil_append, decodeVarintLoop,
        and_128_eq_zero hx, if_pos rfl]
      rw [Nat.mod_eq_of_lt hx]
      simp
    · simp only [dif_neg hv] at hlen ⊢
      obtain ⟨n, rfl⟩ : ∃ n, fuel = n + 1 := by
        cases fuel with
        | zero => simp at hlen
        | succ n => exact ⟨n, rfl⟩
      simp only [List.cons_append, decodeVarintLoop]
      rw [if_neg (by rw [lor_128_and_128]; norm_num)]
      have hmod : (x ||| 128) % 128 = x := by
        rw [lor_of_lt_128 hx]
        omega
    -- the recursive call decodes the remaining chunks of `v`
      rw [hmod]
      rw [show (encodeVarintGo (v % 128) (v / 128)).append rest
            = encodeVarintGo (v % 128) (v / 128) ++ rest from rfl]
      rw [ih (v / 128) (Nat.div_lt_self (Nat.pos_of_ne_zero hv) (by norm_num))
          (v % 128) _ (shift + 7) rest n (Nat.mod_lt _ (by norm_num))
          (by simp only [List.length_cons] at hlen; omega)]
      rw [Nat.mod_add_div v 128]
      rw [← shiftLeft_chunk_lor v shift hx, Nat.lor_assoc]

/-- Claim C2: for every integer `x` in `[0, 2^64)`,
`decode_varint(encode_varint(x)) == x`; moreover `encode_varint(x)` is at
most ten bytes long and its final byte has the continuation (high) bit
clear. -/
theorem varint_round_trip (x : Nat) (hx : x < 2 ^ 64) :
    decode_varint (encode_varint x) = .ok (x, []) ∧
    (encode_varint x).length ≤ 10 ∧
    ∃ b, (encode_varint x).getLast? = some b ∧ b &&& 128 = 0 := by
  have hdiv : x / 128 < 128 ^ 9 := by
    rw [Nat.div_lt_iff_lt_mul (by norm_num)]
    calc x < 2 ^ 64 := hx
      _ ≤ 128 ^ 9 * 128 := by norm_num
  have hlen : (encodeVarintGo (x % 128) (x / 128)).length ≤ 10 :=
    encodeVarintGo_length (x % 128) hdiv
  refine ⟨?_, hlen, encodeVarintGo_getLast (x / 128) (x % 128) (Nat.mod_lt _ (by norm_num))⟩
  unfold decode_varint encode_varint
  have h := decodeVarintLoop_encodeGo (x / 128) (x % 128) 0 0 [] 10
    (Nat.mod_lt _ (by norm_num)) hlen
  rw [List.append_nil] at h
  rw [h, Nat.mod_add_div x 128]
  simp

/-- Witness for C2 at the concrete input 300. -/
theorem varint_round_trip_witness :
    decode_varint (encode_varint 300) = .ok (300, []) ∧
    (encode_varint 300).length ≤ 10 ∧
    ∃ b, (encode_varint 300).getLast? = some b ∧ b &&& 128 = 0 :=
  varint_round_trip 300 (by norm_num)

/-- Claim C10: `encode_varint` terminates for every non-negative input (the
shifted loop value reaches zero), and for any negative input the loop
condition never becomes false: every iterate of the arithmetic shift stays
negative. -/
theorem encode_varint_termination :
    (∀ v : Int, 0 ≤ v → ∃ n, varintShiftIter n v = 0) ∧
    (∀ v : Int, v < 0 → ∀ n, varintShiftIter n v < 0) := by
  constructor
  · have key : ∀ (m : Nat) (v : Int), 0 ≤ v → v.toNat ≤ m →
        ∃ n, varintShiftIter n v = 0 := by
      intro m
      induction m with
      | zero =>
        intro v hv hm
        exact ⟨0, by simpa [varintShiftIter] using by omega⟩
      | succ m ih =>
        intro v hv hm
        by_cases h0 : v = 0
        · exact ⟨0, h0⟩
        · have hpos : 0 < v := lt_of_le_of_ne hv (Ne.symm h0)
          have hfd : varintShift v = v / 128 := Int.fdiv_eq_ediv v (by norm_num)
          have h1 : 0 ≤ v / 128 := Int.ediv_nonneg hv (by norm_num)
          have h2 : v / 128 < v := by
            rw [Int.ediv_lt_iff_lt_mul (by norm_num)]
            nlinarith
          obtain ⟨n, hn⟩ := ih (v / 128) h1 (by omega)
          exact ⟨n + 1, by rw [varintShiftIter, hfd]; exact hn⟩
    intro v hv
    exact key v.toNat v hv le_rfl
  · intro v hv n
    induction n generalizing v with
    | zero => simpa [varintShiftIter] using hv
    | succ n ih =>
      rw [varintShiftIter]
      exact ih _ (Int.fdiv_neg' hv (by norm_num))

/-- Witness for C10 at the concrete inputs 300 and −300. -/
theorem encode_varint_termination_witness :
    (∃ n, varintShiftIter n 300 = 0) ∧ varintShiftIter 2 (-300) < 0 :=
  ⟨encode_varint_termination.1 300 (by norm_num),
    encode_varint_termination.2 (-300) (by norm_num) 2⟩

/-! ## Data model: `protox/message.py` and `protox/fields.py`

A message instance's `_data` dictionary maps field names to Python values.
The embedded universe of field types covers every `Field` subclass of
`protox/fields.py`: the varint scalars, the zigzag and fixed-width
scalars, bool, bytes, strings, floats and doubles, enums, nested
messages, repeated (packed and unpacked) fields and map fields. -/

/-- A Python value as stored in a message's `_data` map (plus `vnone` for
Python's `None`). Enum members are `IntEnum` instances, hence ints. -/
inductive PyValue where
  | vnone
  | vint (i : Int)
  | vbool (b : Bool)
  | vbytes (bs : List Nat)
  /-- a Python `float`, stored as its binary64 bit pattern -/
  | vfloat (bits : Nat)
  /-- a Python `str`, stored as its code points (surrogates included) -/
  | vstr (cps : List Nat)
  /-- a nested `Message` instance: its class name and its `_data` map -/
  | vmsg (typeName : String) (data : List (String × PyValue))
  /-- the contents of a repeated field (`ValidatedList`) -/
  | vlist (xs : List PyValue)
  /-- the contents of a map field (`ValidatedDict`), insertion-ordered -/
  | vdict (entries : List (PyValue × PyValue))

mutual
/-- A field descriptor's type, mirroring the `Field` subclasses of
`protox/fields.py`. `messageF` carries the target message type (name,
declared fields, one-of groups); `repeatedF` the inner descriptor and the
packed flag; `mapF` the key and value descriptors. -/
inductive PyFieldType where
  | int32F
  | int64F
  | uint32F
  | uint64F
  | sint32F
  | sint64F
  | fixed32F
  | fixed64F
  | sfixed32F
  | sfixed64F
  | floatF
  | doubleF
  | boolF
  | bytesF
  | stringF
  | enumF (variants : List Int)
  | messageF (typeName : String) (fields : FieldList) (oneOfs : List (String × List String))
  | repeatedF (elem : PyFieldType) (packed : Bool)
  | mapF (key : PyFieldType) (value : PyFieldType)

/-- A message type's ordered field table: declared name, field number,
type, `required` flag and declared default (`None` encoded as `none`). -/
inductive FieldList where
  | nil
  | cons (name : String) (number : Nat) (ftype : PyFieldType) (required : Bool)
      (default : Option PyValue) (rest : FieldList)
end

/-- A top-level message type: class name, field table, and one-of groups
(each a group name with its member field names). -/
structure Schema where
  typeName : String
  fields : FieldList
  oneOfs : List (String × List String)

/-- A message instance: the `_data` value map and the `_which_one_of`
arbitration map. -/
structure PyInstance where
  data : List (String × PyValue)
  oneOfSel : List (String × String)

/-! ### Dictionary helpers (Python `dict` on string keys) -/

def lookupData : List (String × PyValue) → String → Option PyValue
  | [], _ => none
  | (n, v) :: rest, k => if n = k then some v else lookupData rest k

/-- `d[k] = v`: overwrite in place, or append preserving insertion order. -/
def assocSet : List (String × PyValue) → String → PyValue → List (String × PyValue)
  | [], k, v => [(k, v)]
  | (n, w) :: rest, k, v =>
    if n = k then (n, v) :: rest else (n, w) :: assocSet rest k v

/-- `d.pop(k, None)`. -/
def popName : List (String × PyValue) → String → List (String × PyValue)
  | [], _ => []
  | (n, w) :: rest, k => if n = k then rest else (n, w) :: popName rest k

/-- `for name in fields: d.pop(name, None)` in `OneOfSetter.__call__`. -/
def popAll (data : List (String × PyValue)) (names : List String) :
    List (String × PyValue) :=
  names.foldl popName data

def lookupSel : List (String × String) → String → Option String
  | [], _ => none
  | (n, v) :: rest, k => if n = k then some v else lookupSel rest k

def assocSetSel : List (String × String) → String → String → List (String × String)
  | [], k, v => [(k, v)]
  | (n, w) :: rest, k, v =>
    if n = k then (n, v) :: rest else (n, w) :: assocSetSel rest k v

/-! ### Field-table lookups (`_field_by_name`, `_field_by_number`) -/

def findByName : FieldList → String →
    Option (Nat × PyFieldType × Bool × Option PyValue)
  | .nil, _ => none
  | .cons n num ft req dflt rest, k =>
    if n = k then some (num, ft, req, dflt) else findByName rest k

def findByNumber : FieldList → Nat →
    Option (String × PyFieldType × Bool × Option PyValue)
  | .nil, _ => none
  | .cons n num ft req dflt rest, k =>
    if num = k then some (n, ft, req, dflt) else findByNumber rest k

def fieldNames : FieldList → List String
  | .nil => []
  | .cons n _ _ _ _ rest => n :: fieldNames rest

/-- `Message._required_fields`: required fields whose declared default is
`None` (`_add_field_to_message`). -/
def requiredNames : FieldList → List String
  | .nil => []
  | .cons n _ _ req dflt rest =>
    if req && dflt.isNone then n :: requiredNames rest else requiredNames rest

/-- `is_initialized()`: all required-and-no-default fields are set. -/
def isInitialized (flds : FieldList) (data : List (String × PyValue)) : Bool :=
  (requiredNames flds).all fun n => (lookupData data n).isSome

/-- The wire type a field descriptor declares (`Field.wire_type`). -/
def wireTypeOf : PyFieldType → Nat
  | .int32F | .int64F | .uint32F | .uint64F | .boolF => 0
  | .sint32F | .sint64F => 0
  | .fixed32F | .sfixed32F | .floatF => 5
  | .fixed64F | .sfixed64F | .doubleF => 1
  | .enumF _ => 0
  | .bytesF => 2
  | .stringF => 2
  | .messageF _ _ _ => 2
  | .mapF _ _ => 2
  | .repeatedF elem packed => if packed then 2 else wireTypeOf elem

/-- Python truthiness of a declared default, as used by the strict
required-field check in `Message.from_stream`
(`not getattr(field, 'default', None)`). -/
def pyFalsy : Option PyValue → Bool
  | none => true
  | some .vnone => true
  | some (.vint i) => i = 0
  | some (.vbool b) => !b
  | some (.vbytes bs) => bs.isEmpty
  | some (.vfloat b) => fpIsZero64 b
  | some (.vstr cps) => cps.isEmpty
  | some (.vlist xs) => xs.isEmpty
  | some (.vdict es) => es.isEmpty
  | some (.vmsg _ _) => false

/-- The membership test `one_of_name in self._one_ofs`. -/
def hasOneOf (oneOfs : List (String × List String)) (g : String) : Bool :=
  oneOfs.any fun p => p.1 = g

/-- `Message._one_of_by_field_name`: the group a member field belongs to. -/
def oneOfByMember (oneOfs : List (String × List String)) (member : String) :
    Option (String × List String) :=
  match oneOfs with
  | [] => none
  | g :: rest =>
    if g.2.contains member then some g else oneOfByMember rest member

/-- An induction principle for `FieldList` alone (the mutual recursor has
two motives, which the `induction` tactic cannot use directly). -/
theorem fieldListInduction (P : FieldList → Prop) (hnil : P .nil)
    (hcons : ∀ n num ft req dflt rest, P rest → P (.cons n num ft req dflt rest)) :
    ∀ flds, P flds
  | .nil => hnil
  | .cons n num ft req dflt rest =>
    hcons n num ft req dflt rest (fieldListInduction P hnil hcons rest)

/-! ### Validation (`validate_value`) -/

/-- `field.validate_value(value)` as a boolean: `true` when the Python call
returns, `false` when it raises `ValueError`. Scalars check type and
range; enums check membership in the symbol table; message fields check
only `isinstance` (the class name); repeated fields check every item; map
fields check only that the value is a dict. -/
def validateValue : PyFieldType → PyValue → Bool
  | .int32F, .vint i => decide (-(2 ^ 31) ≤ i) && decide (i ≤ 2 ^ 31 - 1)
  | .int64F, .vint i => decide (-(2 ^ 63) ≤ i) && decide (i ≤ 2 ^ 63 - 1)
  | .uint32F, .vint i => decide (0 ≤ i) && decide (i ≤ 2 ^ 32 - 1)
  | .uint64F, .vint i => decide (0 ≤ i) && decide (i ≤ 2 ^ 64 - 1)
  | .sint32F, .vint i => decide (-(2 ^ 31) ≤ i) && decide (i ≤ 2 ^ 31 - 1)
  | .sint64F, .vint i => decide (-(2 ^ 63) ≤ i) && decide (i ≤ 2 ^ 63 - 1)
  | .fixed32F, .vint i => decide (0 ≤ i) && decide (i ≤ 2 ^ 32 - 1)
  | .fixed64F, .vint i => decide (0 ≤ i) && decide (i ≤ 2 ^ 64 - 1)
  | .sfixed32F, .vint i => decide (-(2 ^ 31) ≤ i) && decide (i ≤ 2 ^ 31 - 1)
  | .sfixed64F, .vint i => decide (-(2 ^ 63) ≤ i) && decide (i ≤ 2 ^ 63 - 1)
  -- Float/Double accept `float` and `int` instances; negative values skip
  -- the max check and NaN comparisons are all false
  | .floatF, .vfloat b => validFloatPat maxFloatPat b
  | .floatF, .vint i => decide (i < 0) || !decide (maxFloatInt < i)
  | .doubleF, .vfloat b => validFloatPat maxDoublePat b
  | .doubleF, .vint i => decide (i < 0) || !decide (maxDoubleInt < i)
  | .stringF, .vstr _ => true
  | .boolF, .vbool _ => true
  | .bytesF, .vbytes _ => true
  | .enumF variants, .vint i => variants.contains i
  | .messageF nm _ _, .vmsg nm2 _ => nm = nm2
  | .repeatedF elem _, .vlist xs => xs.all fun x => validateValue elem x
  | .mapF _ _, .vdict _ => true
  | _, _ => false
termination_by structural ft _ => ft

/-- `ValidatedDict.__init__` key/value validation for every inserted entry. -/
def validateEntries (kT vT : PyFieldType) (es : List (PyValue × PyValue)) : Bool :=
  es.all fun e => validateValue kT e.1 && validateValue vT e.2

/-! ### Attribute access -/

/-- Reading a field (`FieldGetter` / `RepeatedGetter` / `MapGetter`): the
stored value if present, else a lazily allocated empty container for
repeated/map fields, `None` for message fields, and the declared default
(or `None`) for primitive fields. -/
def getattrF (ft : PyFieldType) (default : Option PyValue)
    (data : List (String × PyValue)) (name : String) : PyValue :=
  match lookupData data name with
  | some v => v
  | none =>
    match ft with
    | .repeatedF _ _ => .vlist []
    | .mapF _ _ => .vdict []
    | .messageF _ _ _ => .vnone
    | _ =>
      match default with
      | some d => d
      | none => .vnone

/-- Writing a field (`FieldSetter` / `OneOfSetter` / `RepeatedSetter` /
`MapSetter` as selected by `_add_field_to_message`): validate, then store;
a one-of member additionally pops the group's other members and records
the winner in `_which_one_of`. -/
def setattrPy (flds : FieldList) (oneOfs : List (String × List String))
    (m : PyInstance) (name : String) (v : PyValue) :
    Except DecodeErr PyInstance :=
  match findByName flds name with
  | none => .error .attributeError
  | some (_, ftype, _, _) =>
    match oneOfByMember oneOfs name with
    | some grp =>
      if validateValue ftype v then
        .ok ⟨assocSet (popAll m.data grp.2) name v,
          assocSetSel m.oneOfSel grp.1 name⟩
      else .error .valueError
    | none =>
      match ftype, v with
      | .mapF kT vT, .vdict es =>
        if validateEntries kT vT es then
          .ok ⟨assocSet m.data name (.vdict es), m.oneOfSel⟩
        else .error .valueError
      | .mapF _ _, _ => .error .valueError
      | ftype, v =>
        if validateValue ftype v then
          .ok ⟨assocSet m.data name v, m.oneOfSel⟩
        else .error .valueError

/-- `Message.__init__(**kwargs)`: unknown names raise `AttributeError`,
`None` values are skipped, anything else goes through the field setter. -/
def initKwargs (flds : FieldList) (oneOfs : List (String × List String)) :
    List (String × PyValue) → PyInstance → Except DecodeErr PyInstance
  | [], m => .ok m
  | (k, v) :: rest, m =>
    if (findByName flds k).isSome then
      match v with
      | .vnone => initKwargs flds oneOfs rest m
      | v => do
        let m2 ← setattrPy flds oneOfs m k v
        initKwargs flds oneOfs rest m2
    else .error .attributeError

/-- The strict required-field check at the end of `Message.from_stream`:
fails for a required field that is absent from the decoded map and whose
declared default is falsy (note: Python's `not default`, not
`default is None`). -/
def strictCheck : FieldList → List (String × PyValue) → Except DecodeErr Unit
  | .nil, _ => .ok ()
  | .cons name _ _ req dflt rest, acc =>
    if req && pyFalsy dflt && (lookupData acc name).isNone then
      .error (.missingRequiredField name)
    else strictCheck rest acc

/-! ### Encoding (`Message.to_stream` and the fields' `encode`) -/

theorem sizeOf_pyFieldType_pos (ft : PyFieldType) : 0 < sizeOf ft := by
  cases ft <;> simp_arith

/-- `field._header`: the varint-encoded tag `number << 3 | wire_type`. -/
def fieldHeader (number wt : Nat) : List Nat :=
  encode_varint (number <<< 3 ||| wt)

/-- `Int.encode_value`: negative ints are reinterpreted in two's-complement
64-bit before varint encoding. -/
def encodeIntValue (i : Int) : Except EncodeErr (List Nat) :=
  encodeVarintInt (if i < 0 then i + 2 ^ 64 else i)

mutual
/-- A field's `encode_value(value)` (payload without the field's own
header). For repeated and map fields this is `strategy.encode`/the map
encoder, which emit their own per-item headers and need the field
number. -/
def encodeValueOnly (number : Nat) : PyFieldType → PyValue → Except EncodeErr (List Nat)
  | .int32F, .vint i => encodeIntValue i
  | .int64F, .vint i => encodeIntValue i
  | .uint32F, .vint i => encodeIntValue i
  | .uint64F, .vint i => encodeIntValue i
  | .boolF, .vbool b => .ok [if b then 1 else 0]
  | .bytesF, .vbytes bs => .ok (encode_bytes bs)
  -- SInt32/SInt64.encode_value: varint of the zigzag value
  | .sint32F, .vint i => encodeVarintInt (encode_zig_zag32 i)
  | .sint64F, .vint i => encodeVarintInt (encode_zig_zag64 i)
  -- Fixed/SFixed: struct.pack('<I'/'<Q'/'<i'/'<q'), struct.error outside
  -- the width
  | .fixed32F, .vint i =>
    if 0 ≤ i ∧ i < 2 ^ 32 then .ok (encode_le 4 i.toNat) else .error .structError
  | .fixed64F, .vint i =>
    if 0 ≤ i ∧ i < 2 ^ 64 then .ok (encode_le 8 i.toNat) else .error .structError
  | .sfixed32F, .vint i =>
    if -(2 ^ 31) ≤ i ∧ i < 2 ^ 31 then .ok (encode_le 4 (toTwos 32 i))
    else .error .structError
  | .sfixed64F, .vint i =>
    if -(2 ^ 63) ≤ i ∧ i < 2 ^ 63 then .ok (encode_le 8 (toTwos 64 i))
    else .error .structError
  -- Float/Double.encode_value: struct.pack('<f'/'<d'); ints are converted
  -- to a C double first
  | .floatF, .vfloat b => do
    let r ← pack_f b
    .ok (encode_le 4 r)
  | .floatF, .vint i => do
    let b ← intToFp64E i
    let r ← pack_f b
    .ok (encode_le 4 r)
  | .doubleF, .vfloat b => .ok (encode_le 8 b)
  | .doubleF, .vint i => do
    let b ← intToFp64E i
    .ok (encode_le 8 b)
  -- String.encode_value: encode_bytes(value.encode('utf-8'))
  | .stringF, .vstr cps => do
    let data ← utf8Encode cps
    .ok (encode_bytes data)
  | .enumF _, .vint i => encodeVarintInt i
  | .messageF _ flds _, .vmsg _ d =>
    -- MessageField.encode_value = encode_bytes(value.to_bytes());
    -- to_bytes runs the is_initialized check before walking the fields
    if isInitialized flds d then do
      let payload ← encodeFields flds d
      .ok (encode_bytes payload)
    else .error .missingRequired
  | .repeatedF elem packed, .vlist xs =>
    if packed then
      -- PackedRepeatedStrategy.encode
      match xs with
      | [] => .ok []
      | xs => do
        let payload ← encodePackedItems elem xs
        .ok (fieldHeader number 2 ++ encode_bytes payload)
    else
      -- UnpackedRepeatedStrategy.encode
      encodeUnpackedItems number elem xs
  | .mapF kT vT, .vdict es => encodeMapEntries number kT vT es
  | _, _ => .error .typeErrorNone
termination_by ft _ => (sizeOf ft, 0, 0)

/-- The `to_stream` loop: walk the field table in declaration order; skip
absent optional fields; append `field.encode(value)` for the rest.
`field.encode` is header-plus-payload for scalar/enum/message fields and
the bare strategy output for repeated/map fields. -/
def encodeFields : FieldList → List (String × PyValue) → Except EncodeErr (List Nat)
  | .nil, _ => .ok []
  | .cons name number ftype required default rest, d =>
    match getattrF ftype default d name with
    | .vnone =>
      if required then .error .typeErrorNone
      else encodeFields rest d
    | v => do
      let bytes ←
        match ftype with
        | .repeatedF elem packed => encodeValueOnly number (.repeatedF elem packed) v
        | .mapF kT vT => encodeValueOnly number (.mapF kT vT) v
        | ftype => do
          let payload ← encodeValueOnly number ftype v
          pure (fieldHeader number (wireTypeOf ftype) ++ payload)
      let restBytes ← encodeFields rest d
      .ok (bytes ++ restBytes)
termination_by flds _ => (sizeOf flds, 0, 0)

/-- Packed payload: the concatenated `encode_value` of the items, no
per-item headers. -/
def encodePackedItems (elem : PyFieldType) : List PyValue → Except EncodeErr (List Nat)
  | [] => .ok []
  | x :: xs => do
    let b ← encodeValueOnly 0 elem x
    let bs ← encodePackedItems elem xs
    .ok (b ++ bs)
termination_by xs => (sizeOf elem, 1, xs.length)

/-- Unpacked encoding: each item prefixed with the inner field's header. -/
def encodeUnpackedItems (number : Nat) (elem : PyFieldType) :
    List PyValue → Except EncodeErr (List Nat)
  | [] => .ok []
  | x :: xs => do
    let b ← encodeValueOnly number elem x
    let bs ← encodeUnpackedItems number elem xs
    .ok (fieldHeader number (wireTypeOf elem) ++ b ++ bs)
termination_by xs => (sizeOf elem, 1, xs.length)

/-- `MapField.encode_value`: each entry becomes the map field's header plus
a length-delimited `_DictEntry` message with the key at number 1 and the
value at number 2 (both required and present, so the entry's `to_bytes` is
the concatenation of the two encoded fields). -/
def encodeMapEntries (number : Nat) (kT vT : PyFieldType) :
    List (PyValue × PyValue) → Except EncodeErr (List Nat)
  | [] => .ok []
  | (k, v) :: es => do
    let kb ← encodeValueOnly 1 kT k
    let vb ← encodeValueOnly 2 vT v
    let entry :=
      fieldHeader 1 (wireTypeOf kT) ++ kb ++ fieldHeader 2 (wireTypeOf vT) ++ vb
    let rest ← encodeMapEntries number kT vT es
    .ok (fieldHeader number 2 ++ encode_bytes entry ++ rest)
termination_by es => (sizeOf kT + sizeOf vT, 1, es.length)
decreasing_by
  all_goals
    first
    | decreasing_tactic
    | (have h1 := sizeOf_pyFieldType_pos vT
       have h2 := sizeOf_pyFieldType_pos kT
       decreasing_tactic)
end

/-- `Int.decode`: varint, then undo the 64-bit two's-complement
reinterpretation. -/
def decodeIntField (s : List Nat) : Except DecodeErr (Int × List Nat) := do
  let (v, s1) ← decode_varint s
  if v > 2 ^ 63 - 1 then .ok ((v : Int) - 2 ^ 64, s1) else .ok ((v : Int), s1)

/-- `UInt.decode`: plain varint. -/
def decodeUIntField (s : List Nat) : Except DecodeErr (Int × List Nat) := do
  let (v, s1) ← decode_varint s
  .ok ((v : Int), s1)

/-- `Bool.decode`: varint then truthiness. -/
def decodeBoolField (s : List Nat) : Except DecodeErr (Bool × List Nat) := do
  let (v, s1) ← decode_varint s
  .ok (v ≠ 0, s1)

/-- `EnumField.decode`: varint, then the symbol-table filter — an ordinal
outside the declared variants becomes Python `None`. -/
def decodeEnumField (variants : List Int) (s : List Nat) :
    Except DecodeErr (PyValue × List Nat) := do
  let (v, s1) ← decode_varint s
  if variants.contains (v : Int) then .ok (.vint (v : Int), s1)
  else .ok (.vnone, s1)

/-- The `wire_type_to_decoder` skip table used for unknown field numbers:
varint, fixed64, length-delimited, fixed32; the group entries raise
NotImplementedError and any other wire type is a KeyError. -/
def skipUnknown (wt : Nat) (s : List Nat) : Except DecodeErr (List Nat) :=
  match wt with
  | 0 => do let (_, s1) ← decode_varint s; .ok s1
  | 1 => if s.length < 8 then .error .truncatedFixed else .ok (s.drop 8)
  | 2 => do let (_, s1) ← decode_bytes s; .ok s1
  | 3 => .error .groupsNotImplemented
  | 4 => .error .groupsNotImplemented
  | 5 => if s.length < 4 then .error .truncatedFixed else .ok (s.drop 4)
  | _ => .error .unknownWireType

/-- `message_fields.setdefault(name, []).append(item)` for unpacked
repeated fields. -/
def appendItem (acc : List (String × PyValue)) (name : String) (item : PyValue) :
    List (String × PyValue) :=
  match lookupData acc name with
  | some (.vlist xs) => assocSet acc name (.vlist (xs ++ [item]))
  | _ => assocSet acc name (.vlist [item])

/-- Python `==` on map keys (keys are scalar: ints, bools, bytes; Python
compares int and bool numerically). -/
def keyEq : PyValue → PyValue → Bool
  | .vint i, .vint j => i == j
  | .vint i, .vbool b => i == (if b then 1 else 0)
  | .vbool b, .vint j => (if b then (1 : Int) else 0) == j
  | .vbool a, .vbool b => a == b
  | .vbytes a, .vbytes b => a == b
  | .vstr a, .vstr b => a == b
  | _, _ => false

/-- `d[key] = value` on a map payload: overwrite the value of an equal key
in place, else append. -/
def dictSet : List (PyValue × PyValue) → PyValue → PyValue → List (PyValue × PyValue)
  | [], k, v => [(k, v)]
  | (k1, v1) :: rest, k, v =>
    if keyEq k1 k then (k1, v) :: rest else (k1, v1) :: dictSet rest k v

/-- `message_fields.setdefault(name, dict())[key] = value` for map fields. -/
def mapInsert (acc : List (String × PyValue)) (name : String) (k v : PyValue) :
    List (String × PyValue) :=
  match lookupData acc name with
  | some (.vdict es) => assocSet acc name (.vdict (dictSet es k v))
  | _ => assocSet acc name (.vdict [(k, v)])

/-- The `_DictEntry` construction after its `from_stream` loop: strict
check on the two required slots, then `__init__` (skipping `None`,
validating the rest) and the `entry.key` / `entry.value` reads. -/
def entryFinish (kT vT : PyFieldType) (mk mv : Option PyValue) :
    Except DecodeErr (PyValue × PyValue) :=
  match mk with
  | none => .error (.missingRequiredField "key")
  | some k =>
    match mv with
    | none => .error (.missingRequiredField "value")
    | some v =>
      match k with
      | .vnone => .ok (.vnone, .vnone)
      | k =>
        if validateValue kT k then
          match v with
          | .vnone => .ok (k, .vnone)
          | v => if validateValue vT v then .ok (k, v) else .error .valueError
        else .error .valueError

mutual
/-- A field's `decode(stream)`. The fuel argument is the embedding's
recursion budget: every recursive call consumes one unit, and the
top-level entry points pick a budget that the proofs show is never
exhausted. -/
def decodeValue : Nat → PyFieldType → List Nat → Except DecodeErr (PyValue × List Nat)
  | _, .int32F, s => do let (i, s1) ← decodeIntField s; .ok (.vint i, s1)
  | _, .int64F, s => do let (i, s1) ← decodeIntField s; .ok (.vint i, s1)
  | _, .uint32F, s => do let (i, s1) ← decodeUIntField s; .ok (.vint i, s1)
  | _, .uint64F, s => do let (i, s1) ← decodeUIntField s; .ok (.vint i, s1)
  | _, .boolF, s => do let (b, s1) ← decodeBoolField s; .ok (.vbool b, s1)
  | _, .bytesF, s => do let (bs, s1) ← decode_bytes s; .ok (.vbytes bs, s1)
  -- SInt.decode: varint, then zigzag
  | _, .sint32F, s => do
    let (z, s1) ← decode_varint s
    .ok (.vint (decode_zig_zag (z : Int)), s1)
  | _, .sint64F, s => do
    let (z, s1) ← decode_varint s
    .ok (.vint (decode_zig_zag (z : Int)), s1)
  -- Fixed/SFixed.decode: read 4/8 bytes, struct.unpack
  | _, .fixed32F, s => do
    let (n, s1) ← decode_le 4 s
    .ok (.vint (n : Int), s1)
  | _, .fixed64F, s => do
    let (n, s1) ← decode_le 8 s
    .ok (.vint (n : Int), s1)
  | _, .sfixed32F, s => do
    let (n, s1) ← decode_le 4 s
    .ok (.vint (fromTwos 32 n), s1)
  | _, .sfixed64F, s => do
    let (n, s1) ← decode_le 8 s
    .ok (.vint (fromTwos 64 n), s1)
  -- Float/Double.decode: read 4/8 bytes, struct.unpack('<f'/'<d')
  | _, .floatF, s => do
    let (n, s1) ← decode_le 4 s
    .ok (.vfloat (fp32to64 n), s1)
  | _, .doubleF, s => do
    let (n, s1) ← decode_le 8 s
    .ok (.vfloat n, s1)
  -- String.decode: decode_bytes then bytes.decode('utf-8')
  | _, .stringF, s => do
    let (bs, s1) ← decode_bytes s
    let cps ← utf8Decode bs
    .ok (.vstr cps, s1)
  | _, .enumF variants, s => decodeEnumField variants s
  | fuel, .messageF nm flds oos, s => do
    -- MessageField.decode: length varint, then from_stream over the slice
    -- (stream.read(length) silently yields a short slice near EOF)
    let (len, s1) ← decode_varint s
    let slice := s1.take len
    let rest := s1.drop len
    match fuel with
    | 0 => .error .fuelOut
    | f + 1 => do
      let acc ← fromStreamLoop f flds [] slice
      strictCheck flds acc
      let inst ← initKwargs flds oos acc ⟨[], []⟩
      .ok (.vmsg nm inst.data, rest)
  | fuel, .repeatedF elem packed, s =>
    if packed then do
      -- PackedRepeatedStrategy.decode
      let (slice, rest) ← decode_bytes s
      match fuel with
      | 0 => .error .fuelOut
      | f + 1 => do
        let items ← packedLoop f elem slice
        .ok (.vlist items, rest)
    else
      -- UnpackedRepeatedStrategy.decode: exactly one inner item
      match fuel with
      | 0 => .error .fuelOut
      | f + 1 => decodeValue f elem s
  | _, .mapF _ _, _ =>
    -- MapField.decode returns a (key, value) tuple; the decode loop calls
    -- decodeMapEntry directly, so this arm is unreachable
    .error .valueError
termination_by structural fuel _ _ => fuel

/-- `MapField.decode`: a length-delimited `_DictEntry`, returning the
`(entry.key, entry.value)` pair. -/
def decodeMapEntry : Nat → PyFieldType → PyFieldType → List Nat →
    Except DecodeErr ((PyValue × PyValue) × List Nat)
  | fuel, kT, vT, s => do
    let (slice, rest) ← decode_bytes s
    match fuel with
    | 0 => .error .fuelOut
    | f + 1 => do
      let (mk, mv) ← entryLoop f kT vT none none slice
      let (k, v) ← entryFinish kT vT mk mv
      .ok ((k, v), rest)
termination_by structural fuel _ _ _ => fuel

/-- The `from_stream` loop specialised to the synthetic `_DictEntry`
message: field 1 is the key, field 2 the value, anything else is skipped. -/
def entryLoop : Nat → PyFieldType → PyFieldType → Option PyValue → Option PyValue →
    List Nat → Except DecodeErr (Option PyValue × Option PyValue)
  | fuel, kT, vT, mk, mv, s =>
    match decode_header s with
    | .error _ => .ok (mk, mv)
    | .ok ((number, wt), s1) =>
      match fuel with
      | 0 => .error .fuelOut
      | f + 1 =>
        if number = 1 then
          if wireTypeOf kT ≠ wt then .error .wireTypeMismatch
          else do
            let (k, s2) ← decodeValue f kT s1
            entryLoop f kT vT (some k) mv s2
        else if number = 2 then
          if wireTypeOf vT ≠ wt then .error .wireTypeMismatch
          else do
            let (v, s2) ← decodeValue f vT s1
            entryLoop f kT vT mk (some v) s2
        else
          match skipUnknown wt s1 with
          | .error e => .error e
          | .ok s2 => entryLoop f kT vT mk mv s2
termination_by structural fuel _ _ _ _ _ => fuel

/-- `PackedRepeatedStrategy.decode`'s inner loop: read items until the
sliced buffer is exhausted. -/
def packedLoop : Nat → PyFieldType → List Nat → Except DecodeErr (List PyValue)
  | _, _, [] => .ok []
  | fuel, elem, s =>
    match fuel with
    | 0 => .error .fuelOut
    | f + 1 => do
      let (v, s1) ← decodeValue f elem s
      let items ← packedLoop f elem s1
      .ok (v :: items)
termination_by structural fuel _ _ => fuel

/-- The `while True` loop of `Message.from_stream`: read a header
(`except MessageDecodeError: break`), dispatch known numbers by field
kind, skip unknown numbers through the wire-type table. -/
def fromStreamLoop : Nat → FieldList → List (String × PyValue) → List Nat →
    Except DecodeErr (List (String × PyValue))
  | fuel, flds, acc, s =>
    match decode_header s with
    | .error _ => .ok acc
    | .ok ((number, wt), s1) =>
      match fuel with
      | 0 => .error .fuelOut
      | f + 1 =>
        match findByNumber flds number with
        | some (name, ftype, _, _) =>
          if wireTypeOf ftype ≠ wt then .error .wireTypeMismatch
          else
            match ftype with
            | .repeatedF elem false => do
              let (item, s2) ← decodeValue f (.repeatedF elem false) s1
              fromStreamLoop f flds (appendItem acc name item) s2
            | .mapF kT vT => do
              let ((k, v), s2) ← decodeMapEntry f kT vT s1
              fromStreamLoop f flds (mapInsert acc name k v) s2
            | ftype => do
              let (v, s2) ← decodeValue f ftype s1
              fromStreamLoop f flds (assocSet acc name v) s2
        | none =>
          match skipUnknown wt s1 with
          | .error e => .error e
          | .ok s2 => fromStreamLoop f flds acc s2
termination_by structural fuel _ _ _ => fuel
end

/-- `Message.from_stream` (strict): run the loop, apply the strict
required-field check, then build the instance with `cls(**message_fields)`.
The recursion budget `2 * length + 2` suffices because every loop
iteration consumes at least one byte of the stream and every descent into
a nested value first consumes at least one byte of its slice. -/
def fromStreamRun (flds : FieldList) (oneOfs : List (String × List String))
    (s : List Nat) : Except DecodeErr PyInstance := do
  let acc ← fromStreamLoop (2 * s.length + 2) flds [] s
  strictCheck flds acc
  initKwargs flds oneOfs acc ⟨[], []⟩

/-- `from_bytes` (strict) at a schema. -/
def from_bytes (sch : Schema) (s : List Nat) : Except DecodeErr PyInstance :=
  fromStreamRun sch.fields sch.oneOfs s

/-! ### `which_one_of` and equality -/

/-- `Message.which_one_of(name)`: `ValueError` for a name that is not a
declared one-of group, else the winner recorded in `_which_one_of` (or
`None`). -/
def which_one_of (s : Schema) (m : PyInstance) (g : String) :
    Except DecodeErr (Option String) :=
  if hasOneOf s.oneOfs g then .ok (lookupSel m.oneOfSel g)
  else .error .valueError

/-- Python dict lookup on a map payload. -/
def dictFind : List (PyValue × PyValue) → PyValue → Option PyValue
  | [], _ => none
  | (k1, v1) :: rest, k => if keyEq k1 k then some v1 else dictFind rest k

mutual
/-- Python `==` between two observable field values of the same declared
field. `None == None` is true, `None` against a message raises (reflected
`Message.__eq__` with a non-message operand raises `ValueError`), other
mixed comparisons are false; ints and bools compare numerically; nested
messages compare recursively over their declared fields; lists compare
length-first then pointwise; dicts compare length-first then key-wise. -/
def pyEqV : PyFieldType → PyValue → PyValue → Except DecodeErr Bool
  | _, .vnone, .vnone => .ok true
  | _, .vnone, .vmsg _ _ => .error .valueError
  | _, .vmsg _ _, .vnone => .error .valueError
  | _, .vnone, _ => .ok false
  | _, _, .vnone => .ok false
  | _, .vint i, .vint j => .ok (i == j)
  | _, .vint i, .vbool b => .ok (i == if b then 1 else 0)
  | _, .vbool b, .vint j => .ok ((if b then (1 : Int) else 0) == j)
  | _, .vbool a, .vbool b => .ok (a == b)
  | _, .vbytes a, .vbytes b => .ok (a == b)
  | _, .vfloat a, .vfloat b => .ok (fpEq64 a b)
  | _, .vint i, .vfloat b => .ok (fpEqInt b i)
  | _, .vfloat b, .vint i => .ok (fpEqInt b i)
  | _, .vbool c, .vfloat b => .ok (fpEqInt b (if c then 1 else 0))
  | _, .vfloat b, .vbool c => .ok (fpEqInt b (if c then 1 else 0))
  | _, .vstr a, .vstr b => .ok (a == b)
  | ft, .vmsg nm d, .vmsg nm2 d2 =>
    if nm = nm2 then
      match ft with
      | .messageF _ flds _ => pyMsgEq flds d d2
      | _ => .error .valueError
    else .error .valueError
  | ft, .vlist a, .vlist b =>
    if a.length = b.length then
      match ft with
      | .repeatedF elem _ => pyEqList elem a b
      | _ => .error .valueError
    else .ok false
  | ft, .vdict a, .vdict b =>
    if a.length = b.length then
      match ft with
      | .mapF _ vT => pyEqDict vT a b
      | _ => .error .valueError
    else .ok false
  | _, .vmsg _ _, _ => .error .valueError
  | _, _, .vmsg _ _ => .error .valueError
  | _, _, _ => .ok false
termination_by ft _ _ => (sizeOf ft, 0, 0)

/-- `Message.__eq__` over the declared fields of a message type, comparing
observable (`getattr`) values and short-circuiting like `all(...)`. -/
def pyMsgEq : FieldList → List (String × PyValue) → List (String × PyValue) →
    Except DecodeErr Bool
  | .nil, _, _ => .ok true
  | .cons name _ ftype _ default rest, d, d2 => do
    let b ← pyEqV ftype (getattrF ftype default d name) (getattrF ftype default d2 name)
    if b then pyMsgEq rest d d2 else .ok false
termination_by flds _ _ => (sizeOf flds, 0, 0)

/-- Pointwise list comparison (the caller has already checked lengths). -/
def pyEqList : PyFieldType → List PyValue → List PyValue → Except DecodeErr Bool
  | _, [], _ => .ok true
  | elem, x :: xs, y :: ys => do
    let b ← pyEqV elem x y
    if b then pyEqList elem xs ys else .ok false
  | _, _ :: _, [] => .ok false
termination_by elem a _ => (sizeOf elem, 1, a.length)

/-- Key-wise dict comparison (the caller has already checked lengths). -/
def pyEqDict : PyFieldType → List (PyValue × PyValue) → List (PyValue × PyValue) →
    Except DecodeErr Bool
  | _, [], _ => .ok true
  | vT, (k, v) :: rest, b =>
    match dictFind b k with
    | none => .ok false
    | some w => do
      let e ← pyEqV vT v w
      if e then pyEqDict vT rest b else .ok false
termination_by vT a _ => (sizeOf vT, 1, a.length)
end

/-- `Message.__eq__` at the instance level: `isinstance(other, type(self))`
(same class) or `ValueError`; then all declared fields' observable values
must match. -/
def eqPy (s1 : Schema) (m1 : PyInstance) (s2 : Schema) (m2 : PyInstance) :
    Except DecodeErr Bool :=
  if s2.typeName = s1.typeName then pyMsgEq s1.fields m1.data m2.data
  else .error .valueError

/-- The field table as a plain list of declarations. -/
def fieldDecls : FieldList → List (String × Nat × PyFieldType × Bool × Option PyValue)
  | .nil => []
  | .cons n num ft req dflt rest => (n, num, ft, req, dflt) :: fieldDecls rest

/-! ## Dictionary lemmas -/

theorem lookupData_assocSet (d : List (String × PyValue)) (k : String) (v : PyValue) :
    lookupData (assocSet d k v) k = some v := by
  induction d with
  | nil => simp [assocSet, lookupData]
  | cons p rest ih =>
    by_cases h : p.1 = k
    · simp [assocSet, h, lookupData]
    · simp [assocSet, h, lookupData, ih]

theorem lookupData_assocSet_ne (d : List (String × PyValue)) {k y : String}
    (v : PyValue) (h : k ≠ y) :
    lookupData (assocSet d k v) y = lookupData d y := by
  induction d with
  | nil => simp [assocSet, lookupData, h]
  | cons p rest ih =>
    by_cases hp : p.1 = k
    · subst hp
      simp [assocSet, lookupData, h, ih]
    · simp [assocSet, hp, lookupData, ih]

theorem popName_sublist (d : List (String × PyValue)) (k : String) :
    (popName d k).Sublist d := by
  induction d with
  | nil => simp [popName]
  | cons p rest ih =>
    by_cases h : p.1 = k
    · simp only [popName, h, if_pos rfl]
      exact (List.sublist_cons_self p rest)
    · simp only [popName, h, if_neg h]
      exact ih.cons₂ p

theorem lookupData_eq_none_of_not_mem (d : List (String × PyValue)) (k : String)
    (h : k ∉ d.map Prod.fst) : lookupData d k = none := by
  induction d with
  | nil => simp [lookupData]
  | cons p rest ih =>
    simp only [List.map_cons, List.mem_cons] at h
    push_neg at h
    have hne : p.1 ≠ k := fun hh => h.1 hh.symm
    simp [lookupData, hne, ih h.2]

theorem lookupData_popName_self (d : List (String × PyValue)) (k : String)
    (hd : (d.map Prod.fst).Nodup) : lookupData (popName d k) k = none := by
  induction d with
  | nil => simp [popName, lookupData]
  | cons p rest ih =>
    simp only [List.map_cons, List.nodup_cons] at hd
    by_cases h : p.1 = k
    · subst h
      simp only [popName, if_pos rfl]
      exact lookupData_eq_none_of_not_mem rest p.1 hd.1
    · simp [popName, h, lookupData, ih hd.2]

theorem lookupData_popName_ne (d : List (String × PyValue)) {k y : String}
    (h : k ≠ y) : lookupData (popName d k) y = lookupData d y := by
  induction d with
  | nil => simp [popName, lookupData]
  | cons p rest ih =>
    by_cases hp : p.1 = k
    · subst hp
      simp [popName, lookupData, h, ih]
    · simp [popName, hp, lookupData, ih]

theorem popAll_keys_nodup (names : List String) (d : List (String × PyValue))
    (hd : (d.map Prod.fst).Nodup) : ((popAll d names).map Prod.fst).Nodup := by
  induction names generalizing d with
  | nil => simpa [popAll]
  | cons n rest ih =>
    have h1 : ((popName d n).map Prod.fst).Nodup :=
      ((popName_sublist d n).map Prod.fst).nodup hd
    simpa [popAll] using ih (popName d n) h1

theorem lookupData_popName_of_none (d : List (String × PyValue)) (k y : String)
    (h : lookupData d y = none) : lookupData (popName d k) y = none := by
  induction d with
  | nil => simp [popName, lookupData]
  | cons p rest ih =>
    simp only [lookupData] at h
    by_cases hp : p.1 = y
    · simp [hp] at h
    · simp only [if_neg hp] at h
      by_cases hk : p.1 = k
      · simpa [popName, hk] using h
      · simp [popName, hk, lookupData, hp, ih h]

theorem lookupData_popAll_of_none (names : List String) (d : List (String × PyValue))
    (y : String) (h : lookupData d y = none) : lookupData (popAll d names) y = none := by
  induction names generalizing d with
  | nil => simpa [popAll]
  | cons n rest ih =>
    simpa [popAll] using ih (popName d n) (lookupData_popName_of_none d n y h)

theorem lookupData_popAll_mem (names : List String) (d : List (String × PyValue))
    (y : String) (hy : y ∈ names) (hd : (d.map Prod.fst).Nodup) :
    lookupData (popAll d names) y = none := by
  induction names generalizing d with
  | nil => simp at hy
  | cons n rest ih =>
    have h1 : ((popName d n).map Prod.fst).Nodup :=
      ((popName_sublist d n).map Prod.fst).nodup hd
    by_cases hmem : y ∈ rest
    · simpa [popAll] using ih (popName d n) hmem h1
    · have hyn : y = n := by
        rcases List.mem_cons.mp hy with h | h
        · exact h
        · exact absurd h hmem
      subst hyn
      have h0 : lookupData (popName d y) y = none := lookupData_popName_self d y hd
      simpa [popAll] using lookupData_popAll_of_none rest (popName d y) y h0

theorem lookupSel_assocSetSel (sel : List (String × String)) (k v : String) :
    lookupSel (assocSetSel sel k v) k = some v := by
  induction sel with
  | nil => simp [assocSetSel, lookupSel]
  | cons p rest ih =>
    by_cases h : p.1 = k
    · simp [assocSetSel, h, lookupSel]
    · simp [assocSetSel, h, lookupSel, ih]

theorem oneOfByMember_mem_fields (oos : List (String × List String)) (x : String)
    (grp : String × List String) (h : oneOfByMember oos x = some grp) :
    x ∈ grp.2 := by
  induction oos with
  | nil => simp [oneOfByMember] at h
  | cons g rest ih =>
    rw [oneOfByMember] at h
    by_cases hc : g.2.contains x
    · rw [if_pos hc] at h
      cases h
      exact List.mem_of_elem_eq_true hc
    · rw [if_neg hc] at h
      exact ih h

theorem oneOfByMember_hasOneOf (oos : List (String × List String)) (x : String)
    (grp : String × List String) (h : oneOfByMember oos x = some grp) :
    hasOneOf oos grp.1 = true := by
  induction oos with
  | nil => simp [oneOfByMember] at h
  | cons g rest ih =>
    rw [oneOfByMember] at h
    by_cases hc : g.2.contains x
    · rw [if_pos hc] at h
      cases h
      simp [hasOneOf]
    · rw [if_neg hc] at h
      have h2 := ih h
      simp only [hasOneOf, List.any_eq_true] at h2 ⊢
      obtain ⟨p, hpmem, hppred⟩ := h2
      exact ⟨p, List.mem_cons_of_mem _ hpmem, hppred⟩

/-! ## One-of claims -/

/-- Claim C3: writing any member `x` of a one-of group `g`, regardless of
the prior state, makes `which_one_of(g)` return `x`, stores `x` in the
value map, and removes every other member of `g` from the value map (they
read as absent), all in the one setter call. -/
theorem one_of_write_exclusive (s : Schema) (m : PyInstance) (x : String) (v : PyValue)
    (grp : String × List String) (num : Nat) (ftype : PyFieldType) (req : Bool)
    (dflt : Option PyValue)
    (hfind : findByName s.fields x = some (num, ftype, req, dflt))
    (hgrp : oneOfByMember s.oneOfs x = some grp)
    (hval : validateValue ftype v = true)
    (hnodup : (m.data.map Prod.fst).Nodup) :
    ∃ m', setattrPy s.fields s.oneOfs m x v = .ok m' ∧
      which_one_of s m' grp.1 = .ok (some x) ∧
      lookupData m'.data x = some v ∧
      ∀ y, y ∈ grp.2 → y ≠ x → lookupData m'.data y = none := by
  refine ⟨⟨assocSet (popAll m.data grp.2) x v, assocSetSel m.oneOfSel grp.1 x⟩,
    ?_, ?_, ?_, ?_⟩
  · simp [setattrPy, hfind, hgrp, hval]
  · simp [which_one_of, oneOfByMember_hasOneOf _ _ _ hgrp, lookupSel_assocSetSel]
  · exact lookupData_assocSet _ x v
  · intro y hy hyx
    rw [lookupData_assocSet_ne _ _ (fun hh => hyx hh.symm)]
    exact lookupData_popAll_mem grp.2 m.data y hy hnodup

/-- Witness for C3: a two-member group where `b` was previously the winner
and `a` is written. -/
theorem one_of_write_exclusive_witness :
    ∃ m', setattrPy
        (.cons "a" 1 .int32F false none (.cons "b" 2 .int32F false none .nil))
        [("g", ["a", "b"])]
        ⟨[("b", .vint 2)], [("g", "b")]⟩ "a" (.vint 1) = .ok m' ∧
      which_one_of ⟨"M", .cons "a" 1 .int32F false none
          (.cons "b" 2 .int32F false none .nil), [("g", ["a", "b"])]⟩ m' "g"
        = .ok (some "a") ∧
      lookupData m'.data "a" = some (.vint 1) ∧
      ∀ y, y ∈ ["a", "b"] → y ≠ "a" → lookupData m'.data y = none :=
  one_of_write_exclusive
    ⟨"M", .cons "a" 1 .int32F false none (.cons "b" 2 .int32F false none .nil),
      [("g", ["a", "b"])]⟩
    ⟨[("b", .vint 2)], [("g", "b")]⟩ "a" (.vint 1) ("g", ["a", "b"]) 1 .int32F
    false none rfl rfl (by decide) (by simp)

/-- Claim C8: `which_one_of` fails with the no-such-one-of `ValueError` on
an undeclared group name; on a declared group it returns exactly the
member recorded in the arbitration map — `none` for a fresh instance, and
the member just written by a successful one-of setter call. -/
theorem which_one_of_reports (s : Schema) (g : String) (m : PyInstance) :
    (hasOneOf s.oneOfs g = false → which_one_of s m g = .error .valueError) ∧
    (hasOneOf s.oneOfs g = true → which_one_of s m g = .ok (lookupSel m.oneOfSel g)) ∧
    (m.oneOfSel = [] → hasOneOf s.oneOfs g = true → which_one_of s m g = .ok none) ∧
    (∀ x v m' grp num ftype req dflt,
      findByName s.fields x = some (num, ftype, req, dflt) →
      oneOfByMember s.oneOfs x = some grp →
      grp.1 = g →
      setattrPy s.fields s.oneOfs m x v = .ok m' →
      which_one_of s m' g = .ok (some x)) := by
  refine ⟨?_, ?_, ?_, ?_⟩
  · intro h
    simp [which_one_of, h]
  · intro h
    simp [which_one_of, h]
  · intro hsel h
    simp [which_one_of, h, hsel, lookupSel]
  · intro x v m' grp num ftype req dflt hfind hgrp hg hset
    simp only [setattrPy, hfind, hgrp] at hset
    by_cases hval : validateValue ftype v
    · rw [if_pos hval] at hset
      cases hset
      have h2 := oneOfByMember_hasOneOf _ _ _ hgrp
      subst hg
      simp [which_one_of, h2, lookupSel_assocSetSel]
    · rw [if_neg hval] at hset
      cases hset

/-- Witness for C8 covering the error case, the fresh case and the
post-write case. -/
theorem which_one_of_reports_witness :
    (which_one_of ⟨"M", .cons "a" 1 .int32F false none
        (.cons "b" 2 .int32F false none .nil), [("g", ["a", "b"])]⟩
      ⟨[], []⟩ "h" = .error .valueError) ∧
    (which_one_of ⟨"M", .cons "a" 1 .int32F false none
        (.cons "b" 2 .int32F false none .nil), [("g", ["a", "b"])]⟩
      ⟨[], []⟩ "g" = .ok none) ∧
    (∀ m', setattrPy
        (.cons "a" 1 .int32F false none (.cons "b" 2 .int32F false none .nil))
        [("g", ["a", "b"])] ⟨[], []⟩ "b" (.vint 7) = .ok m' →
      which_one_of ⟨"M", .cons "a" 1 .int32F false none
          (.cons "b" 2 .int32F false none .nil), [("g", ["a", "b"])]⟩ m' "g"
        = .ok (some "b")) :=
  ⟨(which_one_of_reports _ "h" _).1 rfl,
    (which_one_of_reports _ "g" _).2.2.1 rfl rfl,
    fun m' hset => (which_one_of_reports _ "g" _).2.2.2 "b" (.vint 7) m'
      ("g", ["a", "b"]) 2 .int32F false none rfl rfl rfl hset⟩

/-! ## Header and stream lemmas -/

theorem decode_varint_encode (x : Nat) (rest : List Nat) (hx : x < 2 ^ 64) :
    decode_varint (encode_varint x ++ rest) = .ok (x, rest) := by
  have hdiv : x / 128 < 128 ^ 9 := by
    rw [Nat.div_lt_iff_lt_mul (by norm_num)]
    calc x < 2 ^ 64 := hx
      _ ≤ 128 ^ 9 * 128 := by norm_num
  have hlen : (encodeVarintGo (x % 128) (x / 128)).length ≤ 10 :=
    encodeVarintGo_length (x % 128) hdiv
  unfold decode_varint encode_varint
  rw [decodeVarintLoop_encodeGo (x / 128) (x % 128) 0 0 rest 10
    (Nat.mod_lt _ (by norm_num)) hlen]
  rw [Nat.mod_add_div x 128]
  simp

theorem header_value_eq (number wt : Nat) (hwt : wt < 8) :
    number <<< 3 ||| wt = 8 * number + wt := by
  have h := Nat.mul_add_lt_is_or (b := wt) (i := 3) (by simpa using hwt) number
  rw [Nat.shiftLeft_eq]
  have h8 : (2 : Nat) ^ 3 = 8 := by norm_num
  rw [h8] at h
  rw [Nat.mul_comm number 8, ← h]

theorem decode_header_encode (number wt : Nat) (rest : List Nat)
    (hn : number < 2 ^ 29) (hwt : wt < 8) :
    decode_header (fieldHeader number wt ++ rest) = .ok ((number, wt), rest) := by
  rw [decode_header, fieldHeader, header_value_eq number wt hwt,
    decode_varint_encode (8 * number + wt) rest (by omega)]
  have hdiv : (8 * number + wt) >>> 3 = number := by
    rw [Nat.shiftRight_eq_div_pow]
    norm_num
    omega
  have hmod : (8 * number + wt) &&& 7 = wt := by
    have h7 : (7 : Nat) = 2 ^ 3 - 1 := by norm_num
    rw [h7, Nat.and_pow_two_sub_one_eq_mod]
    norm_num
    omega
  show Except.ok (((8 * number + wt) >>> 3, (8 * number + wt) &&& 7), rest)
    = Except.ok ((number, wt), rest)
  rw [hdiv, hmod]

theorem fromStreamLoop_nil (fuel : Nat) (flds : FieldList)
    (acc : List (String × PyValue)) : fromStreamLoop fuel flds acc [] = .ok acc := by
  rw [fromStreamLoop]
  rfl

/-! ## Enum tolerance (C4) -/

/-- Claim C4: decoding a message whose enum field carries an ordinal that
is not one of the declared variants succeeds, and the enum field is absent
from the resulting instance's value map. -/
theorem enum_unknown_decodes_absent (flds : FieldList)
    (oos : List (String × List String)) (name : String) (number : Nat)
    (variants : List Int) (req : Bool) (dflt : Option PyValue) (w : Nat)
    (hfind : findByNumber flds number = some (name, .enumF variants, req, dflt))
    (hname : (findByName flds name).isSome = true)
    (hn : number < 2 ^ 29) (hw : w < 2 ^ 64)
    (hunk : variants.contains ((w : Nat) : Int) = false)
    (hstrict : strictCheck flds [(name, .vnone)] = .ok ()) :
    ∃ inst, fromStreamRun flds oos (fieldHeader number 0 ++ encode_varint w)
        = .ok inst ∧ lookupData inst.data name = none := by
  have hstep : ∀ f : Nat,
      fromStreamLoop (f + 1) flds [] (fieldHeader number 0 ++ encode_varint w)
        = .ok [(name, .vnone)] := by
    intro f
    rw [fromStreamLoop, decode_header_encode number 0 _ hn (by norm_num)]
    show (match f + 1 with
      | 0 => Except.error DecodeErr.fuelOut
      | _ + 1 => _) = _
    simp only [Nat.add_eq, hfind]
    rw [if_neg (by simp [wireTypeOf])]
    have hval : decodeValue f (.enumF variants) (encode_varint w)
        = .ok (.vnone, []) := by
      rw [decodeValue, decodeEnumField,
        show encode_varint w = encode_varint w ++ [] by simp]
      simp only [decode_varint_encode w [] hw, ok_bind, hunk]
      simp
    simp only [hval, ok_bind]
    rw [show assocSet [] name PyValue.vnone = [(name, .vnone)] from rfl]
    exact fromStreamLoop_nil f flds [(name, .vnone)]
  refine ⟨⟨[], []⟩, ?_, by simp [lookupData]⟩
  rw [fromStreamRun]
  rw [show 2 * (fieldHeader number 0 ++ encode_varint w).length + 2
    = (2 * (fieldHeader number 0 ++ encode_varint w).length + 1) + 1 from rfl]
  rw [hstep (2 * (fieldHeader number 0 ++ encode_varint w).length + 1), ok_bind,
    hstrict, ok_bind]
  rw [initKwargs, if_pos hname]
  rfl

/-- Witness for C4: a one-field message whose enum has variants `[1, 2]`
decoding ordinal 5. -/
theorem enum_unknown_decodes_absent_witness :
    ∃ inst, fromStreamRun (.cons "c" 1 (.enumF [1, 2]) false none .nil) []
        (fieldHeader 1 0 ++ encode_varint 5) = .ok inst ∧
      lookupData inst.data "c" = none :=
  enum_unknown_decodes_absent (.cons "c" 1 (.enumF [1, 2]) false none .nil) []
    "c" 1 [1, 2] false none 5 rfl rfl (by norm_num) (by norm_num) (by decide) rfl

/-! ## Well-formedness for the round-trip claim (C1)

These predicates say when a schema is constructible by the Python runtime
(distinct names/numbers, valid field numbers, valid defaults, legal map
keys, non-negative enum variants) and when an instance holds data a real
message can hold and serialize (validated values, required fields present
recursively, at most one member per one-of group, payload lengths below
`2^64`). -/

theorem findByName_sizeOf (flds : FieldList) (k : String) (num : Nat)
    (ftype : PyFieldType) (req : Bool) (dflt : Option PyValue)
    (h : findByName flds k = some (num, ftype, req, dflt)) :
    sizeOf ftype < sizeOf flds := by
  induction flds using fieldListInduction with
  | hnil => simp [findByName] at h
  | hcons n num2 ft2 req2 dflt2 rest ih =>
    rw [findByName] at h
    by_cases hn : n = k
    · rw [if_pos hn] at h
      cases h
      simp
      omega
    · rw [if_neg hn] at h
      have := ih h
      simp
      omega

/-- Distinct keys in a value map. -/
def noDupKeys : List (String × PyValue) → Bool
  | [] => true
  | (k, _) :: rest => !(rest.any fun e => e.1 == k) && noDupKeys rest

/-- Distinct keys in a map-field payload. -/
def keysDistinctB : List (PyValue × PyValue) → Bool
  | [] => true
  | (k, _) :: rest => (rest.all fun e => !keyEq e.1 k) && keysDistinctB rest

/-- At most one member of each one-of group appears in the value map. -/
def noGroupClash (oneOfs : List (String × List String)) :
    List (String × PyValue) → Bool
  | [] => true
  | (k, _) :: rest =>
    (match oneOfByMember oneOfs k with
     | some grp => rest.all fun e => !grp.2.contains e.1
     | none => true) && noGroupClash oneOfs rest

/-- One-of groups have pairwise disjoint member lists. -/
def oneOfsOK : List (String × List String) → Bool
  | [] => true
  | g :: rest =>
    (rest.all fun g2 => g.2.all fun n => !g2.2.contains n) && oneOfsOK rest

/-- A simple (non-repeated, non-map) element type, as `Repeated(of_type)`
and map values can mention; packed repeated additionally excludes message
elements. -/
def simpleElem : PyFieldType → Bool
  | .repeatedF _ _ => false
  | .mapF _ _ => false
  | _ => true

/-- The map key kinds the round trip is claimed for: the int, sint, fixed
and bool members of `MapField.valid_key_fields` (every valid key kind
except `String`, whose unbounded key encoding is outside the per-entry
byte accounting used here). -/
def mapKeyKind : PyFieldType → Bool
  | .int32F | .int64F | .uint32F | .uint64F | .boolF => true
  | .sint32F | .sint64F => true
  | .fixed32F | .fixed64F | .sfixed32F | .sfixed64F => true
  | _ => false

mutual
/-- A value a real, fully initialized instance can hold at a field of this
type: it validates, nested messages are recursively initialized and
well-keyed, enum members are non-negative, map keys are distinct, and
length-delimited payloads stay below the varint decoder's `2^64` range. -/
def valueOK : PyFieldType → PyValue → Bool
  | .int32F, v => validateValue .int32F v
  | .int64F, v => validateValue .int64F v
  | .uint32F, v => validateValue .uint32F v
  | .uint64F, v => validateValue .uint64F v
  | .sint32F, v => validateValue .sint32F v
  | .sint64F, v => validateValue .sint64F v
  | .fixed32F, v => validateValue .fixed32F v
  | .fixed64F, v => validateValue .fixed64F v
  | .sfixed32F, v => validateValue .sfixed32F v
  | .sfixed64F, v => validateValue .sfixed64F v
  | .floatF, v => validateValue .floatF v
  | .doubleF, v => validateValue .doubleF v
  | .stringF, .vstr cps =>
    -- encodable (no lone surrogates) with the payload below the varint
    -- length range
    (match utf8Encode cps with
     | .ok data => decide (data.length < 2 ^ 64)
     | .error _ => false)
  | .boolF, v => validateValue .boolF v
  | .bytesF, .vbytes bs => decide (bs.length < 2 ^ 64)
  | .enumF variants, .vint i => variants.contains i && decide (0 ≤ i)
  | .messageF nm flds oos, .vmsg nm2 d =>
    nm == nm2 && noDupKeys d && noGroupClash oos d && isInitialized flds d &&
      dataOK flds d &&
      (match encodeFields flds d with
       | .ok bs => decide (bs.length < 2 ^ 64)
       | .error _ => true)
  | .repeatedF elem packed, .vlist xs =>
    valuesOK elem xs &&
      (!packed ||
        match encodePackedItems elem xs with
        | .ok bs => decide (bs.length < 2 ^ 64)
        | .error _ => true)
  | .mapF kT vT, .vdict es => entriesOK kT vT es && keysDistinctB es
  | _, _ => false
termination_by ft v => (sizeOf ft, sizeOf v, 0)

def valuesOK (elem : PyFieldType) : List PyValue → Bool
  | [] => true
  | x :: xs => valueOK elem x && valuesOK elem xs
termination_by xs => (sizeOf elem, sizeOf xs, 1)

def entriesOK (kT vT : PyFieldType) : List (PyValue × PyValue) → Bool
  | [] => true
  | (k, v) :: es =>
    valueOK kT k && valueOK vT v &&
      (match encodeValueOnly 2 vT v with
       | .ok vb => decide (vb.length + 12 < 2 ^ 64)
       | .error _ => true) &&
      entriesOK kT vT es
termination_by es => (sizeOf kT + sizeOf vT, sizeOf es, 1)
decreasing_by
  all_goals
    first
    | decreasing_tactic
    | (have h1 := sizeOf_pyFieldType_pos vT
       have h2 := sizeOf_pyFieldType_pos kT
       decreasing_tactic)

/-- Every entry of a value map is a declared field holding an OK value. -/
def dataOK (flds : FieldList) : List (String × PyValue) → Bool
  | [] => true
  | (k, v) :: rest =>
    (match h : findByName flds k with
     | some (_, ftype, _, _) => valueOK ftype v
     | none => false) && dataOK flds rest
termination_by d => (sizeOf flds, sizeOf d, 2)
decreasing_by
  all_goals
    first
    | decreasing_tactic
    | (have h1 := sizeOf_pyFieldType_pos vT
       have h2 := sizeOf_pyFieldType_pos kT
       decreasing_tactic)
    | (have h1 := findByName_sizeOf _ _ _ _ _ _ h
       decreasing_tactic)
end

/-- No one-of member carries a declared default (defaulted members would
be re-encoded from their default and could evict one another during the
decode-side construction; the Python runtime permits them but the round
trip is only claimed without them). -/
def membersPlain (flds : FieldList) (oneOfs : List (String × List String)) : Bool :=
  oneOfs.all fun g => g.2.all fun n =>
    match findByName flds n with
    | some (_, _, _, dflt) => dflt.isNone
    | none => true

mutual
/-- A field type the round trip is claimed for: any type the generated
runtime can declare except `float`/`double` — those are deliberately
excluded because the round trip is false for them in the source (float32
rounding changes stored doubles, and NaN compares unequal to itself; see
the C1 counterexample) — with, additionally, non-negative 32-bit enum
variants and map keys from the int/bool subset of `valid_key_fields`. -/
def fieldTypeOK : PyFieldType → Bool
  | .int32F | .int64F | .uint32F | .uint64F | .boolF | .bytesF => true
  | .sint32F | .sint64F => true
  | .fixed32F | .fixed64F | .sfixed32F | .sfixed64F => true
  | .stringF => true
  | .floatF | .doubleF => false
  | .enumF variants =>
    variants.all fun i => decide (0 ≤ i) && decide (i < 2 ^ 31)
  | .messageF _ flds oos => fieldsOK flds && oneOfsOK oos && membersPlain flds oos
  | .repeatedF elem packed =>
    simpleElem elem && fieldTypeOK elem &&
      (!packed || match elem with | .messageF _ _ _ => false | _ => true)
  | .mapF kT vT => mapKeyKind kT && simpleElem vT && fieldTypeOK kT && fieldTypeOK vT
termination_by ft => (sizeOf ft, 0)

/-- A well-formed field table: valid and distinct field numbers, distinct
names, OK field types, deeply valid declared defaults, and no
required/defaulted repeated or map fields (their constructors do not
accept those arguments). -/
def fieldsOK : FieldList → Bool
  | .nil => true
  | .cons name number ftype req dflt rest =>
    decide (1 ≤ number) && decide (number < 2 ^ 29) &&
      !(decide (19000 ≤ number) && decide (number < 20000)) &&
      fieldTypeOK ftype &&
      (match dflt with
       | none => true
       | some d => valueOK ftype d) &&
      (match ftype with
       | .repeatedF _ _ => !req && dflt.isNone
       | .mapF _ _ => !req && dflt.isNone
       | .messageF _ _ _ => dflt.isNone
       | _ => true) &&
      (findByName rest name).isNone && (findByNumber rest number).isNone &&
      fieldsOK rest
termination_by flds => (sizeOf flds, 1)
end

/-- Python `value is None` as a Boolean. -/
def pvIsNone : PyValue → Bool
  | .vnone => true
  | _ => false

/-- Whether `to_stream` emits at least one wire item for this field value
(`None` is skipped; empty repeated/map collections encode to nothing). -/
def chunkYieldsEntry (ft : PyFieldType) (v : PyValue) : Bool :=
  match ft, v with
  | .repeatedF _ _, .vlist xs => !xs.isEmpty
  | .mapF _ _, .vdict es => !es.isEmpty
  | _, v => !pvIsNone v

/-- The names, in declaration order, under which the decode loop
accumulates an entry when decoding this instance's serialization. -/
def encodedNames : FieldList → List (String × PyValue) → List String
  | .nil, _ => []
  | .cons name _ ftype _ dflt rest, d =>
    if chunkYieldsEntry ftype (getattrF ftype dflt d name) then
      name :: encodedNames rest d
    else encodedNames rest d

/-! ## Bridge lemmas between the predicates -/

mutual
theorem valueOK_validateValue (ft : PyFieldType) (v : PyValue)
    (h : valueOK ft v = true) : validateValue ft v = true := by
  cases ft with
  | int32F => simpa [valueOK] using h
  | int64F => simpa [valueOK] using h
  | uint32F => simpa [valueOK] using h
  | uint64F => simpa [valueOK] using h
  | boolF => simpa [valueOK] using h
  | sint32F => simpa [valueOK] using h
  | sint64F => simpa [valueOK] using h
  | fixed32F => simpa [valueOK] using h
  | fixed64F => simpa [valueOK] using h
  | sfixed32F => simpa [valueOK] using h
  | sfixed64F => simpa [valueOK] using h
  | floatF => simpa [valueOK] using h
  | doubleF => simpa [valueOK] using h
  | stringF => cases v <;> simp_all [valueOK, validateValue]
  | bytesF => cases v <;> simp_all [valueOK, validateValue]
  | enumF variants => cases v <;> simp_all [valueOK, validateValue]
  | messageF nm flds oos => cases v <;> simp_all [valueOK, validateValue]
  | mapF kT vT => cases v <;> simp_all [valueOK, validateValue]
  | repeatedF elem packed =>
    cases v with
    | vlist xs =>
      rw [validateValue]
      rw [valueOK] at h
      exact valuesOK_validate elem xs (by
        cases hv : valuesOK elem xs
        · rw [hv] at h
          simp at h
        · rfl)
    | vnone => simp [valueOK] at h
    | vint i => simp [valueOK] at h
    | vbool b => simp [valueOK] at h
    | vbytes bs => simp [valueOK] at h
    | vfloat b => simp [valueOK] at h
    | vstr cps => simp [valueOK] at h
    | vmsg nm d => simp [valueOK] at h
    | vdict es => simp [valueOK] at h
termination_by (sizeOf ft, 0)

theorem valuesOK_validate (elem : PyFieldType) (xs : List PyValue)
    (h : valuesOK elem xs = true) :
    (xs.all fun x => validateValue elem x) = true := by
  cases xs with
  | nil => rfl
  | cons x rest =>
    rw [valuesOK] at h
    simp only [Bool.and_eq_true] at h
    simp [List.all_cons, valueOK_validateValue elem x h.1,
      valuesOK_validate elem rest h.2]
termination_by (sizeOf elem, xs.length + 1)
end

theorem fieldsOK_rest {n : String} {num : Nat} {ft : PyFieldType} {req : Bool}
    {dflt : Option PyValue} {rest : FieldList}
    (h : fieldsOK (.cons n num ft req dflt rest) = true) : fieldsOK rest = true := by
  rw [fieldsOK.eq_def] at h
  simp only [Bool.and_eq_true] at h
  exact h.2

theorem fieldDecls_find (flds : FieldList) (h : fieldsOK flds = true) :
    ∀ name number ft req dflt,
      (name, number, ft, req, dflt) ∈ fieldDecls flds →
      findByName flds name = some (number, ft, req, dflt) ∧
        findByNumber flds number = some (name, ft, req, dflt) := by
  induction flds using fieldListInduction with
  | hnil => intro name number ft req dflt hmem; simp [fieldDecls] at hmem
  | hcons n num2 ft2 req2 dflt2 rest ih =>
    intro name number ft req dflt hmem
    rw [fieldsOK.eq_def] at h
    simp only [Bool.and_eq_true] at h
    obtain ⟨⟨⟨⟨⟨⟨⟨⟨h1, h2⟩, h3⟩, h4⟩, h5⟩, h6⟩, hname⟩, hnum⟩, hrest⟩ := h
    rw [fieldDecls] at hmem
    rcases List.mem_cons.mp hmem with heq | hmem2
    · simp only [Prod.mk.injEq] at heq
      obtain ⟨rfl, rfl, rfl, rfl, rfl⟩ := heq
      constructor
      · rw [findByName, if_pos rfl]
      · rw [findByNumber, if_pos rfl]
    · obtain ⟨hfn, hfnum⟩ := ih hrest name number ft req dflt hmem2
      constructor
      · rw [findByName]
        by_cases he : n = name
        · subst he
          rw [hfn] at hname
          simp at hname
        · rw [if_neg he]
          exact hfn
      · rw [findByNumber]
        by_cases he : num2 = number
        · subst he
          rw [hfnum] at hnum
          simp at hnum
        · rw [if_neg he]
          exact hfnum

theorem dataOK_lookup (flds : FieldList) (d : List (String × PyValue))
    (h : dataOK flds d = true) :
    ∀ k v, lookupData d k = some v →
      ∃ num ft req dflt, findByName flds k = some (num, ft, req, dflt) ∧
        valueOK ft v = true := by
  induction d with
  | nil => intro k v hk; simp [lookupData] at hk
  | cons p rest ih =>
    intro k v hk
    obtain ⟨k1, v1⟩ := p
    rw [dataOK] at h
    simp only [Bool.and_eq_true] at h
    rw [lookupData] at hk
    by_cases he : k1 = k
    · rw [if_pos he] at hk
      injection hk with hv
      subst hv
      subst he
      cases hf : findByName flds k1 with
      | none => rw [hf] at h; simp at h
      | some decl =>
        obtain ⟨num, ft, req, dflt⟩ := decl
        rw [hf] at h
        exact ⟨num, ft, req, dflt, rfl, h.1⟩
    · rw [if_neg he] at hk
      exact ih h.2 k v hk

theorem fieldsOK_found (flds : FieldList) (name : String) (num : Nat)
    (ft : PyFieldType) (req : Bool) (dflt : Option PyValue)
    (h : fieldsOK flds = true) (hf : findByName flds name = some (num, ft, req, dflt)) :
    fieldTypeOK ft = true ∧ 1 ≤ num ∧ num < 2 ^ 29 ∧
      (∀ dd, dflt = some dd → valueOK ft dd = true) ∧
      (∀ elem packed, ft = .repeatedF elem packed → req = false ∧ dflt = none) ∧
      (∀ kT vT, ft = .mapF kT vT → req = false ∧ dflt = none) ∧
      (∀ nm fl oos, ft = .messageF nm fl oos → dflt = none) := by
  induction flds using fieldListInduction with
  | hnil => simp [findByName] at hf
  | hcons n num2 ft2 req2 dflt2 rest ih =>
    rw [fieldsOK.eq_def] at h
    simp only [Bool.and_eq_true] at h
    obtain ⟨⟨⟨⟨⟨⟨⟨⟨h1, h2⟩, h3⟩, h4⟩, h5⟩, h6⟩, hname⟩, hnum⟩, hrest⟩ := h
    rw [findByName] at hf
    by_cases he : n = name
    · rw [if_pos he] at hf
      injection hf with e
      injection e with e1 e2
      injection e2 with e3 e4
      injection e4 with e5 e6
      subst e1; subst e3; subst e5; subst e6
      refine ⟨h4, by simpa using h1, by simpa using h2, ?_, ?_, ?_, ?_⟩
      · intro dd hdd
        subst hdd
        simpa using h5
      · intro elem packed hft
        subst hft
        simp only at h6
        simp only [Bool.and_eq_true] at h6
        exact ⟨by simpa using h6.1, Option.isNone_iff_eq_none.mp h6.2⟩
      · intro kT vT hft
        subst hft
        simp only at h6
        simp only [Bool.and_eq_true] at h6
        exact ⟨by simpa using h6.1, Option.isNone_iff_eq_none.mp h6.2⟩
      · intro nm fl oos hft
        subst hft
        simp only at h6
        exact Option.isNone_iff_eq_none.mp h6
    · rw [if_neg he] at hf
      exact ih hrest hf

theorem getattr_ok (flds : FieldList) (d : List (String × PyValue)) (name : String)
    (num : Nat) (ft : PyFieldType) (req : Bool) (dflt : Option PyValue)
    (hfind : findByName flds name = some (num, ft, req, dflt))
    (hflds : fieldsOK flds = true) (hd : dataOK flds d = true) :
    valueOK ft (getattrF ft dflt d name) = true ∨ getattrF ft dflt d name = .vnone := by
  rw [getattrF.eq_def]
  cases hl : lookupData d name with
  | some v =>
    obtain ⟨num2, ft2, req2, dflt2, hf2, hv⟩ := dataOK_lookup flds d hd name v hl
    rw [hfind] at hf2
    injection hf2 with e
    simp only [Prod.mk.injEq] at e
    obtain ⟨-, rfl, -, -⟩ := e
    exact Or.inl hv
  | none =>
    cases ft with
    | repeatedF elem packed =>
      left
      rw [valueOK]
      rw [valuesOK]
      rw [encodePackedItems]
      simp
    | mapF kT vT =>
      left
      rw [valueOK, entriesOK, keysDistinctB]
      simp
    | messageF nm fl oos => exact Or.inr rfl
    | int32F =>
      cases dflt with
      | none => exact Or.inr rfl
      | some dd =>
        exact Or.inl ((fieldsOK_found flds name num _ req _ hflds hfind).2.2.2.1 dd rfl)
    | int64F =>
      cases dflt with
      | none => exact Or.inr rfl
      | some dd =>
        exact Or.inl ((fieldsOK_found flds name num _ req _ hflds hfind).2.2.2.1 dd rfl)
    | uint32F =>
      cases dflt with
      | none => exact Or.inr rfl
      | some dd =>
        exact Or.inl ((fieldsOK_found flds name num _ req _ hflds hfind).2.2.2.1 dd rfl)
    | uint64F =>
      cases dflt with
      | none => exact Or.inr rfl
      | some dd =>
        exact Or.inl ((fieldsOK_found flds name num _ req _ hflds hfind).2.2.2.1 dd rfl)
    | boolF =>
      cases dflt with
      | none => exact Or.inr rfl
      | some dd =>
        exact Or.inl ((fieldsOK_found flds name num _ req _ hflds hfind).2.2.2.1 dd rfl)
    | bytesF =>
      cases dflt with
      | none => exact Or.inr rfl
      | some dd =>
        exact Or.inl ((fieldsOK_found flds name num _ req _ hflds hfind).2.2.2.1 dd rfl)
    | enumF variants =>
      cases dflt with
      | none => exact Or.inr rfl
      | some dd =>
        exact Or.inl ((fieldsOK_found flds name num _ req _ hflds hfind).2.2.2.1 dd rfl)
    | sint32F =>
      cases dflt with
      | none => exact Or.inr rfl
      | some dd =>
        exact Or.inl ((fieldsOK_found flds name num _ req _ hflds hfind).2.2.2.1 dd rfl)
    | sint64F =>
      cases dflt with
      | none => exact Or.inr rfl
      | some dd =>
        exact Or.inl ((fieldsOK_found flds name num _ req _ hflds hfind).2.2.2.1 dd rfl)
    | fixed32F =>
      cases dflt with
      | none => exact Or.inr rfl
      | some dd =>
        exact Or.inl ((fieldsOK_found flds name num _ req _ hflds hfind).2.2.2.1 dd rfl)
    | fixed64F =>
      cases dflt with
      | none => exact Or.inr rfl
      | some dd =>
        exact Or.inl ((fieldsOK_found flds name num _ req _ hflds hfind).2.2.2.1 dd rfl)
    | sfixed32F =>
      cases dflt with
      | none => exact Or.inr rfl
      | some dd =>
        exact Or.inl ((fieldsOK_found flds name num _ req _ hflds hfind).2.2.2.1 dd rfl)
    | sfixed64F =>
      cases dflt with
      | none => exact Or.inr rfl
      | some dd =>
        exact Or.inl ((fieldsOK_found flds name num _ req _ hflds hfind).2.2.2.1 dd rfl)
    | floatF =>
      cases dflt with
      | none => exact Or.inr rfl
      | some dd =>
        exact Or.inl ((fieldsOK_found flds name num _ req _ hflds hfind).2.2.2.1 dd rfl)
    | doubleF =>
      cases dflt with
      | none => exact Or.inr rfl
      | some dd =>
        exact Or.inl ((fieldsOK_found flds name num _ req _ hflds hfind).2.2.2.1 dd rfl)
    | stringF =>
      cases dflt with
      | none => exact Or.inr rfl
      | some dd =>
        exact Or.inl ((fieldsOK_found flds name num _ req _ hflds hfind).2.2.2.1 dd rfl)

theorem keyEq_refl_of_key (kT : PyFieldType) (k : PyValue)
    (hk : mapKeyKind kT = true) (hv : valueOK kT k = true) : keyEq k k = true := by
  cases kT <;> simp [mapKeyKind] at hk <;> cases k <;>
    simp_all [valueOK, validateValue, keyEq]

/-! ### Scalar codec round trips at the value level -/

theorem decode_varint_single (b : Nat) (rest : List Nat) (hb : b < 128) :
    decode_varint (b :: rest) = .ok (b, rest) := by
  rw [decode_varint, decodeVarintLoop]
  simp only [and_128_eq_zero hb, if_pos rfl]
  rw [Nat.mod_eq_of_lt hb]
  simp

theorem decode_bytes_encode (bs rest : List Nat) (hlen : bs.length < 2 ^ 64) :
    decode_bytes (encode_bytes bs ++ rest) = .ok (bs, rest) := by
  rw [decode_bytes, encode_bytes, List.append_assoc]
  simp only [decode_varint_encode bs.length (bs ++ rest) hlen, ok_bind]
  rw [if_neg (by simp)]
  rw [List.take_left, List.drop_left]

theorem decodeIntField_encode (i : Int) (rest : List Nat)
    (h1 : -(2 ^ 63) ≤ i) (h2 : i ≤ 2 ^ 63 - 1) :
    ∃ bs, encodeIntValue i = .ok bs ∧ 0 < bs.length ∧
      decodeIntField (bs ++ rest) = .ok (i, rest) := by
  by_cases hneg : i < 0
  · rw [encodeIntValue, if_pos hneg, encodeVarintInt, if_neg (by omega)]
    refine ⟨encode_varint (i + 2 ^ 64).toNat, rfl, ?_, ?_⟩
    · rw [encode_varint]
      cases h : encodeVarintGo ((i + 2 ^ 64).toNat % 128) ((i + 2 ^ 64).toNat / 128) with
      | nil => exact absurd h (encodeVarintGo_ne_nil _ _)
      | cons a l => simp
    · rw [decodeIntField]
      simp only [decode_varint_encode _ rest (by omega : (i + 2 ^ 64).toNat < 2 ^ 64),
        ok_bind]
      rw [if_pos (by omega)]
      rw [Int.toNat_of_nonneg (by omega : (0 : Int) ≤ i + 2 ^ 64)]
      norm_num
  · rw [encodeIntValue, if_neg hneg, encodeVarintInt, if_neg (by omega)]
    refine ⟨encode_varint i.toNat, rfl, ?_, ?_⟩
    · rw [encode_varint]
      cases h : encodeVarintGo (i.toNat % 128) (i.toNat / 128) with
      | nil => exact absurd h (encodeVarintGo_ne_nil _ _)
      | cons a l => simp
    · rw [decodeIntField]
      simp only [decode_varint_encode _ rest (by omega : i.toNat < 2 ^ 64), ok_bind]
      rw [if_neg (by omega)]
      rw [Int.toNat_of_nonneg (by omega : (0 : Int) ≤ i)]

theorem decodeUIntField_encode (i : Int) (rest : List Nat)
    (h1 : 0 ≤ i) (h2 : i ≤ 2 ^ 64 - 1) :
    ∃ bs, encodeIntValue i = .ok bs ∧ 0 < bs.length ∧
      decodeUIntField (bs ++ rest) = .ok (i, rest) := by
  rw [encodeIntValue, if_neg (by omega), encodeVarintInt, if_neg (by omega)]
  refine ⟨encode_varint i.toNat, rfl, ?_, ?_⟩
  · rw [encode_varint]
    cases h : encodeVarintGo (i.toNat % 128) (i.toNat / 128) with
    | nil => exact absurd h (encodeVarintGo_ne_nil _ _)
    | cons a l => simp
  · rw [decodeUIntField]
    simp only [decode_varint_encode _ rest (by omega : i.toNat < 2 ^ 64), ok_bind]
    rw [Int.toNat_of_nonneg (by omega : (0 : Int) ≤ i)]

theorem decodeBoolField_encode (b : Bool) (rest : List Nat) :
    decodeBoolField ((if b then 1 else 0) :: rest) = .ok (b, rest) := by
  rw [decodeBoolField, decode_varint_single _ rest (by cases b <;> norm_num), ok_bind]
  cases b <;> simp

theorem decodeEnumField_encode (variants : List Int) (i : Int) (rest : List Nat)
    (hnn : 0 ≤ i) (hlt : i < 2 ^ 64) (hmem : variants.contains i = true) :
    ∃ bs, encodeVarintInt i = .ok bs ∧ 0 < bs.length ∧
      decodeEnumField variants (bs ++ rest) = .ok (.vint i, rest) := by
  rw [encodeVarintInt, if_neg (by omega)]
  refine ⟨encode_varint i.toNat, rfl, ?_, ?_⟩
  · rw [encode_varint]
    cases h : encodeVarintGo (i.toNat % 128) (i.toNat / 128) with
    | nil => exact absurd h (encodeVarintGo_ne_nil _ _)
    | cons a l => simp
  · rw [decodeEnumField]
    simp only [decode_varint_encode _ rest (by omega : i.toNat < 2 ^ 64), ok_bind]
    rw [Int.toNat_of_nonneg hnn, if_pos hmem]

/-! ### Zigzag, fixed-width and UTF-8 round trips -/

theorem zigzag32_spec (i : Int) (h1 : -(2 ^ 31) ≤ i) (h2 : i < 2 ^ 31) :
    0 ≤ encode_zig_zag32 i ∧ encode_zig_zag32 i < 2 ^ 32 ∧
      decode_zig_zag (encode_zig_zag32 i) = i := by
  simp only [encode_zig_zag32, decode_zig_zag, xorSign]
  simp only [show ∀ a : Int, Int.fdiv a (2 ^ 31) = a / 2 ^ 31 from
    fun a => Int.fdiv_eq_ediv a (by norm_num),
    show ∀ a : Int, Int.fdiv a 2 = a / 2 from
    fun a => Int.fdiv_eq_ediv a (by norm_num)]
  refine ⟨?_, ?_, ?_⟩ <;> split_ifs <;> omega

theorem zigzag64_spec (i : Int) (h1 : -(2 ^ 63) ≤ i) (h2 : i < 2 ^ 63) :
    0 ≤ encode_zig_zag64 i ∧ encode_zig_zag64 i < 2 ^ 64 ∧
      decode_zig_zag (encode_zig_zag64 i) = i := by
  simp only [encode_zig_zag64, decode_zig_zag, xorSign]
  simp only [show ∀ a : Int, Int.fdiv a (2 ^ 63) = a / 2 ^ 63 from
    fun a => Int.fdiv_eq_ediv a (by norm_num),
    show ∀ a : Int, Int.fdiv a 2 = a / 2 from
    fun a => Int.fdiv_eq_ediv a (by norm_num)]
  refine ⟨?_, ?_, ?_⟩ <;> split_ifs <;> omega

theorem encode_le_length (w : Nat) : ∀ n, (encode_le w n).length = w := by
  induction w with
  | zero => intro n; rfl
  | succ w ih =>
    intro n
    rw [encode_le]
    simp [ih]

theorem leVal_encode_le (w : Nat) : ∀ n, leVal (encode_le w n) = n % 256 ^ w := by
  induction w with
  | zero =>
    intro n
    simp [encode_le, leVal, Nat.mod_one]
  | succ w ih =>
    intro n
    rw [encode_le, leVal, ih]
    rw [Nat.pow_succ, show (256 : Nat) ^ w * 256 = 256 * 256 ^ w from Nat.mul_comm _ _,
      Nat.mod_mul]

theorem decode_le_encode (w n : Nat) (rest : List Nat) (h : n < 256 ^ w) :
    decode_le w (encode_le w n ++ rest) = .ok (n, rest) := by
  rw [decode_le, if_neg (by
    simp only [List.length_append, encode_le_length]
    omega)]
  rw [List.take_left' (encode_le_length w n), List.drop_left' (encode_le_length w n),
    leVal_encode_le, Nat.mod_eq_of_lt h]

theorem fromTwos_toTwos32 (i : Int) (h1 : -(2 ^ 31) ≤ i) (h2 : i < 2 ^ 31) :
    fromTwos 32 (toTwos 32 i) = i ∧ toTwos 32 i < 2 ^ 32 := by
  simp only [fromTwos, toTwos]
  constructor
  · split_ifs <;> omega
  · omega

theorem fromTwos_toTwos64 (i : Int) (h1 : -(2 ^ 63) ≤ i) (h2 : i < 2 ^ 63) :
    fromTwos 64 (toTwos 64 i) = i ∧ toTwos 64 i < 2 ^ 64 := by
  simp only [fromTwos, toTwos]
  constructor
  · split_ifs <;> omega
  · omega

theorem utf8Decode_char1 (c : Nat) (tail : List Nat) (out : List Nat)
    (h1 : c < 0x80) (h : utf8Decode tail = .ok out) :
    utf8Decode (c :: tail) = .ok (c :: out) := by
  rw [utf8Decode_cons_ok c tail c tail (by rw [utf8Step, if_pos h1]), h]
  rfl

theorem utf8Decode_char2 (c : Nat) (tail : List Nat) (out : List Nat)
    (h1 : 0x80 ≤ c) (h2 : c < 0x800) (h : utf8Decode tail = .ok out) :
    utf8Decode ((0xC0 + c / 64) :: (0x80 + c % 64) :: tail) = .ok (c :: out) := by
  have hstep : utf8Step (0xC0 + c / 64) ((0x80 + c % 64) :: tail) = .ok (c, tail) := by
    rw [utf8Step]
    rw [if_neg (by omega), if_neg (by omega), if_pos (by omega)]
    rw [utf8Take2, if_pos (by unfold utf8Cont; omega)]
    have he : (0xC0 + c / 64 - 0xC0) * 64 + (0x80 + c % 64 - 0x80) = c := by omega
    rw [he]
  rw [utf8Decode_cons_ok _ _ _ _ hstep, h]
  rfl

theorem utf8Decode_char3 (c : Nat) (tail : List Nat) (out : List Nat)
    (h1 : 0x800 ≤ c) (h2 : c < 0x10000) (hsur : ¬(0xD800 ≤ c ∧ c < 0xE000))
    (h : utf8Decode tail = .ok out) :
    utf8Decode ((0xE0 + c / 4096) :: (0x80 + c / 64 % 64) :: (0x80 + c % 64) :: tail)
      = .ok (c :: out) := by
  have hstep : utf8Step (0xE0 + c / 4096)
      ((0x80 + c / 64 % 64) :: (0x80 + c % 64) :: tail) = .ok (c, tail) := by
    rw [utf8Step]
    rw [if_neg (by omega), if_neg (by omega), if_neg (by omega), if_pos (by omega)]
    rw [utf8Take3, if_pos (by unfold utf8Cont; omega)]
    have he : (0xE0 + c / 4096 - 0xE0) * 4096 + (0x80 + c / 64 % 64 - 0x80) * 64 +
        (0x80 + c % 64 - 0x80) = c := by omega
    rw [he]
  rw [utf8Decode_cons_ok _ _ _ _ hstep, h]
  rfl

theorem utf8Decode_char4 (c : Nat) (tail : List Nat) (out : List Nat)
    (h1 : 0x10000 ≤ c) (h2 : c < 0x110000) (h : utf8Decode tail = .ok out) :
    utf8Decode ((0xF0 + c / 262144) :: (0x80 + c / 4096 % 64) ::
        (0x80 + c / 64 % 64) :: (0x80 + c % 64) :: tail)
      = .ok (c :: out) := by
  have hstep : utf8Step (0xF0 + c / 262144)
      ((0x80 + c / 4096 % 64) :: (0x80 + c / 64 % 64) :: (0x80 + c % 64) :: tail)
      = .ok (c, tail) := by
    rw [utf8Step]
    rw [if_neg (by omega), if_neg (by omega), if_neg (by omega), if_neg (by omega),
      if_pos (by omega)]
    rw [utf8Take4, if_pos (by unfold utf8Cont; omega)]
    have he : (0xF0 + c / 262144 - 0xF0) * 262144 +
        (0x80 + c / 4096 % 64 - 0x80) * 4096 +
        (0x80 + c / 64 % 64 - 0x80) * 64 + (0x80 + c % 64 - 0x80) = c := by omega
    rw [he]
  rw [utf8Decode_cons_ok _ _ _ _ hstep, h]
  rfl

/-- The strict UTF-8 decoder inverts the encoder: whatever
`value.encode('utf-8')` produces, `bytes.decode('utf-8')` reads back. -/
theorem utf8Decode_encode (cps : List Nat) (data : List Nat)
    (h : utf8Encode cps = .ok data) : utf8Decode data = .ok cps := by
  induction cps generalizing data with
  | nil =>
    rw [utf8Encode] at h
    injection h with e
    subst e
    rw [utf8Decode]
  | cons c cs ih =>
    rw [utf8Encode] at h
    have hnosur : ¬(0xD800 ≤ c ∧ c < 0xE000) := by
      intro hx
      rw [if_pos hx] at h
      exact nomatch h
    rw [if_neg hnosur] at h
    by_cases hover : 0x110000 ≤ c
    · rw [if_pos hover] at h
      exact nomatch h
    · rw [if_neg hover] at h
      cases he : utf8Encode cs with
      | error e =>
        rw [he] at h
        exact nomatch h
      | ok dataT =>
        rw [he, ok_bind] at h
        injection h with e
        subst e
        have hrec := ih dataT he
        rw [utf8EncodeChar]
        by_cases hc1 : c < 0x80
        · rw [if_pos hc1]
          exact utf8Decode_char1 c dataT cs hc1 hrec
        · rw [if_neg hc1]
          by_cases hc2 : c < 0x800
          · rw [if_pos hc2]
            exact utf8Decode_char2 c dataT cs (by omega) hc2 hrec
          · rw [if_neg hc2]
            by_cases hc3 : c < 0x10000
            · rw [if_pos hc3]
              exact utf8Decode_char3 c dataT cs (by omega) hc3 hnosur hrec
            · rw [if_neg hc3]
              exact utf8Decode_char4 c dataT cs (by omega) (by omega) hrec

theorem keyEq_symm (a b : PyValue) : keyEq a b = keyEq b a := by
  cases a <;> cases b <;> simp [keyEq] <;>
    first
    | (constructor <;> (intro h; omega))
    | rfl
    | exact eq_comm

theorem entriesOK_mem (kT vT : PyFieldType) (es : List (PyValue × PyValue))
    (h : entriesOK kT vT es = true) :
    ∀ k v, (k, v) ∈ es → valueOK kT k = true ∧ valueOK vT v = true := by
  induction es with
  | nil => intro k v hm; simp at hm
  | cons e rest ih =>
    intro k v hm
    obtain ⟨k1, v1⟩ := e
    rw [entriesOK] at h
    simp only [Bool.and_eq_true] at h
    rcases List.mem_cons.mp hm with he | hm2
    · simp only [Prod.mk.injEq] at he
      obtain ⟨rfl, rfl⟩ := he
      exact ⟨h.1.1.1, h.1.1.2⟩
    · exact ih h.2 k v hm2

theorem dictFind_self (kT : PyFieldType) (es : List (PyValue × PyValue))
    (hk : mapKeyKind kT = true)
    (hok : ∀ k v, (k, v) ∈ es → valueOK kT k = true)
    (hdist : keysDistinctB es = true) :
    ∀ k v, (k, v) ∈ es → dictFind es k = some v := by
  induction es with
  | nil => intro k v hm; simp at hm
  | cons e rest ih =>
    intro k v hm
    obtain ⟨k1, v1⟩ := e
    rw [keysDistinctB] at hdist
    simp only [Bool.and_eq_true] at hdist
    rcases List.mem_cons.mp hm with he | hm2
    · simp only [Prod.mk.injEq] at he
      obtain ⟨rfl, rfl⟩ := he
      rw [dictFind, if_pos (keyEq_refl_of_key kT k hk (hok k v (List.mem_cons_self _ _)))]
    · rw [dictFind]
      have hne : keyEq k k1 = false := by
        have := List.all_eq_true.mp hdist.1 (k, v) hm2
        simpa using this
      rw [if_neg (by rw [keyEq_symm k1 k, hne]; simp)]
      exact ih (fun k2 v2 hm3 => hok k2 v2 (List.mem_cons_of_mem _ hm3)) hdist.2 k v hm2

theorem fieldTypeOK_repeated_elem (elem : PyFieldType) (packed : Bool)
    (h : fieldTypeOK (.repeatedF elem packed) = true) : fieldTypeOK elem = true := by
  cases elem <;> simp_all [fieldTypeOK]

mutual
theorem pyEqV_refl (ft : PyFieldType) (v : PyValue)
    (hft : fieldTypeOK ft = true) (hv : valueOK ft v = true) :
    pyEqV ft v v = .ok true := by
  cases ft with
  | int32F => cases v <;> simp_all [valueOK, validateValue, pyEqV]
  | int64F => cases v <;> simp_all [valueOK, validateValue, pyEqV]
  | uint32F => cases v <;> simp_all [valueOK, validateValue, pyEqV]
  | uint64F => cases v <;> simp_all [valueOK, validateValue, pyEqV]
  | boolF => cases v <;> simp_all [valueOK, validateValue, pyEqV]
  | sint32F => cases v <;> simp_all [valueOK, validateValue, pyEqV]
  | sint64F => cases v <;> simp_all [valueOK, validateValue, pyEqV]
  | fixed32F => cases v <;> simp_all [valueOK, validateValue, pyEqV]
  | fixed64F => cases v <;> simp_all [valueOK, validateValue, pyEqV]
  | sfixed32F => cases v <;> simp_all [valueOK, validateValue, pyEqV]
  | sfixed64F => cases v <;> simp_all [valueOK, validateValue, pyEqV]
  | floatF => simp [fieldTypeOK] at hft
  | doubleF => simp [fieldTypeOK] at hft
  | stringF => cases v <;> simp_all [valueOK, pyEqV]
  | bytesF => cases v <;> simp_all [valueOK, pyEqV]
  | enumF variants => cases v <;> simp_all [valueOK, pyEqV]
  | messageF nm flds oos =>
    cases v with
    | vmsg nm2 d =>
      rw [valueOK] at hv
      simp only [Bool.and_eq_true, beq_iff_eq] at hv
      obtain ⟨⟨⟨⟨⟨hnm, hkeys⟩, hclash⟩, hinit⟩, hdOK⟩, hlen⟩ := hv
      rw [fieldTypeOK] at hft
      simp only [Bool.and_eq_true] at hft
      subst hnm
      rw [pyEqV, if_pos rfl]
      exact pyMsgEq_refl flds d (fun name num2 ft2 req2 dflt2 hmem => by
        obtain ⟨hfn, _⟩ := fieldDecls_find flds hft.1.1 name num2 ft2 req2 dflt2 hmem
        refine ⟨(fieldsOK_found flds name num2 ft2 req2 dflt2 hft.1.1 hfn).1, ?_⟩
        exact getattr_ok flds d name num2 ft2 req2 dflt2 hfn hft.1.1 hdOK)
    | vnone => simp [valueOK] at hv
    | vint i => simp [valueOK] at hv
    | vbool b => simp [valueOK] at hv
    | vbytes bs => simp [valueOK] at hv
    | vfloat b => simp [valueOK] at hv
    | vstr cps => simp [valueOK] at hv
    | vlist xs => simp [valueOK] at hv
    | vdict es => simp [valueOK] at hv
  | repeatedF elem packed =>
    cases v with
    | vlist xs =>
      rw [valueOK] at hv
      simp only [Bool.and_eq_true] at hv
      rw [pyEqV, if_pos rfl]
      show pyEqList elem xs xs = Except.ok true
      exact pyEqList_refl elem xs (fieldTypeOK_repeated_elem elem packed hft) hv.1
    | vnone => simp [valueOK] at hv
    | vint i => simp [valueOK] at hv
    | vbool b => simp [valueOK] at hv
    | vbytes bs => simp [valueOK] at hv
    | vfloat b => simp [valueOK] at hv
    | vstr cps => simp [valueOK] at hv
    | vmsg nm d => simp [valueOK] at hv
    | vdict es => simp [valueOK] at hv
  | mapF kT vT =>
    cases v with
    | vdict es =>
      rw [valueOK] at hv
      simp only [Bool.and_eq_true] at hv
      rw [fieldTypeOK] at hft
      simp only [Bool.and_eq_true] at hft
      rw [pyEqV, if_pos rfl]
      show pyEqDict vT es es = Except.ok true
      exact pyEqDict_refl kT vT es es hft.2 hft.1.1.1
        (fun k v hm => (entriesOK_mem kT vT es hv.1 k v hm).2)
        (dictFind_self kT es hft.1.1.1
          (fun k v hm => (entriesOK_mem kT vT es hv.1 k v hm).1) hv.2)
    | vnone => simp [valueOK] at hv
    | vint i => simp [valueOK] at hv
    | vbool b => simp [valueOK] at hv
    | vbytes bs => simp [valueOK] at hv
    | vfloat b => simp [valueOK] at hv
    | vstr cps => simp [valueOK] at hv
    | vmsg nm d => simp [valueOK] at hv
    | vlist xs => simp [valueOK] at hv
termination_by (sizeOf ft, 0, 0)

theorem pyMsgEq_refl (fl : FieldList) (d : List (String × PyValue))
    (hget : ∀ name num ft req dflt, (name, num, ft, req, dflt) ∈ fieldDecls fl →
      fieldTypeOK ft = true ∧
        (valueOK ft (getattrF ft dflt d name) = true ∨
          getattrF ft dflt d name = .vnone)) :
    pyMsgEq fl d d = .ok true := by
  cases fl with
  | nil => rw [pyMsgEq]
  | cons name num ft req dflt rest =>
    rw [pyMsgEq]
    obtain ⟨hft, hdisj⟩ :=
      hget name num ft req dflt (by rw [fieldDecls]; exact List.mem_cons_self _ _)
    have heq : pyEqV ft (getattrF ft dflt d name) (getattrF ft dflt d name) = .ok true := by
      rcases hdisj with hok | hnone
      · exact pyEqV_refl ft _ hft hok
      · rw [hnone, pyEqV]
    rw [heq, ok_bind, if_pos rfl]
    exact pyMsgEq_refl rest d (fun n2 num2 ft2 req2 dflt2 hmem =>
      hget n2 num2 ft2 req2 dflt2 (by rw [fieldDecls]; exact List.mem_cons_of_mem _ hmem))
termination_by (sizeOf fl, 0, 0)

theorem pyEqList_refl (elem : PyFieldType) (xs : List PyValue)
    (hft : fieldTypeOK elem = true) (hxs : valuesOK elem xs = true) :
    pyEqList elem xs xs = .ok true := by
  cases xs with
  | nil => rw [pyEqList]
  | cons x rest =>
    rw [valuesOK] at hxs
    simp only [Bool.and_eq_true] at hxs
    rw [pyEqList, pyEqV_refl elem x hft hxs.1, ok_bind, if_pos rfl]
    exact pyEqList_refl elem rest hft hxs.2
termination_by (sizeOf elem, 1, xs.length)

theorem pyEqDict_refl (kT vT : PyFieldType) (a es : List (PyValue × PyValue))
    (hft : fieldTypeOK vT = true) (hk : mapKeyKind kT = true)
    (hok : ∀ k v, (k, v) ∈ a → valueOK vT v = true)
    (hfind : ∀ k v, (k, v) ∈ a → dictFind es k = some v) :
    pyEqDict vT a es = .ok true := by
  cases a with
  | nil => rw [pyEqDict]
  | cons e rest =>
    obtain ⟨k1, v1⟩ := e
    rw [pyEqDict, hfind k1 v1 (List.mem_cons_self _ _)]
    show (do
      let e ← pyEqV vT v1 v1
      if e then pyEqDict vT rest es else Except.ok false) = Except.ok true
    rw [pyEqV_refl vT v1 hft (hok k1 v1 (List.mem_cons_self _ _)), ok_bind, if_pos rfl]
    exact pyEqDict_refl kT vT rest es hft hk
      (fun k v hm => hok k v (List.mem_cons_of_mem _ hm))
      (fun k v hm => hfind k v (List.mem_cons_of_mem _ hm))
termination_by (sizeOf vT, 1, a.length)
end

/-! ## Auxiliary lemmas for the round-trip development -/

theorem encode_varint_small (x : Nat) (hx : x < 128) : encode_varint x = [x] := by
  rw [encode_varint, Nat.div_eq_of_lt hx, Nat.mod_eq_of_lt hx, encodeVarintGo]
  simp

theorem encode_varint_pos (x : Nat) : 0 < (encode_varint x).length := by
  rw [encode_varint]
  cases h : encodeVarintGo (x % 128) (x / 128) with
  | nil => exact absurd h (encodeVarintGo_ne_nil _ _)
  | cons a l => simp

theorem encode_varint_le_10 (x : Nat) (hx : x < 2 ^ 64) :
    (encode_varint x).length ≤ 10 := by
  have hdiv : x / 128 < 128 ^ 9 := by
    rw [Nat.div_lt_iff_lt_mul (by norm_num)]
    calc x < 2 ^ 64 := hx
      _ ≤ 128 ^ 9 * 128 := by norm_num
  exact encodeVarintGo_length (x % 128) hdiv

theorem fieldHeader_small (number wt : Nat) (hn : number ≤ 15) (hwt : wt < 8) :
    fieldHeader number wt = [8 * number + wt] := by
  rw [fieldHeader, header_value_eq number wt hwt, encode_varint_small _ (by omega)]

theorem wireTypeOf_lt : ∀ ft : PyFieldType, wireTypeOf ft < 8
  | .int32F | .int64F | .uint32F | .uint64F | .boolF => by norm_num [wireTypeOf]
  | .sint32F | .sint64F => by norm_num [wireTypeOf]
  | .fixed32F | .sfixed32F | .floatF => by norm_num [wireTypeOf]
  | .fixed64F | .sfixed64F | .doubleF => by norm_num [wireTypeOf]
  | .stringF => by norm_num [wireTypeOf]
  | .enumF _ => by norm_num [wireTypeOf]
  | .bytesF | .messageF _ _ _ | .mapF _ _ => by norm_num [wireTypeOf]
  | .repeatedF elem packed => by
    rw [wireTypeOf]
    cases packed
    · simpa using wireTypeOf_lt elem
    · norm_num

theorem valueOK_not_vnone (ft : PyFieldType) : valueOK ft .vnone = false := by
  cases ft <;> simp [valueOK, validateValue]

theorem mapKey_shape (kT : PyFieldType) (k : PyValue) (hk : mapKeyKind kT = true)
    (hv : valueOK kT k = true) : (∃ i, k = .vint i) ∨ ∃ b, k = .vbool b := by
  cases kT <;> simp [mapKeyKind] at hk <;> cases k <;>
    simp_all [valueOK, validateValue]

theorem entryFinish_eval (kT vT : PyFieldType) (k v : PyValue)
    (hk : k ≠ .vnone) (hv : v ≠ .vnone)
    (h1 : validateValue kT k = true) (h2 : validateValue vT v = true) :
    entryFinish kT vT (some k) (some v) = .ok (k, v) := by
  cases k <;> cases v <;> simp_all [entryFinish]

theorem lookupData_append_some (a b : List (String × PyValue)) (k : String)
    (v : PyValue) (h : lookupData a k = some v) : lookupData (a ++ b) k = some v := by
  induction a with
  | nil => simp [lookupData] at h
  | cons e rest ih =>
    obtain ⟨n, w⟩ := e
    rw [lookupData] at h
    rw [List.cons_append, lookupData]
    by_cases he : n = k
    · rwa [if_pos he] at h ⊢
    · rw [if_neg he] at h ⊢
      exact ih h

theorem lookupData_append_none (a b : List (String × PyValue)) (k : String)
    (h : lookupData a k = none) : lookupData (a ++ b) k = lookupData b k := by
  induction a with
  | nil => simp
  | cons e rest ih =>
    obtain ⟨n, w⟩ := e
    rw [lookupData] at h
    rw [List.cons_append, lookupData]
    by_cases he : n = k
    · rw [if_pos he] at h; exact absurd h (by simp)
    · rw [if_neg he] at h ⊢
      exact ih h

theorem assocSet_fresh (d : List (String × PyValue)) (k : String) (v : PyValue)
    (h : lookupData d k = none) : assocSet d k v = d ++ [(k, v)] := by
  induction d with
  | nil => rfl
  | cons e rest ih =>
    obtain ⟨n, w⟩ := e
    rw [lookupData] at h
    rw [assocSet]
    by_cases he : n = k
    · rw [if_pos he] at h; exact absurd h (by simp)
    · rw [if_neg he] at h
      rw [if_neg he, List.cons_append, ih h]

theorem assocSet_overwrite (d : List (String × PyValue)) (k : String)
    (w v : PyValue) (h : lookupData d k = none) :
    assocSet (d ++ [(k, w)]) k v = d ++ [(k, v)] := by
  induction d with
  | nil => simp [assocSet]
  | cons e rest ih =>
    obtain ⟨n, w2⟩ := e
    rw [lookupData] at h
    by_cases he : n = k
    · rw [if_pos he] at h; exact absurd h (by simp)
    · rw [if_neg he] at h
      rw [List.cons_append, assocSet, if_neg he, ih h, List.cons_append]

theorem popName_noop (d : List (String × PyValue)) (k : String)
    (h : lookupData d k = none) : popName d k = d := by
  induction d with
  | nil => rfl
  | cons e rest ih =>
    obtain ⟨n, w⟩ := e
    rw [lookupData] at h
    by_cases he : n = k
    · rw [if_pos he] at h; exact absurd h (by simp)
    · rw [if_neg he] at h
      rw [popName, if_neg he, ih h]

theorem popAll_noop (names : List String) (d : List (String × PyValue))
    (h : ∀ n, n ∈ names → lookupData d n = none) : popAll d names = d := by
  induction names with
  | nil => rfl
  | cons n rest ih =>
    rw [popAll, List.foldl_cons, popName_noop d n (h n (List.mem_cons_self _ _))]
    exact ih fun n2 hm => h n2 (List.mem_cons_of_mem _ hm)

theorem dictSet_append (es : List (PyValue × PyValue)) (k v : PyValue)
    (h : ∀ e, e ∈ es → keyEq e.1 k = false) : dictSet es k v = es ++ [(k, v)] := by
  induction es with
  | nil => rfl
  | cons e rest ih =>
    obtain ⟨k1, v1⟩ := e
    rw [dictSet, if_neg (by simp [h (k1, v1) (List.mem_cons_self _ _)]),
      ih fun e2 hm => h e2 (List.mem_cons_of_mem _ hm), List.cons_append]

theorem dictFind_skip (done l : List (PyValue × PyValue)) (k : PyValue)
    (h : ∀ e, e ∈ done → keyEq e.1 k = false) :
    dictFind (done ++ l) k = dictFind l k := by
  induction done with
  | nil => rfl
  | cons e rest ih =>
    obtain ⟨k1, v1⟩ := e
    rw [List.cons_append, dictFind,
      if_neg (by simp [h (k1, v1) (List.mem_cons_self _ _)])]
    exact ih fun e2 hm => h e2 (List.mem_cons_of_mem _ hm)

theorem lookupData_isSome_iff (l : List (String × PyValue)) (k : String) :
    (lookupData l k).isSome = true ↔ k ∈ l.map Prod.fst := by
  induction l with
  | nil => simp [lookupData]
  | cons e rest ih =>
    obtain ⟨n, w⟩ := e
    rw [lookupData]
    by_cases he : n = k
    · subst he
      simp
    · rw [if_neg he]
      simp only [List.map_cons, List.mem_cons]
      rw [ih]
      constructor
      · exact Or.inr
      · rintro (h | h)
        · exact absurd h.symm he
        · exact h

theorem lookupData_of_mem (l : List (String × PyValue)) (k : String) (v : PyValue)
    (h : (k, v) ∈ l) : (lookupData l k).isSome = true :=
  (lookupData_isSome_iff l k).mpr (List.mem_map.mpr ⟨(k, v), h, rfl⟩)

theorem getattr_append_skip (ft : PyFieldType) (dflt : Option PyValue)
    (a b : List (String × PyValue)) (n : String) (h : lookupData a n = none) :
    getattrF ft dflt (a ++ b) n = getattrF ft dflt b n := by
  rw [getattrF.eq_def, getattrF.eq_def, lookupData_append_none a b n h]

theorem lookupData_mem_of_some (l : List (String × PyValue)) (k : String)
    (v : PyValue) (h : lookupData l k = some v) : (k, v) ∈ l := by
  induction l with
  | nil => simp [lookupData] at h
  | cons e rest ih =>
    obtain ⟨n, w⟩ := e
    rw [lookupData] at h
    by_cases he : n = k
    · rw [if_pos he] at h
      injection h with h
      subst he; subst h
      exact List.mem_cons_self _ _
    · rw [if_neg he] at h
      exact List.mem_cons_of_mem _ (ih h)

theorem oneOfByMember_mem (oos : List (String × List String)) (x : String)
    (grp : String × List String) (h : oneOfByMember oos x = some grp) : grp ∈ oos := by
  induction oos with
  | nil => simp [oneOfByMember] at h
  | cons g rest ih =>
    rw [oneOfByMember] at h
    by_cases hc : g.2.contains x
    · rw [if_pos hc] at h
      injection h with h
      subst h
      exact List.mem_cons_self _ _
    · rw [if_neg hc] at h
      exact List.mem_cons_of_mem _ (ih h)

theorem oneOfByMember_unique (oos : List (String × List String)) (b : String)
    (grp : String × List String) (hdisj : oneOfsOK oos = true) (hg : grp ∈ oos)
    (hb : grp.2.contains b = true) : oneOfByMember oos b = some grp := by
  induction oos with
  | nil => simp at hg
  | cons g rest ih =>
    rw [oneOfsOK] at hdisj
    simp only [Bool.and_eq_true] at hdisj
    rw [oneOfByMember]
    rcases List.mem_cons.mp hg with he | hm
    · subst he
      rw [if_pos hb]
    · by_cases hc : g.2.contains b
      · exfalso
        have h1 := List.all_eq_true.mp hdisj.1 grp hm
        have h2 := List.all_eq_true.mp h1 b (List.mem_of_elem_eq_true hc)
        rw [hb] at h2
        simp at h2
      · rw [if_neg hc]
        exact ih hdisj.2 hm

theorem noGroupClash_two_stored (oos : List (String × List String))
    (d : List (String × PyValue)) (a b : String) (va vb : PyValue)
    (grp : String × List String)
    (hdisj : oneOfsOK oos = true) (hcl : noGroupClash oos d = true)
    (ha : lookupData d a = some va) (hb : lookupData d b = some vb)
    (hab : a ≠ b) (hga : oneOfByMember oos a = some grp)
    (hgb : b ∈ grp.2) : False := by
  induction d with
  | nil => simp [lookupData] at ha
  | cons e rest ih =>
    obtain ⟨k, w⟩ := e
    rw [noGroupClash] at hcl
    simp only [Bool.and_eq_true] at hcl
    rw [lookupData] at ha hb
    by_cases hka : k = a
    · rw [if_pos hka] at ha
      rw [if_neg (by rw [hka]; exact hab)] at hb
      subst hka
      rw [hga] at hcl
      obtain ⟨bv2, hbm⟩ : ∃ v2, (b, v2) ∈ rest := ⟨vb, lookupData_mem_of_some _ _ _ hb⟩
      have := List.all_eq_true.mp hcl.1 (b, bv2) hbm
      simp only at this
      rw [show grp.2.contains b = true from List.elem_eq_true_of_mem hgb] at this
      simp at this
    · rw [if_neg hka] at ha
      by_cases hkb : k = b
      · rw [if_pos hkb] at hb
        subst hkb
        rw [oneOfByMember_unique oos k grp hdisj (oneOfByMember_mem oos a grp hga)
          (List.elem_eq_true_of_mem hgb)] at hcl
        obtain ⟨av2, ham⟩ : ∃ v2, (a, v2) ∈ rest := ⟨va, lookupData_mem_of_some _ _ _ ha⟩
        have := List.all_eq_true.mp hcl.1 (a, av2) ham
        simp only at this
        have hamem := oneOfByMember_mem_fields oos a grp hga
        rw [show grp.2.contains a = true from List.elem_eq_true_of_mem hamem] at this
        simp at this
      · rw [if_neg hkb] at hb
        exact ih hcl.2 ha hb

theorem findByName_none_not_mem (fl : FieldList) (n : String)
    (h : findByName fl n = none) : n ∉ fieldNames fl := by
  induction fl using fieldListInduction with
  | hnil => simp [fieldNames]
  | hcons nm num ft req dflt rest ih =>
    rw [findByName] at h
    by_cases he : nm = n
    · rw [if_pos he] at h; exact absurd h (by simp)
    · rw [if_neg he] at h
      rw [fieldNames]
      simp only [List.mem_cons, not_or]
      exact ⟨fun hc => he hc.symm, ih h⟩

theorem fieldNames_nodup (fl : FieldList) (h : fieldsOK fl = true) :
    (fieldNames fl).Nodup := by
  induction fl using fieldListInduction with
  | hnil => simp [fieldNames]
  | hcons nm num ft req dflt rest ih =>
    rw [fieldsOK.eq_def] at h
    simp only [Bool.and_eq_true] at h
    rw [fieldNames]
    refine List.Nodup.cons ?_ (ih h.2)
    exact findByName_none_not_mem rest nm (Option.isNone_iff_eq_none.mp h.1.1.2)

theorem encodedNames_sublist (fl : FieldList) (d : List (String × PyValue)) :
    (encodedNames fl d).Sublist (fieldNames fl) := by
  induction fl using fieldListInduction with
  | hnil => simp [encodedNames, fieldNames]
  | hcons nm num ft req dflt rest ih =>
    rw [encodedNames, fieldNames]
    by_cases hc : chunkYieldsEntry ft (getattrF ft dflt d nm) = true
    · rw [if_pos hc]
      exact ih.cons₂ nm
    · rw [if_neg hc]
      exact ih.cons nm

theorem encodedNames_nodup (fl : FieldList) (d : List (String × PyValue))
    (h : fieldsOK fl = true) : (encodedNames fl d).Nodup :=
  (fieldNames_nodup fl h).sublist (encodedNames_sublist fl d)

theorem noDupKeys_of_nodup (l : List (String × PyValue))
    (h : (l.map Prod.fst).Nodup) : noDupKeys l = true := by
  induction l with
  | nil => rfl
  | cons e rest ih =>
    obtain ⟨k, v⟩ := e
    simp only [List.map_cons, List.nodup_cons] at h
    rw [noDupKeys]
    simp only [Bool.and_eq_true]
    refine ⟨?_, ih h.2⟩
    simp only [Bool.not_eq_true', List.any_eq_false]
    intro e2 hm he
    exact h.1 (List.mem_map.mpr ⟨e2, hm, eq_of_beq he⟩)

theorem membersPlain_spec (fl : FieldList) (oos : List (String × List String))
    (h : membersPlain fl oos = true) (grp : String × List String) (hg : grp ∈ oos)
    (n : String) (hn : n ∈ grp.2) (num : Nat) (ft : PyFieldType) (req : Bool)
    (dflt : Option PyValue) (hf : findByName fl n = some (num, ft, req, dflt)) :
    dflt = none := by
  rw [membersPlain] at h
  have h1 := List.all_eq_true.mp h grp hg
  have h2 := List.all_eq_true.mp h1 n hn
  rw [hf] at h2
  simpa using h2

theorem entriesOK_validateEntries (kT vT : PyFieldType)
    (es : List (PyValue × PyValue)) (h : entriesOK kT vT es = true) :
    validateEntries kT vT es = true := by
  rw [validateEntries, List.all_eq_true]
  intro e hm
  obtain ⟨k, v⟩ := e
  have := entriesOK_mem kT vT es h k v hm
  simp only [Bool.and_eq_true]
  exact ⟨valueOK_validateValue kT k this.1, valueOK_validateValue vT v this.2⟩

theorem pvIsNone_false_of_valueOK (ft : PyFieldType) (v : PyValue)
    (h : valueOK ft v = true) : pvIsNone v = false := by
  cases v with
  | vnone => rw [valueOK_not_vnone] at h; exact absurd h (by simp)
  | _ => rfl

theorem findByName_lift (nm : String) (num0 : Nat) (ft0 : PyFieldType) (req0 : Bool)
    (dflt0 : Option PyValue) (rest : FieldList) (n : String)
    (X : Nat × PyFieldType × Bool × Option PyValue)
    (hOK : fieldsOK (.cons nm num0 ft0 req0 dflt0 rest) = true)
    (h : findByName rest n = some X) :
    findByName (.cons nm num0 ft0 req0 dflt0 rest) n = some X := by
  rw [fieldsOK.eq_def] at hOK
  simp only [Bool.and_eq_true] at hOK
  rw [findByName]
  by_cases he : nm = n
  · subst he
    rw [h] at hOK
    simp at hOK
  · rw [if_neg he]
    exact h

theorem encodedNames_decl (fl : FieldList) (d : List (String × PyValue))
    (hfl : fieldsOK fl = true) (n : String) (hn : n ∈ encodedNames fl d) :
    ∃ num ft req dflt, findByName fl n = some (num, ft, req, dflt) ∧
      (dflt = none → (lookupData d n).isSome = true) := by
  induction fl using fieldListInduction with
  | hnil => simp [encodedNames] at hn
  | hcons nm num ft req dflt rest ih =>
    rw [encodedNames] at hn
    by_cases hc : chunkYieldsEntry ft (getattrF ft dflt d nm) = true
    · rw [if_pos hc] at hn
      rcases List.mem_cons.mp hn with he | hm
      · subst he
        refine ⟨num, ft, req, dflt, by rw [findByName, if_pos rfl], ?_⟩
        intro hdn
        subst hdn
        rw [getattrF.eq_def] at hc
        cases hl : lookupData d n with
        | some v => simp
        | none =>
          rw [hl] at hc
          cases ft <;> simp [chunkYieldsEntry, pvIsNone] at hc
      · obtain ⟨num2, ft2, req2, dflt2, hf2, hl2⟩ := ih (fieldsOK_rest hfl) hm
        exact ⟨num2, ft2, req2, dflt2,
          findByName_lift nm num ft req dflt rest n _ hfl hf2, hl2⟩
    · rw [if_neg hc] at hn
      obtain ⟨num2, ft2, req2, dflt2, hf2, hl2⟩ := ih (fieldsOK_rest hfl) hn
      exact ⟨num2, ft2, req2, dflt2,
        findByName_lift nm num ft req dflt rest n _ hfl hf2, hl2⟩

theorem encodedNames_of_chunk (fl : FieldList) (d : List (String × PyValue))
    (n : String) (num : Nat) (ft : PyFieldType) (req : Bool) (dflt : Option PyValue)
    (hf : findByName fl n = some (num, ft, req, dflt))
    (hc : chunkYieldsEntry ft (getattrF ft dflt d n) = true) :
    n ∈ encodedNames fl d := by
  induction fl using fieldListInduction with
  | hnil => simp [findByName] at hf
  | hcons nm num2 ft2 req2 dflt2 rest ih =>
    rw [findByName] at hf
    by_cases he : nm = n
    · rw [if_pos he] at hf
      injection hf with e
      simp only [Prod.mk.injEq] at e
      obtain ⟨rfl, rfl, rfl, rfl⟩ := e
      subst he
      rw [encodedNames, if_pos hc]
      exact List.mem_cons_self _ _
    · rw [if_neg he] at hf
      have := ih hf
      rw [encodedNames]
      by_cases hc2 : chunkYieldsEntry ft2 (getattrF ft2 dflt2 d nm) = true
      · rw [if_pos hc2]
        exact List.mem_cons_of_mem _ this
      · rw [if_neg hc2]
        exact this

theorem findByName_required_mem (fl : FieldList) (n : String) (num : Nat)
    (ft : PyFieldType) (hf : findByName fl n = some (num, ft, true, none)) :
    n ∈ requiredNames fl := by
  induction fl using fieldListInduction with
  | hnil => simp [findByName] at hf
  | hcons nm num2 ft2 req2 dflt2 rest ih =>
    rw [findByName] at hf
    by_cases he : nm = n
    · rw [if_pos he] at hf
      injection hf with e
      simp only [Prod.mk.injEq] at e
      obtain ⟨rfl, rfl, rfl, rfl⟩ := e
      subst he
      rw [requiredNames]
      simp
    · rw [if_neg he] at hf
      have := ih hf
      rw [requiredNames]
      by_cases hr : req2 && dflt2.isNone
      · rw [if_pos hr]
        exact List.mem_cons_of_mem _ this
      · rw [if_neg hr]
        exact this

theorem requiredNames_decl (fl : FieldList) (hfl : fieldsOK fl = true) (n : String)
    (hn : n ∈ requiredNames fl) :
    ∃ num ft, findByName fl n = some (num, ft, true, none) := by
  induction fl using fieldListInduction with
  | hnil => simp [requiredNames] at hn
  | hcons nm num ft req dflt rest ih =>
    rw [requiredNames] at hn
    by_cases hr : req && dflt.isNone
    · rw [if_pos hr] at hn
      simp only [Bool.and_eq_true] at hr
      rcases List.mem_cons.mp hn with he | hm
      · subst he
        refine ⟨num, ft, ?_⟩
        rw [findByName, if_pos rfl, hr.1, Option.isNone_iff_eq_none.mp hr.2]
      · obtain ⟨num2, ft2, hf2⟩ := ih (fieldsOK_rest hfl) hm
        exact ⟨num2, ft2, findByName_lift nm num ft req dflt rest n _ hfl hf2⟩
    · rw [if_neg hr] at hn
      obtain ⟨num2, ft2, hf2⟩ := ih (fieldsOK_rest hfl) hn
      exact ⟨num2, ft2, findByName_lift nm num ft req dflt rest n _ hfl hf2⟩

theorem required_yields_chunk (fl : FieldList) (d : List (String × PyValue))
    (n : String) (num : Nat) (ft : PyFieldType) (dflt : Option PyValue)
    (hfl : fieldsOK fl = true) (hf : findByName fl n = some (num, ft, true, dflt))
    (hd : dataOK fl d = true) (hinit : isInitialized fl d = true) :
    chunkYieldsEntry ft (getattrF ft dflt d n) = true := by
  have hfound := fieldsOK_found fl n num ft true dflt hfl hf
  rw [getattrF.eq_def]
  cases hl : lookupData d n with
  | some v =>
    obtain ⟨num2, ft2, req2, dflt2, hf2, hv⟩ := dataOK_lookup fl d hd n v hl
    rw [hf] at hf2
    injection hf2 with e
    simp only [Prod.mk.injEq] at e
    obtain ⟨-, rfl, -, -⟩ := e
    cases ft with
    | repeatedF elem packed =>
      exact absurd (hfound.2.2.2.2.1 elem packed rfl).1 (by simp)
    | mapF kT vT =>
      exact absurd (hfound.2.2.2.2.2.1 kT vT rfl).1 (by simp)
    | _ => simp [chunkYieldsEntry, pvIsNone_false_of_valueOK _ _ hv]
  | none =>
    cases hdf : dflt with
    | none =>
      subst hdf
      rw [isInitialized] at hinit
      have := List.all_eq_true.mp hinit n (findByName_required_mem fl n num ft hf)
      rw [hl] at this
      simp at this
    | some dd =>
      subst hdf
      have hvd := hfound.2.2.2.1 dd rfl
      cases ft with
      | repeatedF elem packed =>
        exact absurd (hfound.2.2.2.2.1 elem packed rfl).1 (by simp)
      | mapF kT vT =>
        exact absurd (hfound.2.2.2.2.2.1 kT vT rfl).1 (by simp)
      | messageF nm2 fl2 oos2 =>
        exact absurd (hfound.2.2.2.2.2.2 nm2 fl2 oos2 rfl) (by simp)
      | _ => simp [chunkYieldsEntry, pvIsNone_false_of_valueOK _ _ hvd]

theorem dataOK_of (fl : FieldList) (l : List (String × PyValue))
    (h : ∀ k v, (k, v) ∈ l → ∃ num ft req dflt,
      findByName fl k = some (num, ft, req, dflt) ∧ valueOK ft v = true) :
    dataOK fl l = true := by
  induction l with
  | nil => rw [dataOK]
  | cons e rest ih =>
    obtain ⟨k, v⟩ := e
    obtain ⟨num, ft, req, dflt, hf, hv⟩ := h k v (List.mem_cons_self _ _)
    rw [dataOK]
    simp only [Bool.and_eq_true]
    refine ⟨?_, ih fun k2 v2 hm => h k2 v2 (List.mem_cons_of_mem _ hm)⟩
    split
    · rename_i heq
      rw [hf] at heq
      injection heq with e
      simp only [Prod.mk.injEq] at e
      obtain ⟨-, rfl, -, -⟩ := e
      exact hv
    · rename_i heq
      rw [hf] at heq
      exact absurd heq (by simp)

theorem strictCheck_of (fl : FieldList) (acc : List (String × PyValue))
    (h : ∀ name num ft dflt, (name, num, ft, true, dflt) ∈ fieldDecls fl →
      (lookupData acc name).isSome = true) :
    strictCheck fl acc = .ok () := by
  induction fl using fieldListInduction with
  | hnil => rw [strictCheck]
  | hcons nm num ft req dflt rest ih =>
    rw [strictCheck]
    have hrec := ih fun n2 num2 ft2 dflt2 hm =>
      h n2 num2 ft2 dflt2 (by rw [fieldDecls]; exact List.mem_cons_of_mem _ hm)
    cases hreq : req with
    | false => simpa using hrec
    | true =>
      have := h nm num ft dflt (by
        rw [fieldDecls, hreq]; exact List.mem_cons_self _ _)
      cases hlk : lookupData acc nm with
      | none => rw [hlk] at this; simp at this
      | some v => simpa using hrec

theorem isInitialized_of (fl : FieldList) (acc : List (String × PyValue))
    (h : ∀ n, n ∈ requiredNames fl → (lookupData acc n).isSome = true) :
    isInitialized fl acc = true := by
  rw [isInitialized, List.all_eq_true]
  exact h

theorem noGroupClash_of_encoded (oos : List (String × List String)) (fl : FieldList)
    (d : List (String × PyValue)) (acc : List (String × PyValue))
    (hdisj : oneOfsOK oos = true) (hcl : noGroupClash oos d = true)
    (hmp : membersPlain fl oos = true) (hfl : fieldsOK fl = true)
    (hnd : (acc.map Prod.fst).Nodup)
    (hsub : ∀ n, n ∈ acc.map Prod.fst → n ∈ encodedNames fl d) :
    noGroupClash oos acc = true := by
  induction acc with
  | nil => rw [noGroupClash]
  | cons e rest ih =>
    obtain ⟨k, v⟩ := e
    simp only [List.map_cons, List.nodup_cons] at hnd
    rw [noGroupClash]
    simp only [Bool.and_eq_true]
    refine ⟨?_, ih hnd.2 fun n hm =>
      hsub n (by simp only [List.map_cons, List.mem_cons]; exact Or.inr hm)⟩
    cases hgm : oneOfByMember oos k with
    | none => simp
    | some grp =>
      rw [List.all_eq_true]
      intro e2 hm2
      obtain ⟨b, vb⟩ := e2
      simp only
      cases hc : grp.2.contains b with
      | false => simp
      | true =>
        exfalso
        have hbg : b ∈ grp.2 := List.mem_of_elem_eq_true hc
        have hkg : k ∈ grp.2 := oneOfByMember_mem_fields oos k grp hgm
        have hgo : grp ∈ oos := oneOfByMember_mem oos k grp hgm
        have hkenc : k ∈ encodedNames fl d := hsub k (by simp)
        have hbenc : b ∈ encodedNames fl d := hsub b (by
          simp only [List.map_cons, List.mem_cons]
          exact Or.inr (List.mem_map.mpr ⟨(b, vb), hm2, rfl⟩))
        obtain ⟨numk, ftk, reqk, dfltk, hfk, hlk⟩ :=
          encodedNames_decl fl d hfl k hkenc
        obtain ⟨numb, ftb, reqb, dfltb, hfb, hlb⟩ :=
          encodedNames_decl fl d hfl b hbenc
        have hdk : dfltk = none :=
          membersPlain_spec fl oos hmp grp hgo k hkg numk ftk reqk dfltk hfk
        have hdb : dfltb = none :=
          membersPlain_spec fl oos hmp grp hgo b hbg numb ftb reqb dfltb hfb
        obtain ⟨va, hva⟩ := Option.isSome_iff_exists.mp (hlk hdk)
        obtain ⟨vb2, hvb⟩ := Option.isSome_iff_exists.mp (hlb hdb)
        have hkb : k ≠ b := by
          intro he
          subst he
          exact hnd.1 (List.mem_map.mpr ⟨(k, vb), hm2, rfl⟩)
        exact noGroupClash_two_stored oos d k b va vb2 grp hdisj hcl hva hvb hkb
          hgm hbg

theorem initKwargs_cons_notNone (flds : FieldList)
    (oos : List (String × List String)) (k : String) (v : PyValue)
    (rest : List (String × PyValue)) (m : PyInstance) (hv : v ≠ .vnone) :
    initKwargs flds oos ((k, v) :: rest) m =
      if (findByName flds k).isSome then
        (do
          let m2 ← setattrPy flds oos m k v
          initKwargs flds oos rest m2)
      else .error .attributeError := by
  cases v <;> simp_all [initKwargs]

theorem setattrPy_append (flds : FieldList) (oos : List (String × List String))
    (m : PyInstance) (k : String) (v : PyValue) (num : Nat) (ft : PyFieldType)
    (req : Bool) (dflt : Option PyValue)
    (hf : findByName flds k = some (num, ft, req, dflt))
    (hv : valueOK ft v = true)
    (hfresh : lookupData m.data k = none)
    (hgrp : ∀ grp, oneOfByMember oos k = some grp →
      ∀ n, n ∈ grp.2 → lookupData m.data n = none) :
    ∃ sel2, setattrPy flds oos m k v = .ok ⟨m.data ++ [(k, v)], sel2⟩ := by
  rw [setattrPy, hf]
  cases hgm : oneOfByMember oos k with
  | some grp =>
    refine ⟨assocSetSel m.oneOfSel grp.1 k, ?_⟩
    simp only [valueOK_validateValue ft v hv, if_true]
    rw [popAll_noop grp.2 m.data (hgrp grp hgm), assocSet_fresh m.data k v hfresh]
  | none =>
    cases ft with
    | mapF kT vT =>
      cases v with
      | vdict es =>
        rw [valueOK] at hv
        simp only [Bool.and_eq_true] at hv
        refine ⟨m.oneOfSel, ?_⟩
        simp only [entriesOK_validateEntries kT vT es hv.1, if_true]
        rw [assocSet_fresh m.data k _ hfresh]
      | vnone => rw [valueOK_not_vnone] at hv; exact absurd hv (by simp)
      | vint i => simp [valueOK] at hv
      | vbool b => simp [valueOK] at hv
      | vbytes bs => simp [valueOK] at hv
      | vfloat b => simp [valueOK] at hv
      | vstr cps => simp [valueOK] at hv
      | vmsg nm d2 => simp [valueOK] at hv
      | vlist xs => simp [valueOK] at hv
    | _ =>
      refine ⟨m.oneOfSel, ?_⟩
      simp only [valueOK_validateValue _ v hv, if_true]
      rw [assocSet_fresh m.data k v hfresh]

theorem initKwargs_app (flds : FieldList) (oos : List (String × List String)) :
    ∀ (acc : List (String × PyValue)) (m : PyInstance),
    (∀ k v, (k, v) ∈ acc → ∃ num ft req dflt,
      findByName flds k = some (num, ft, req, dflt) ∧ valueOK ft v = true) →
    (∀ k v, (k, v) ∈ acc → lookupData m.data k = none) →
    (acc.map Prod.fst).Nodup →
    (∀ k v, (k, v) ∈ acc → ∀ grp, oneOfByMember oos k = some grp →
      ∀ n, n ∈ grp.2 → lookupData m.data n = none ∧
        ∀ v2, (n, v2) ∈ acc → n = k) →
    ∃ sel2, initKwargs flds oos acc m = .ok ⟨m.data ++ acc, sel2⟩ := by
  intro acc
  induction acc with
  | nil =>
    intro m hv hfresh hnd hgrp
    exact ⟨m.oneOfSel, by rw [initKwargs]; simp⟩
  | cons e rest ih =>
    intro m hv hfresh hnd hgrp
    obtain ⟨k, v⟩ := e
    obtain ⟨num, ft, req, dflt, hf, hvOK⟩ := hv k v (List.mem_cons_self _ _)
    have hvnn : v ≠ .vnone := by
      intro he
      subst he
      rw [valueOK_not_vnone] at hvOK
      exact absurd hvOK (by simp)
    rw [initKwargs_cons_notNone flds oos k v rest m hvnn, if_pos (by rw [hf]; rfl)]
    obtain ⟨sel2, hset⟩ := setattrPy_append flds oos m k v num ft req dflt hf hvOK
      (hfresh k v (List.mem_cons_self _ _))
      (fun grp hgm n hn => (hgrp k v (List.mem_cons_self _ _) grp hgm n hn).1)
    rw [hset, ok_bind]
    simp only [List.map_cons, List.nodup_cons] at hnd
    obtain ⟨sel3, hrec⟩ := ih ⟨m.data ++ [(k, v)], sel2⟩
      (fun k2 v2 hm => hv k2 v2 (List.mem_cons_of_mem _ hm))
      (fun k2 v2 hm => by
        show lookupData (m.data ++ [(k, v)]) k2 = none
        rw [lookupData_append_none _ _ _ (hfresh k2 v2 (List.mem_cons_of_mem _ hm))]
        rw [lookupData]
        rw [if_neg (by
          intro he
          exact hnd.1 (List.mem_map.mpr ⟨(k2, v2), hm, he.symm⟩))]
        rfl)
      hnd.2
      (fun k2 v2 hm grp hgm n hn => by
        have horig := hgrp k2 v2 (List.mem_cons_of_mem _ hm) grp hgm n hn
        constructor
        · show lookupData (m.data ++ [(k, v)]) n = none
          rw [lookupData_append_none _ _ _ horig.1, lookupData]
          rw [if_neg (by
            intro he
            have h1 : (n, v) ∈ (k, v) :: rest := by
              rw [← he]
              exact List.mem_cons_self _ _
            have h2 := horig.2 v h1
            exact hnd.1 (List.mem_map.mpr ⟨(k2, v2), hm, by rw [he, h2]⟩))]
          rfl
        · exact fun v3 hm3 => horig.2 v3 (List.mem_cons_of_mem _ hm3))
    refine ⟨sel3, ?_⟩
    rw [hrec]
    simp

theorem pyEqDict_roundtrip (vT : PyFieldType) (es es' done : List (PyValue × PyValue))
    (hdist : keysDistinctB es = true)
    (hrefl : ∀ e, e ∈ es → keyEq e.1 e.1 = true)
    (hdone : ∀ e2, e2 ∈ done → ∀ e, e ∈ es → keyEq e2.1 e.1 = false)
    (hfa : List.Forall₂ (fun a b => a.1 = b.1 ∧ pyEqV vT a.2 b.2 = .ok true) es es') :
    pyEqDict vT es (done ++ es') = .ok true := by
  induction hfa generalizing done with
  | nil => rw [pyEqDict]
  | @cons a b l1 l2 hab htail ih =>
    obtain ⟨k, v⟩ := a
    obtain ⟨k2, v2⟩ := b
    obtain ⟨hk, hpy⟩ := hab
    have hk2 : k = k2 := hk
    subst hk2
    rw [keysDistinctB] at hdist
    simp only [Bool.and_eq_true] at hdist
    rw [pyEqDict,
      dictFind_skip done ((k, v2) :: l2) k
        (fun e2 hm => hdone e2 hm (k, v) (List.mem_cons_self _ _)),
      dictFind, if_pos (hrefl (k, v) (List.mem_cons_self _ _))]
    show (do
      let e ← pyEqV vT v v2
      if e then pyEqDict vT l1 (done ++ (k, v2) :: l2) else Except.ok false)
        = Except.ok true
    rw [hpy, ok_bind, if_pos rfl,
      show done ++ (k, v2) :: l2 = (done ++ [(k, v2)]) ++ l2 by simp]
    refine ih (done ++ [(k, v2)]) hdist.2
      (fun e hm => hrefl e (List.mem_cons_of_mem _ hm)) ?_
    intro e2 hm2 e hm
    rcases List.mem_append.mp hm2 with hmd | hms
    · exact hdone e2 hmd e (List.mem_cons_of_mem _ hm)
    · have he2 : e2 = (k, v2) := by simpa using hms
      subst he2
      have := List.all_eq_true.mp hdist.1 e hm
      simp only [Bool.not_eq_true'] at this
      rw [keyEq_symm]
      exact this

theorem pyMsgEq_append_skip (fl : FieldList) (d accH accR : List (String × PyValue))
    (h : ∀ n, n ∈ fieldNames fl → lookupData accH n = none) :
    pyMsgEq fl d (accH ++ accR) = pyMsgEq fl d accR := by
  induction fl using fieldListInduction with
  | hnil => rw [pyMsgEq, pyMsgEq]
  | hcons nm num ft req dflt rest ih =>
    rw [pyMsgEq, pyMsgEq,
      getattr_append_skip ft dflt accH accR nm
        (h nm (by rw [fieldNames]; exact List.mem_cons_self _ _)),
      ih fun n hm => h n (by rw [fieldNames]; exact List.mem_cons_of_mem _ hm)]

theorem encodeFields_append_skip (fl : FieldList) (accH accR : List (String × PyValue))
    (h : ∀ n, n ∈ fieldNames fl → lookupData accH n = none) :
    encodeFields fl (accH ++ accR) = encodeFields fl accR := by
  induction fl using fieldListInduction with
  | hnil => rw [encodeFields, encodeFields]
  | hcons nm num ft req dflt rest ih =>
    rw [encodeFields, encodeFields,
      getattr_append_skip ft dflt accH accR nm
        (h nm (by rw [fieldNames]; exact List.mem_cons_self _ _)),
      ih fun n hm => h n (by rw [fieldNames]; exact List.mem_cons_of_mem _ hm)]

theorem pyEqList_of_forall2 (elem : PyFieldType) (xs xs' : List PyValue)
    (h : List.Forall₂ (fun a b => pyEqV elem a b = .ok true) xs xs') :
    pyEqList elem xs xs' = .ok true := by
  induction h with
  | nil => rw [pyEqList]
  | @cons a b l1 l2 hab htail ih =>
    rw [pyEqList]
    show (do
      let b2 ← pyEqV elem a b
      if b2 then pyEqList elem l1 l2 else Except.ok false) = Except.ok true
    rw [hab, ok_bind, if_pos rfl]
    exact ih

theorem keysDistinctB_congr : ∀ (es es' : List (PyValue × PyValue)),
    es.map Prod.fst = es'.map Prod.fst → keysDistinctB es = keysDistinctB es'
  | [], [], _ => rfl
  | [], (e :: _), h => by simp at h
  | (e :: _), [], h => by simp at h
  | (e :: es), (e2 :: es'), h => by
    obtain ⟨k, v⟩ := e
    obtain ⟨k2, v2⟩ := e2
    simp only [List.map_cons, List.cons.injEq] at h
    obtain ⟨hk, hrest⟩ := h
    have hk2 : k = k2 := hk
    subst hk2
    rw [keysDistinctB, keysDistinctB, keysDistinctB_congr es es' hrest]
    congr 1
    have hall : ∀ (l l2 : List (PyValue × PyValue)), l.map Prod.fst = l2.map Prod.fst →
        (l.all fun e => !keyEq e.1 k) = (l2.all fun e => !keyEq e.1 k) := by
      intro l
      induction l with
      | nil =>
        intro l2 h2
        cases l2 with
        | nil => rfl
        | cons p2 rest2 => simp at h2
      | cons p rest ih =>
        intro l2 h2
        cases l2 with
        | nil => simp at h2
        | cons p2 rest2 =>
          simp only [List.map_cons, List.cons.injEq] at h2
          rw [List.all_cons, List.all_cons, h2.1, ih rest2 h2.2]
    exact hall es es' hrest

theorem loop_step_simple (FULL : FieldList) (number : Nat) (name : String)
    (ft : PyFieldType) (req : Bool) (dflt : Option PyValue) (v' : PyValue)
    (bsV rest : List Nat) (acc : List (String × PyValue)) (f : Nat)
    (hfind : findByNumber FULL number = some (name, ft, req, dflt))
    (hn : number < 2 ^ 29)
    (hnu : ∀ elem, ft ≠ .repeatedF elem false)
    (hnm : ∀ kT vT, ft ≠ .mapF kT vT)
    (hdec : decodeValue f ft (bsV ++ rest) = .ok (v', rest)) :
    fromStreamLoop (f + 1) FULL acc
        ((fieldHeader number (wireTypeOf ft) ++ bsV) ++ rest)
      = fromStreamLoop f FULL (assocSet acc name v') rest := by
  rw [List.append_assoc, fromStreamLoop,
    decode_header_encode number (wireTypeOf ft) _ hn (wireTypeOf_lt ft)]
  show (match f + 1 with
    | 0 => Except.error DecodeErr.fuelOut
    | _ + 1 => _) = _
  simp only [Nat.add_eq, hfind]
  rw [if_neg (by simp)]
  cases ft with
  | repeatedF elem packed =>
    cases packed with
    | false => exact absurd rfl (hnu elem)
    | true => simp only [hdec, ok_bind]
  | mapF kT vT => exact absurd rfl (hnm kT vT)
  | _ => simp only [hdec, ok_bind]

theorem loop_step_unpacked (FULL : FieldList) (number : Nat) (name : String)
    (elem : PyFieldType) (req : Bool) (dflt : Option PyValue) (item : PyValue)
    (ibs rest : List Nat) (acc : List (String × PyValue)) (f : Nat)
    (hfind : findByNumber FULL number = some (name, .repeatedF elem false, req, dflt))
    (hn : number < 2 ^ 29)
    (hdec : decodeValue f (.repeatedF elem false) (ibs ++ rest) = .ok (item, rest)) :
    fromStreamLoop (f + 1) FULL acc
        ((fieldHeader number (wireTypeOf elem) ++ ibs) ++ rest)
      = fromStreamLoop f FULL (appendItem acc name item) rest := by
  have hw : wireTypeOf (.repeatedF elem false) = wireTypeOf elem := by
    rw [wireTypeOf]
    simp
  rw [List.append_assoc, fromStreamLoop,
    decode_header_encode number (wireTypeOf elem) _ hn (wireTypeOf_lt elem)]
  show (match f + 1 with
    | 0 => Except.error DecodeErr.fuelOut
    | _ + 1 => _) = _
  simp only [Nat.add_eq, hfind]
  rw [if_neg (by simp [hw])]
  simp only [hdec, ok_bind]

theorem loop_step_map (FULL : FieldList) (number : Nat) (name : String)
    (kT vT : PyFieldType) (req : Bool) (dflt : Option PyValue) (k v : PyValue)
    (ebs rest : List Nat) (acc : List (String × PyValue)) (f : Nat)
    (hfind : findByNumber FULL number = some (name, .mapF kT vT, req, dflt))
    (hn : number < 2 ^ 29)
    (hdec : decodeMapEntry f kT vT (ebs ++ rest) = .ok ((k, v), rest)) :
    fromStreamLoop (f + 1) FULL acc ((fieldHeader number 2 ++ ebs) ++ rest)
      = fromStreamLoop f FULL (mapInsert acc name k v) rest := by
  rw [List.append_assoc, fromStreamLoop,
    decode_header_encode number 2 _ hn (by norm_num)]
  show (match f + 1 with
    | 0 => Except.error DecodeErr.fuelOut
    | _ + 1 => _) = _
  simp only [Nat.add_eq, hfind]
  rw [if_neg (by simp [wireTypeOf])]
  simp only [hdec, ok_bind]

theorem chunkYields_ne_vnone (ft : PyFieldType) (w : PyValue)
    (h : chunkYieldsEntry ft w = true) : w ≠ .vnone := by
  intro he
  subst he
  cases ft <;> simp [chunkYieldsEntry, pvIsNone] at h

theorem chunkYields_simple (ft : PyFieldType) (w : PyValue)
    (h : simpleElem ft = true) (hw : pvIsNone w = false) :
    chunkYieldsEntry ft w = true := by
  cases ft <;> simp_all [chunkYieldsEntry, simpleElem]

theorem getattrF_lookup_some (ft : PyFieldType) (dflt : Option PyValue)
    (d : List (String × PyValue)) (name : String) (w : PyValue)
    (h : lookupData d name = some w) : getattrF ft dflt d name = w := by
  rw [getattrF.eq_def, h]

theorem simpleElem_not_unpacked (ft : PyFieldType) (h : simpleElem ft = true) :
    ∀ elem, ft ≠ .repeatedF elem false := by
  intro elem he
  rw [he] at h
  simp [simpleElem] at h

theorem simpleElem_not_map (ft : PyFieldType) (h : simpleElem ft = true) :
    ∀ kT vT, ft ≠ .mapF kT vT := by
  intro kT vT he
  rw [he] at h
  simp [simpleElem] at h

/-- The per-field bytes of one `to_stream` iteration: repeated/map
strategies emit their own headers, every other field is
header-plus-payload. -/
def encOneField (number : Nat) (ftype : PyFieldType) (w : PyValue) :
    Except EncodeErr (List Nat) :=
  match ftype with
  | .repeatedF e p => encodeValueOnly number (.repeatedF e p) w
  | .mapF kT vT => encodeValueOnly number (.mapF kT vT) w
  | ft2 => do
    let payload ← encodeValueOnly number ft2 w
    pure (fieldHeader number (wireTypeOf ft2) ++ payload)

theorem encodeFields_cons_eval (name : String) (number : Nat) (ftype : PyFieldType)
    (req : Bool) (dflt : Option PyValue) (rest : FieldList)
    (d : List (String × PyValue)) (w : PyValue)
    (hg : getattrF ftype dflt d name = w) (hw : w ≠ .vnone) :
    encodeFields (.cons name number ftype req dflt rest) d = (do
      let bytes ← encOneField number ftype w
      let restBytes ← encodeFields rest d
      Except.ok (bytes ++ restBytes)) := by
  rw [encodeFields, hg]
  cases w <;>
    first
    | (exact absurd rfl hw)
    | (cases ftype <;> simp [encOneField, bind_assoc, pure_bind])

theorem encoder_dispatch_simple (number : Nat) (ftype : PyFieldType) (w : PyValue)
    (h : simpleElem ftype = true) :
    encOneField number ftype w
      = (do
          let payload ← encodeValueOnly number ftype w
          pure (fieldHeader number (wireTypeOf ftype) ++ payload)
          : Except EncodeErr (List Nat)) := by
  cases ftype <;> first | rfl | simp [simpleElem] at h

theorem appendItem_fresh (acc : List (String × PyValue)) (name : String)
    (item : PyValue) (h : lookupData acc name = none) :
    appendItem acc name item = acc ++ [(name, .vlist [item])] := by
  rw [appendItem, h]
  exact assocSet_fresh acc name _ h

theorem appendItem_snoc (acc : List (String × PyValue)) (name : String)
    (done : List PyValue) (item : PyValue) (h : lookupData acc name = none) :
    appendItem (acc ++ [(name, .vlist done)]) name item
      = acc ++ [(name, .vlist (done ++ [item]))] := by
  rw [appendItem, lookupData_append_none _ _ _ h, lookupData, if_pos rfl]
  exact assocSet_overwrite acc name _ _ h

theorem mapInsert_fresh (acc : List (String × PyValue)) (name : String)
    (k v : PyValue) (h : lookupData acc name = none) :
    mapInsert acc name k v = acc ++ [(name, .vdict [(k, v)])] := by
  rw [mapInsert, h]
  exact assocSet_fresh acc name _ h

theorem mapInsert_snoc (acc : List (String × PyValue)) (name : String)
    (done : List (PyValue × PyValue)) (k v : PyValue)
    (h : lookupData acc name = none)
    (hdone : ∀ e, e ∈ done → keyEq e.1 k = false) :
    mapInsert (acc ++ [(name, .vdict done)]) name k v
      = acc ++ [(name, .vdict (done ++ [(k, v)]))] := by
  rw [mapInsert, lookupData_append_none _ _ _ h, lookupData, if_pos rfl]
  show assocSet (acc ++ [(name, PyValue.vdict done)]) name
    (.vdict (dictSet done k v)) = _
  rw [dictSet_append done k v hdone]
  exact assocSet_overwrite acc name _ _ h

theorem findByName_mem_decls (fl : FieldList) (n : String) (num : Nat)
    (ft : PyFieldType) (req : Bool) (dflt : Option PyValue)
    (h : findByName fl n = some (num, ft, req, dflt)) :
    (n, num, ft, req, dflt) ∈ fieldDecls fl := by
  induction fl using fieldListInduction with
  | hnil => simp [findByName] at h
  | hcons nm num2 ft2 req2 dflt2 rest ih =>
    rw [findByName] at h
    by_cases he : nm = n
    · rw [if_pos he] at h
      injection h with e
      simp only [Prod.mk.injEq] at e
      obtain ⟨rfl, rfl, rfl, rfl⟩ := e
      subst he
      rw [fieldDecls]
      exact List.mem_cons_self _ _
    · rw [if_neg he] at h
      rw [fieldDecls]
      exact List.mem_cons_of_mem _ (ih h)

theorem mapKeyKind_simple (kT : PyFieldType) (h : mapKeyKind kT = true) :
    simpleElem kT = true := by
  cases kT <;> simp_all [mapKeyKind, simpleElem]

theorem mapKeyKind_not_message (kT : PyFieldType) (h : mapKeyKind kT = true) :
    ∀ nm fl oos, kT ≠ .messageF nm fl oos := by
  intro nm fl oos he
  subst he
  simp [mapKeyKind] at h

theorem valueOK_ne_vnone (ft : PyFieldType) (v : PyValue)
    (h : valueOK ft v = true) : v ≠ .vnone := by
  intro he
  subst he
  rw [valueOK_not_vnone] at h
  exact absurd h (by simp)

theorem entryLoop_nil (fuel : Nat) (kT vT : PyFieldType)
    (mk mv : Option PyValue) : entryLoop fuel kT vT mk mv [] = .ok (mk, mv) := by
  rw [entryLoop]
  rfl

theorem fieldTypeOK_repeated_simple (elem : PyFieldType) (packed : Bool)
    (h : fieldTypeOK (.repeatedF elem packed) = true) : simpleElem elem = true := by
  cases elem <;> simp_all [fieldTypeOK, simpleElem]

theorem fieldTypeOK_packed_not_message (elem : PyFieldType)
    (h : fieldTypeOK (.repeatedF elem true) = true) :
    ∀ nm fl2 oos2, elem ≠ .messageF nm fl2 oos2 := by
  intro nm fl2 oos2 he
  subst he
  simp [fieldTypeOK] at h

theorem chunkYields_vnone (ft : PyFieldType) :
    chunkYieldsEntry ft .vnone = false := by
  cases ft <;> simp [chunkYieldsEntry, pvIsNone]

theorem valueOK_repeated_shape (e : PyFieldType) (p : Bool) (v : PyValue)
    (h : valueOK (.repeatedF e p) v = true) : ∃ xs, v = .vlist xs := by
  cases v <;> first | (exact ⟨_, rfl⟩) | simp [valueOK] at h

theorem valueOK_map_shape (kT vT : PyFieldType) (v : PyValue)
    (h : valueOK (.mapF kT vT) v = true) : ∃ es, v = .vdict es := by
  cases v <;> first | (exact ⟨_, rfl⟩) | simp [valueOK] at h

theorem entryLoop_step (kT vT : PyFieldType) (f : Nat) (mk mv : Option PyValue)
    (number wt : Nat) (s1 : List Nat) (hn : number < 2 ^ 29) (hwt : wt < 8) :
    entryLoop (f + 1) kT vT mk mv (fieldHeader number wt ++ s1)
      = if number = 1 then
          (if wireTypeOf kT ≠ wt then .error .wireTypeMismatch
           else do
             let (k, s2) ← decodeValue f kT s1
             entryLoop f kT vT (some k) mv s2)
        else if number = 2 then
          (if wireTypeOf vT ≠ wt then .error .wireTypeMismatch
           else do
             let (v, s2) ← decodeValue f vT s1
             entryLoop f kT vT mk (some v) s2)
        else
          match skipUnknown wt s1 with
          | .error e => .error e
          | .ok s2 => entryLoop f kT vT mk mv s2 := by
  rw [entryLoop, decode_header_encode number wt s1 hn hwt]

/-! ## The encode/decode round trip (C1) -/

mutual
/-- One simple (non-repeated, non-map) field value encodes to a non-empty
payload that decodes back (given enough recursion budget) to an
observably equal, re-encodable value; int/bool map keys come back
bit-identical. -/
theorem encDecValue (ft : PyFieldType) (v : PyValue)
    (hft : fieldTypeOK ft = true) (hv : valueOK ft v = true)
    (hs : simpleElem ft = true) :
    ∃ bs v',
      (∀ number, encodeValueOnly number ft v = .ok bs) ∧
      0 < bs.length ∧
      (∀ number, encodeValueOnly number ft v' = .ok bs) ∧
      valueOK ft v' = true ∧
      pyEqV ft v v' = .ok true ∧
      (mapKeyKind ft = true → v' = v) ∧
      (mapKeyKind ft = true → bs.length ≤ 10) ∧
      (∀ rest f, 2 * bs.length < f →
        decodeValue f ft (bs ++ rest) = .ok (v', rest)) ∧
      ((∀ nm2 fl2 oos2, ft ≠ .messageF nm2 fl2 oos2) →
        ∀ rest f, decodeValue f ft (bs ++ rest) = .ok (v', rest)) := by
  cases ft with
  | int32F =>
    cases v with
    | vint i =>
      have hv2 := hv
      rw [valueOK] at hv2
      simp only [validateValue, Bool.and_eq_true, decide_eq_true_eq] at hv2
      obtain ⟨bs, henc, hpos, -⟩ := decodeIntField_encode i [] (by omega) (by omega)
      have hdecAll : ∀ rest f, decodeValue f .int32F (bs ++ rest)
          = .ok (.vint i, rest) := by
        intro rest f
        obtain ⟨bs2, henc2, -, hdec2⟩ := decodeIntField_encode i rest (by omega) (by omega)
        rw [henc] at henc2
        injection henc2 with e
        subst e
        rw [decodeValue]
        simp only [hdec2, ok_bind]
      have hlen10 : bs.length ≤ 10 := by
        have henc3 := henc
        rw [encodeIntValue] at henc3
        by_cases hneg : i < 0
        · rw [if_pos hneg, encodeVarintInt, if_neg (by omega)] at henc3
          injection henc3 with e
          rw [← e]
          exact encode_varint_le_10 _ (by omega)
        · rw [if_neg hneg, encodeVarintInt, if_neg (by omega)] at henc3
          injection henc3 with e
          rw [← e]
          exact encode_varint_le_10 _ (by omega)
      refine ⟨bs, .vint i, ?_, hpos, ?_, hv, ?_, fun _ => rfl, fun _ => hlen10,
        fun rest f _ => hdecAll rest f, fun _ rest f => hdecAll rest f⟩
      · intro number
        rw [encodeValueOnly]
        exact henc
      · intro number
        rw [encodeValueOnly]
        exact henc
      · rw [pyEqV]
        simp
    | _ => simp [valueOK, validateValue] at hv
  | int64F =>
    cases v with
    | vint i =>
      have hv2 := hv
      rw [valueOK] at hv2
      simp only [validateValue, Bool.and_eq_true, decide_eq_true_eq] at hv2
      obtain ⟨bs, henc, hpos, -⟩ := decodeIntField_encode i [] (by omega) (by omega)
      have hdecAll : ∀ rest f, decodeValue f .int64F (bs ++ rest)
          = .ok (.vint i, rest) := by
        intro rest f
        obtain ⟨bs2, henc2, -, hdec2⟩ := decodeIntField_encode i rest (by omega) (by omega)
        rw [henc] at henc2
        injection henc2 with e
        subst e
        rw [decodeValue]
        simp only [hdec2, ok_bind]
      have hlen10 : bs.length ≤ 10 := by
        have henc3 := henc
        rw [encodeIntValue] at henc3
        by_cases hneg : i < 0
        · rw [if_pos hneg, encodeVarintInt, if_neg (by omega)] at henc3
          injection henc3 with e
          rw [← e]
          exact encode_varint_le_10 _ (by omega)
        · rw [if_neg hneg, encodeVarintInt, if_neg (by omega)] at henc3
          injection henc3 with e
          rw [← e]
          exact encode_varint_le_10 _ (by omega)
      refine ⟨bs, .vint i, ?_, hpos, ?_, hv, ?_, fun _ => rfl, fun _ => hlen10,
        fun rest f _ => hdecAll rest f, fun _ rest f => hdecAll rest f⟩
      · intro number
        rw [encodeValueOnly]
        exact henc
      · intro number
        rw [encodeValueOnly]
        exact henc
      · rw [pyEqV]
        simp
    | _ => simp [valueOK, validateValue] at hv
  | uint32F =>
    cases v with
    | vint i =>
      have hv2 := hv
      rw [valueOK] at hv2
      simp only [validateValue, Bool.and_eq_true, decide_eq_true_eq] at hv2
      obtain ⟨bs, henc, hpos, -⟩ := decodeUIntField_encode i [] (by omega) (by omega)
      have hdecAll : ∀ rest f, decodeValue f .uint32F (bs ++ rest)
          = .ok (.vint i, rest) := by
        intro rest f
        obtain ⟨bs2, henc2, -, hdec2⟩ := decodeUIntField_encode i rest (by omega) (by omega)
        rw [henc] at henc2
        injection henc2 with e
        subst e
        rw [decodeValue]
        simp only [hdec2, ok_bind]
      have hlen10 : bs.length ≤ 10 := by
        have henc3 := henc
        rw [encodeIntValue, if_neg (by omega), encodeVarintInt, if_neg (by omega)] at henc3
        injection henc3 with e
        rw [← e]
        exact encode_varint_le_10 _ (by omega)
      refine ⟨bs, .vint i, ?_, hpos, ?_, hv, ?_, fun _ => rfl, fun _ => hlen10,
        fun rest f _ => hdecAll rest f, fun _ rest f => hdecAll rest f⟩
      · intro number
        rw [encodeValueOnly]
        exact henc
      · intro number
        rw [encodeValueOnly]
        exact henc
      · rw [pyEqV]
        simp
    | _ => simp [valueOK, validateValue] at hv
  | uint64F =>
    cases v with
    | vint i =>
      have hv2 := hv
      rw [valueOK] at hv2
      simp only [validateValue, Bool.and_eq_true, decide_eq_true_eq] at hv2
      obtain ⟨bs, henc, hpos, -⟩ := decodeUIntField_encode i [] (by omega) (by omega)
      have hdecAll : ∀ rest f, decodeValue f .uint64F (bs ++ rest)
          = .ok (.vint i, rest) := by
        intro rest f
        obtain ⟨bs2, henc2, -, hdec2⟩ := decodeUIntField_encode i rest (by omega) (by omega)
        rw [henc] at henc2
        injection henc2 with e
        subst e
        rw [decodeValue]
        simp only [hdec2, ok_bind]
      have hlen10 : bs.length ≤ 10 := by
        have henc3 := henc
        rw [encodeIntValue, if_neg (by omega), encodeVarintInt, if_neg (by omega)] at henc3
        injection henc3 with e
        rw [← e]
        exact encode_varint_le_10 _ (by omega)
      refine ⟨bs, .vint i, ?_, hpos, ?_, hv, ?_, fun _ => rfl, fun _ => hlen10,
        fun rest f _ => hdecAll rest f, fun _ rest f => hdecAll rest f⟩
      · intro number
        rw [encodeValueOnly]
        exact henc
      · intro number
        rw [encodeValueOnly]
        exact henc
      · rw [pyEqV]
        simp
    | _ => simp [valueOK, validateValue] at hv
  | boolF =>
    cases v with
    | vbool b =>
      have hdecAll : ∀ rest f, decodeValue f .boolF ([if b then 1 else 0] ++ rest)
          = .ok (.vbool b, rest) := by
        intro rest f
        rw [decodeValue, List.singleton_append]
        simp only [decodeBoolField_encode b rest, ok_bind]
      refine ⟨[if b then 1 else 0], .vbool b, ?_, by cases b <;> simp, ?_, hv, ?_,
        fun _ => rfl, fun _ => by cases b <;> simp,
        fun rest f _ => hdecAll rest f, fun _ rest f => hdecAll rest f⟩
      · intro number
        rw [encodeValueOnly]
      · intro number
        rw [encodeValueOnly]
      · rw [pyEqV]
        simp
    | _ => simp [valueOK, validateValue] at hv
  | bytesF =>
    cases v with
    | vbytes data =>
      have hlen : data.length < 2 ^ 64 := by
        have hv2 := hv
        rw [valueOK] at hv2
        simpa using hv2
      have hdecAll : ∀ rest f, decodeValue f .bytesF (encode_bytes data ++ rest)
          = .ok (.vbytes data, rest) := by
        intro rest f
        rw [decodeValue]
        simp only [decode_bytes_encode data rest hlen, ok_bind]
      have hpos : 0 < (encode_bytes data).length := by
        have := encode_varint_pos data.length
        rw [encode_bytes, List.length_append]
        omega
      refine ⟨encode_bytes data, .vbytes data, ?_, hpos, ?_, hv, ?_,
        fun hk => absurd hk (by simp [mapKeyKind]),
        fun hk => absurd hk (by simp [mapKeyKind]),
        fun rest f _ => hdecAll rest f, fun _ rest f => hdecAll rest f⟩
      · intro number
        rw [encodeValueOnly]
      · intro number
        rw [encodeValueOnly]
      · rw [pyEqV]
        simp
    | _ => simp [valueOK] at hv
  | enumF variants =>
    cases v with
    | vint i =>
      have hv2 := hv
      rw [valueOK] at hv2
      simp only [Bool.and_eq_true, decide_eq_true_eq] at hv2
      obtain ⟨hmem, hnn⟩ := hv2
      have hlt : i < 2 ^ 31 := by
        have hft2 := hft
        rw [fieldTypeOK] at hft2
        have := List.all_eq_true.mp hft2 i (List.mem_of_elem_eq_true hmem)
        simp only [Bool.and_eq_true, decide_eq_true_eq] at this
        exact this.2
      obtain ⟨bs, henc, hpos, -⟩ :=
        decodeEnumField_encode variants i [] hnn (by omega) hmem
      have hdecAll : ∀ rest f, decodeValue f (.enumF variants) (bs ++ rest)
          = .ok (.vint i, rest) := by
        intro rest f
        obtain ⟨bs2, henc2, -, hdec2⟩ :=
          decodeEnumField_encode variants i rest hnn (by omega) hmem
        rw [henc] at henc2
        injection henc2 with e
        subst e
        rw [decodeValue]
        exact hdec2
      refine ⟨bs, .vint i, ?_, hpos, ?_, hv, ?_, fun _ => rfl,
        fun hk => absurd hk (by simp [mapKeyKind]),
        fun rest f _ => hdecAll rest f, fun _ rest f => hdecAll rest f⟩
      · intro number
        rw [encodeValueOnly]
        exact henc
      · intro number
        rw [encodeValueOnly]
        exact henc
      · rw [pyEqV]
        simp
    | _ => simp [valueOK] at hv
  | sint32F =>
    cases v with
    | vint i =>
      have hv2 := hv
      rw [valueOK] at hv2
      simp only [validateValue, Bool.and_eq_true, decide_eq_true_eq] at hv2
      obtain ⟨hz0, hzlt, hzdec⟩ := zigzag32_spec i (by omega) (by omega)
      have henc : encodeVarintInt (encode_zig_zag32 i)
          = .ok (encode_varint (encode_zig_zag32 i).toNat) := by
        rw [encodeVarintInt, if_neg (by omega)]
      have hdecAll : ∀ rest f, decodeValue f .sint32F
          (encode_varint (encode_zig_zag32 i).toNat ++ rest) = .ok (.vint i, rest) := by
        intro rest f
        rw [decodeValue]
        simp only [decode_varint_encode _ rest
          (by omega : (encode_zig_zag32 i).toNat < 2 ^ 64), ok_bind]
        rw [Int.toNat_of_nonneg hz0, hzdec]
      refine ⟨encode_varint (encode_zig_zag32 i).toNat, .vint i, ?_, encode_varint_pos _,
        ?_, hv, ?_, fun _ => rfl,
        fun _ => encode_varint_le_10 _ (by omega),
        fun rest f _ => hdecAll rest f, fun _ rest f => hdecAll rest f⟩
      · intro number
        rw [encodeValueOnly]
        exact henc
      · intro number
        rw [encodeValueOnly]
        exact henc
      · rw [pyEqV]
        simp
    | _ => simp [valueOK, validateValue] at hv
  | sint64F =>
    cases v with
    | vint i =>
      have hv2 := hv
      rw [valueOK] at hv2
      simp only [validateValue, Bool.and_eq_true, decide_eq_true_eq] at hv2
      obtain ⟨hz0, hzlt, hzdec⟩ := zigzag64_spec i (by omega) (by omega)
      have henc : encodeVarintInt (encode_zig_zag64 i)
          = .ok (encode_varint (encode_zig_zag64 i).toNat) := by
        rw [encodeVarintInt, if_neg (by omega)]
      have hdecAll : ∀ rest f, decodeValue f .sint64F
          (encode_varint (encode_zig_zag64 i).toNat ++ rest) = .ok (.vint i, rest) := by
        intro rest f
        rw [decodeValue]
        simp only [decode_varint_encode _ rest
          (by omega : (encode_zig_zag64 i).toNat < 2 ^ 64), ok_bind]
        rw [Int.toNat_of_nonneg hz0, hzdec]
      refine ⟨encode_varint (encode_zig_zag64 i).toNat, .vint i, ?_, encode_varint_pos _,
        ?_, hv, ?_, fun _ => rfl,
        fun _ => encode_varint_le_10 _ (by omega),
        fun rest f _ => hdecAll rest f, fun _ rest f => hdecAll rest f⟩
      · intro number
        rw [encodeValueOnly]
        exact henc
      · intro number
        rw [encodeValueOnly]
        exact henc
      · rw [pyEqV]
        simp
    | _ => simp [valueOK, validateValue] at hv
  | fixed32F =>
    cases v with
    | vint i =>
      have hv2 := hv
      rw [valueOK] at hv2
      simp only [validateValue, Bool.and_eq_true, decide_eq_true_eq] at hv2
      have henc : ∀ number, encodeValueOnly number .fixed32F (.vint i)
          = .ok (encode_le 4 i.toNat) := by
        intro number
        rw [encodeValueOnly, if_pos ⟨hv2.1, by omega⟩]
      have hdecAll : ∀ rest f, decodeValue f .fixed32F
          (encode_le 4 i.toNat ++ rest) = .ok (.vint i, rest) := by
        intro rest f
        rw [decodeValue]
        simp only [decode_le_encode 4 i.toNat rest (by omega : i.toNat < 256 ^ 4),
          ok_bind]
        rw [Int.toNat_of_nonneg hv2.1]
      refine ⟨encode_le 4 i.toNat, .vint i, henc,
        (by rw [encode_le_length]; norm_num), henc, hv, ?_, fun _ => rfl,
        fun _ => by rw [encode_le_length]; norm_num,
        fun rest f _ => hdecAll rest f, fun _ rest f => hdecAll rest f⟩
      · rw [pyEqV]
        simp
    | _ => simp [valueOK, validateValue] at hv
  | fixed64F =>
    cases v with
    | vint i =>
      have hv2 := hv
      rw [valueOK] at hv2
      simp only [validateValue, Bool.and_eq_true, decide_eq_true_eq] at hv2
      have henc : ∀ number, encodeValueOnly number .fixed64F (.vint i)
          = .ok (encode_le 8 i.toNat) := by
        intro number
        rw [encodeValueOnly, if_pos ⟨hv2.1, by omega⟩]
      have hdecAll : ∀ rest f, decodeValue f .fixed64F
          (encode_le 8 i.toNat ++ rest) = .ok (.vint i, rest) := by
        intro rest f
        rw [decodeValue]
        simp only [decode_le_encode 8 i.toNat rest (by omega : i.toNat < 256 ^ 8),
          ok_bind]
        rw [Int.toNat_of_nonneg hv2.1]
      refine ⟨encode_le 8 i.toNat, .vint i, henc,
        (by rw [encode_le_length]; norm_num), henc, hv, ?_, fun _ => rfl,
        fun _ => by rw [encode_le_length]; norm_num,
        fun rest f _ => hdecAll rest f, fun _ rest f => hdecAll rest f⟩
      · rw [pyEqV]
        simp
    | _ => simp [valueOK, validateValue] at hv
  | sfixed32F =>
    cases v with
    | vint i =>
      have hv2 := hv
      rw [valueOK] at hv2
      simp only [validateValue, Bool.and_eq_true, decide_eq_true_eq] at hv2
      obtain ⟨hround, hbound⟩ := fromTwos_toTwos32 i (by omega) (by omega)
      have henc : ∀ number, encodeValueOnly number .sfixed32F (.vint i)
          = .ok (encode_le 4 (toTwos 32 i)) := by
        intro number
        rw [encodeValueOnly, if_pos ⟨by omega, by omega⟩]
      have hdecAll : ∀ rest f, decodeValue f .sfixed32F
          (encode_le 4 (toTwos 32 i) ++ rest) = .ok (.vint i, rest) := by
        intro rest f
        rw [decodeValue]
        simp only [decode_le_encode 4 (toTwos 32 i) rest
          (by omega : toTwos 32 i < 256 ^ 4), ok_bind]
        rw [hround]
      refine ⟨encode_le 4 (toTwos 32 i), .vint i, henc,
        (by rw [encode_le_length]; norm_num), henc, hv, ?_, fun _ => rfl,
        fun _ => by rw [encode_le_length]; norm_num,
        fun rest f _ => hdecAll rest f, fun _ rest f => hdecAll rest f⟩
      · rw [pyEqV]
        simp
    | _ => simp [valueOK, validateValue] at hv
  | sfixed64F =>
    cases v with
    | vint i =>
      have hv2 := hv
      rw [valueOK] at hv2
      simp only [validateValue, Bool.and_eq_true, decide_eq_true_eq] at hv2
      obtain ⟨hround, hbound⟩ := fromTwos_toTwos64 i (by omega) (by omega)
      have henc : ∀ number, encodeValueOnly number .sfixed64F (.vint i)
          = .ok (encode_le 8 (toTwos 64 i)) := by
        intro number
        rw [encodeValueOnly, if_pos ⟨by omega, by omega⟩]
      have hdecAll : ∀ rest f, decodeValue f .sfixed64F
          (encode_le 8 (toTwos 64 i) ++ rest) = .ok (.vint i, rest) := by
        intro rest f
        rw [decodeValue]
        simp only [decode_le_encode 8 (toTwos 64 i) rest
          (by omega : toTwos 64 i < 256 ^ 8), ok_bind]
        rw [hround]
      refine ⟨encode_le 8 (toTwos 64 i), .vint i, henc,
        (by rw [encode_le_length]; norm_num), henc, hv, ?_, fun _ => rfl,
        fun _ => by rw [encode_le_length]; norm_num,
        fun rest f _ => hdecAll rest f, fun _ rest f => hdecAll rest f⟩
      · rw [pyEqV]
        simp
    | _ => simp [valueOK, validateValue] at hv
  | floatF => simp [fieldTypeOK] at hft
  | doubleF => simp [fieldTypeOK] at hft
  | stringF =>
    cases v with
    | vstr cps =>
      have hv2 := hv
      rw [valueOK] at hv2
      obtain ⟨data, hdata, hdlen⟩ : ∃ data, utf8Encode cps = .ok data ∧
          data.length < 2 ^ 64 := by
        cases he : utf8Encode cps with
        | ok data =>
          rw [he] at hv2
          exact ⟨data, rfl, by simpa using hv2⟩
        | error e =>
          rw [he] at hv2
          simp at hv2
      have henc : ∀ number, encodeValueOnly number .stringF (.vstr cps)
          = .ok (encode_bytes data) := by
        intro number
        rw [encodeValueOnly]
        simp only [hdata, ok_bind]
      have hdecAll : ∀ rest f, decodeValue f .stringF (encode_bytes data ++ rest)
          = .ok (.vstr cps, rest) := by
        intro rest f
        rw [decodeValue]
        simp only [decode_bytes_encode data rest hdlen, ok_bind,
          utf8Decode_encode cps data hdata, ok_bind]
      have hpos : 0 < (encode_bytes data).length := by
        have := encode_varint_pos data.length
        rw [encode_bytes, List.length_append]
        omega
      refine ⟨encode_bytes data, .vstr cps, henc, hpos, henc, hv, ?_,
        fun hk => absurd hk (by simp [mapKeyKind]),
        fun hk => absurd hk (by simp [mapKeyKind]),
        fun rest f _ => hdecAll rest f, fun _ rest f => hdecAll rest f⟩
      · rw [pyEqV]
        simp
    | _ => simp [valueOK] at hv
  | repeatedF e p => simp [simpleElem] at hs
  | mapF kT vT => simp [simpleElem] at hs
  | messageF nm flds oos =>
    cases v with
    | vmsg nm2 d2 =>
      have hft2 := hft
      rw [fieldTypeOK] at hft2
      simp only [Bool.and_eq_true] at hft2
      obtain ⟨⟨hflds, hoos⟩, hmp⟩ := hft2
      have hv2 := hv
      rw [valueOK] at hv2
      simp only [Bool.and_eq_true, beq_iff_eq] at hv2
      obtain ⟨⟨⟨⟨⟨hnm, hdup⟩, hclash⟩, hinit⟩, hdOK⟩, hlen⟩ := hv2
      subst hnm
      obtain ⟨bs0, kk, acc', hencF, hkle, hkeys, hdecl', hreenc, hmeq, hloop⟩ :=
        encDecFields flds d2 flds hflds
          (fun nm3 num3 ft3 req3 dflt3 hm =>
            (fieldDecls_find flds hflds nm3 num3 ft3 req3 dflt3 hm).2)
          (fun nm3 num3 ft3 req3 dflt3 hm => by
            cases hl : lookupData d2 nm3 with
            | none => exact Or.inr rfl
            | some w =>
              left
              refine ⟨w, rfl, ?_⟩
              obtain ⟨num4, ft4, req4, dflt4, hf4, hw4⟩ :=
                dataOK_lookup flds d2 hdOK nm3 w hl
              have hf3 := (fieldDecls_find flds hflds nm3 num3 ft3 req3 dflt3 hm).1
              rw [hf3] at hf4
              injection hf4 with e
              simp only [Prod.mk.injEq] at e
              obtain ⟨-, he2, -, -⟩ := e
              rw [he2]
              exact hw4)
          (fun nm3 num3 ft3 dflt3 hm => by
            have hf3 := (fieldDecls_find flds hflds nm3 num3 ft3 true dflt3 hm).1
            exact chunkYields_ne_vnone ft3 _
              (required_yields_chunk flds d2 nm3 num3 ft3 dflt3 hflds hf3 hdOK hinit))
      have hbs0lt : bs0.length < 2 ^ 64 := by
        simp only [hencF] at hlen
        exact of_decide_eq_true hlen
      have hreqAcc : ∀ n num3 ft3 dflt3,
          findByName flds n = some (num3, ft3, true, dflt3) →
          (lookupData acc' n).isSome = true := by
        intro n num3 ft3 dflt3 hf3
        have hchunk :=
          required_yields_chunk flds d2 n num3 ft3 dflt3 hflds hf3 hdOK hinit
        rw [lookupData_isSome_iff, hkeys]
        exact encodedNames_of_chunk flds d2 n num3 ft3 true dflt3 hf3 hchunk
      have hstrict : strictCheck flds acc' = .ok () :=
        strictCheck_of flds acc' (fun n num3 ft3 dflt3 hm =>
          hreqAcc n num3 ft3 dflt3
            (fieldDecls_find flds hflds n num3 ft3 true dflt3 hm).1)
      have hinit' : isInitialized flds acc' = true := by
        apply isInitialized_of
        intro n hn
        obtain ⟨num3, ft3, hf3⟩ := requiredNames_decl flds hflds n hn
        exact hreqAcc n num3 ft3 none hf3
      have hnd : (acc'.map Prod.fst).Nodup := by
        rw [hkeys]
        exact encodedNames_nodup flds d2 hflds
      have hdup' : noDupKeys acc' = true := noDupKeys_of_nodup acc' hnd
      have hclash' : noGroupClash oos acc' = true :=
        noGroupClash_of_encoded oos flds d2 acc' hoos hclash hmp hflds hnd
          (fun n hm => by rw [hkeys] at hm; exact hm)
      obtain ⟨sel2, hinitK⟩ := initKwargs_app flds oos acc' ⟨[], []⟩
        (fun k w hm => hdecl' k w hm)
        (fun k w hm => rfl)
        hnd
        (fun k w hm grp hgm n hn => by
          refine ⟨rfl, fun v2 hm2 => ?_⟩
          by_contra hne
          obtain ⟨numk, ftk, reqk, dfltk, hfk, hwk⟩ := hdecl' k w hm
          have hlk : lookupData acc' k = some w ∨ (lookupData acc' k).isSome = true :=
            Or.inr (lookupData_of_mem acc' k w hm)
          obtain ⟨wk, hwk2⟩ := Option.isSome_iff_exists.mp (lookupData_of_mem acc' k w hm)
          obtain ⟨wn, hwn2⟩ := Option.isSome_iff_exists.mp (lookupData_of_mem acc' n v2 hm2)
          exact noGroupClash_two_stored oos acc' k n wk wn grp hoos hclash' hwk2 hwn2
            (fun he => hne he.symm) hgm hn)
      have hposE : 0 < (encode_bytes bs0).length := by
        have := encode_varint_pos bs0.length
        rw [encode_bytes, List.length_append]
        omega
      have hdecB : ∀ rest f, 2 * (encode_bytes bs0).length < f →
          decodeValue f (.messageF nm flds oos) (encode_bytes bs0 ++ rest)
            = .ok (.vmsg nm acc', rest) := by
        intro rest f hf
        have hvpos := encode_varint_pos bs0.length
        have hlenB : (encode_bytes bs0).length
            = (encode_varint bs0.length).length + bs0.length := by
          rw [encode_bytes, List.length_append]
        obtain ⟨f2, rfl⟩ : ∃ f2, f = f2 + 1 := ⟨f - 1, by omega⟩
        have hrun : fromStreamLoop f2 flds [] bs0 = .ok acc' := by
          have h2 := hloop f2 [] [] (by simp only [List.append_nil]; omega)
            (fun n _ => rfl)
          simpa [fromStreamLoop_nil] using h2
        rw [decodeValue]
        rw [show encode_bytes bs0 ++ rest = encode_varint bs0.length ++ (bs0 ++ rest) by
          rw [encode_bytes, List.append_assoc]]
        simp only [decode_varint_encode bs0.length (bs0 ++ rest) hbs0lt, ok_bind,
          List.take_left, List.drop_left]
        show (match f2 + 1 with
          | 0 => Except.error DecodeErr.fuelOut
          | _ + 1 => _) = _
        simp only [Nat.add_eq]
        simp only [hrun, ok_bind, hstrict, ok_bind, hinitK, ok_bind, List.nil_append]
      refine ⟨encode_bytes bs0, .vmsg nm acc', ?_, hposE, ?_, ?_, ?_,
        fun hk => absurd hk (by simp [mapKeyKind]),
        fun hk => absurd hk (by simp [mapKeyKind]),
        hdecB, fun hne => absurd rfl (hne nm flds oos)⟩
      · intro number
        rw [encodeValueOnly, if_pos hinit]
        simp only [hencF, ok_bind]
      · intro number
        rw [encodeValueOnly, if_pos hinit']
        simp only [hreenc, ok_bind]
      · rw [valueOK]
        simp only [Bool.and_eq_true, beq_iff_eq]
        refine ⟨⟨⟨⟨⟨trivial, hdup'⟩, hclash'⟩, hinit'⟩,
          dataOK_of flds acc' (fun k w hm => hdecl' k w hm)⟩, ?_⟩
        simp only [hreenc]
        exact decide_eq_true hbs0lt
      · rw [pyEqV, if_pos rfl]
        show pyMsgEq flds d2 acc' = .ok true
        exact hmeq
    | _ => simp [valueOK] at hv
termination_by (sizeOf ft, 0, 0, 0)
decreasing_by
  all_goals
    first
    | decreasing_tactic
    | (have h1 := sizeOf_pyFieldType_pos ft
       decreasing_tactic)

/-- `PackedRepeatedStrategy`: a packed payload of valid scalar items
decodes item-by-item back to an observably equal, re-encodable list. -/
theorem encDecPacked (elem : PyFieldType) (xs : List PyValue)
    (hft : fieldTypeOK elem = true) (hs : simpleElem elem = true)
    (hnm : ∀ nm2 fl2 oos2, elem ≠ .messageF nm2 fl2 oos2)
    (hxs : valuesOK elem xs = true) :
    ∃ pbs xs',
      encodePackedItems elem xs = .ok pbs ∧
      encodePackedItems elem xs' = .ok pbs ∧
      xs.length ≤ pbs.length ∧
      valuesOK elem xs' = true ∧
      List.Forall₂ (fun a b => pyEqV elem a b = .ok true) xs xs' ∧
      (∀ f, pbs.length < f → packedLoop f elem pbs = .ok xs') := by
  cases xs with
  | nil =>
    refine ⟨[], [], by rw [encodePackedItems], by rw [encodePackedItems], by simp,
      by rw [valuesOK], List.Forall₂.nil, ?_⟩
    intro f hf
    rw [packedLoop]
  | cons x xtail =>
    rw [valuesOK] at hxs
    simp only [Bool.and_eq_true] at hxs
    obtain ⟨ibs, x', hencx, hposx, hreencx, hvx', hpyx, -, -, -, hdecu⟩ :=
      encDecValue elem x hft hxs.1 hs
    obtain ⟨pbsT, xsT', hencT, hreencT, hlenT, hvT', hfaT, hloopT⟩ :=
      encDecPacked elem xtail hft hs hnm hxs.2
    refine ⟨ibs ++ pbsT, x' :: xsT', ?_, ?_, ?_, ?_, List.Forall₂.cons hpyx hfaT, ?_⟩
    · rw [encodePackedItems]
      simp only [hencx 0, ok_bind, hencT, ok_bind]
    · rw [encodePackedItems]
      simp only [hreencx 0, ok_bind, hreencT, ok_bind]
    · simp only [List.length_cons, List.length_append]
      omega
    · rw [valuesOK]
      simp only [Bool.and_eq_true]
      exact ⟨hvx', hvT'⟩
    · intro f hf
      simp only [List.length_append] at hf
      obtain ⟨b0, ibs0, rfl⟩ : ∃ b0 ibs0, ibs = b0 :: ibs0 := by
        cases ibs with
        | nil => simp at hposx
        | cons a l => exact ⟨a, l, rfl⟩
      obtain ⟨f2, rfl⟩ : ∃ f2, f = f2 + 1 := ⟨f - 1, by
        simp only [List.length_cons] at hf
        omega⟩
      rw [List.cons_append, packedLoop]
      show (match f2 + 1 with
        | 0 => Except.error DecodeErr.fuelOut
        | _ + 1 => _) = _
      simp only [Nat.add_eq]
      rw [show (b0 :: (ibs0 ++ pbsT)) = (b0 :: ibs0) ++ pbsT from rfl]
      simp only [hdecu hnm pbsT f2, ok_bind,
        hloopT f2 (by simp only [List.length_cons] at hf; omega), ok_bind]
      simp
termination_by (sizeOf elem, 0, xs.length + 1, 0)

/-- `UnpackedRepeatedStrategy`: once the decoded list has started, each
further item chunk appends the decoded item in order (one loop iteration
and one fuel unit per item). -/
theorem encDecUnpackedTail (elem : PyFieldType) (xs : List PyValue) (number : Nat)
    (name : String) (FULL : FieldList) (req : Bool) (dflt : Option PyValue)
    (hft : fieldTypeOK elem = true) (hs : simpleElem elem = true)
    (hxs : valuesOK elem xs = true)
    (hn29 : number < 2 ^ 29)
    (hfind : findByNumber FULL number = some (name, .repeatedF elem false, req, dflt)) :
    ∃ ubs xs',
      encodeUnpackedItems number elem xs = .ok ubs ∧
      encodeUnpackedItems number elem xs' = .ok ubs ∧
      2 * xs.length ≤ ubs.length ∧
      valuesOK elem xs' = true ∧
      List.Forall₂ (fun a b => pyEqV elem a b = .ok true) xs xs' ∧
      (∀ f acc rest done, 2 * (ubs ++ rest).length < f →
        lookupData acc name = none →
        fromStreamLoop f FULL (acc ++ [(name, .vlist done)]) (ubs ++ rest)
          = fromStreamLoop (f - xs.length) FULL
              (acc ++ [(name, .vlist (done ++ xs'))]) rest) := by
  cases xs with
  | nil =>
    refine ⟨[], [], by rw [encodeUnpackedItems], by rw [encodeUnpackedItems],
      by simp, by rw [valuesOK], List.Forall₂.nil, ?_⟩
    intro f acc rest done hf hfr
    simp
  | cons x xtail =>
    rw [valuesOK] at hxs
    simp only [Bool.and_eq_true] at hxs
    obtain ⟨ibs, x', hencx, hposx, hreencx, hvx', hpyx, -, -, hdecB, -⟩ :=
      encDecValue elem x hft hxs.1 hs
    obtain ⟨ubsT, xsT', hencT, hreencT, hlenT, hvT', hfaT, hloopT⟩ :=
      encDecUnpackedTail elem xtail number name FULL req dflt hft hs hxs.2 hn29 hfind
    have hhdr : 0 < (fieldHeader number (wireTypeOf elem)).length := by
      rw [fieldHeader]
      exact encode_varint_pos _
    refine ⟨fieldHeader number (wireTypeOf elem) ++ ibs ++ ubsT, x' :: xsT',
      ?_, ?_, ?_, ?_, List.Forall₂.cons hpyx hfaT, ?_⟩
    · rw [encodeUnpackedItems]
      simp only [hencx number, ok_bind, hencT, ok_bind]
    · rw [encodeUnpackedItems]
      simp only [hreencx number, ok_bind, hreencT, ok_bind]
    · simp only [List.length_cons, List.length_append]
      omega
    · rw [valuesOK]
      simp only [Bool.and_eq_true]
      exact ⟨hvx', hvT'⟩
    · intro f acc rest done hf hfr
      simp only [List.length_append] at hf
      obtain ⟨f1, rfl⟩ : ∃ f1, f = f1 + 1 := ⟨f - 1, by omega⟩
      have hdec1 : decodeValue f1 (.repeatedF elem false) (ibs ++ (ubsT ++ rest))
          = .ok (x', ubsT ++ rest) := by
        obtain ⟨f2, rfl⟩ : ∃ f2, f1 = f2 + 1 := ⟨f1 - 1, by omega⟩
        rw [decodeValue, if_neg (by simp)]
        exact hdecB (ubsT ++ rest) f2 (by omega)
      rw [show (fieldHeader number (wireTypeOf elem) ++ ibs ++ ubsT) ++ rest
          = (fieldHeader number (wireTypeOf elem) ++ ibs) ++ (ubsT ++ rest) by
        simp [List.append_assoc]]
      rw [loop_step_unpacked FULL number name elem req dflt x' ibs (ubsT ++ rest)
        (acc ++ [(name, PyValue.vlist done)]) f1 hfind hn29 hdec1]
      rw [appendItem_snoc acc name done x' hfr]
      rw [hloopT f1 acc rest (done ++ [x'])
        (by simp only [List.length_append]; omega) hfr]
      rw [show f1 + 1 - (x :: xtail).length = f1 - xtail.length by
        simp only [List.length_cons]
        omega]
      rw [show (done ++ [x']) ++ xsT' = done ++ (x' :: xsT') by simp]
termination_by (sizeOf elem, 0, xs.length + 1, 0)

/-- `MapField.decode` on one well-formed `_DictEntry` chunk: the entry
decodes to the original key and an observably equal value. -/
theorem encDecMapEntry (kT vT : PyFieldType) (k v : PyValue)
    (hkft : fieldTypeOK kT = true) (hvft : fieldTypeOK vT = true)
    (hkk : mapKeyKind kT = true) (hsv : simpleElem vT = true)
    (hkOK : valueOK kT k = true) (hvOK : valueOK vT v = true)
    (hb : (match encodeValueOnly 2 vT v with
           | .ok vb => decide (vb.length + 12 < 2 ^ 64)
           | .error _ => true) = true) :
    ∃ kb vb v',
      encodeValueOnly 1 kT k = .ok kb ∧
      encodeValueOnly 2 vT v = .ok vb ∧
      encodeValueOnly 2 vT v' = .ok vb ∧
      valueOK vT v' = true ∧
      pyEqV vT v v' = .ok true ∧
      (∀ f rest,
        2 * ((encode_bytes (fieldHeader 1 (wireTypeOf kT) ++ kb ++
          fieldHeader 2 (wireTypeOf vT) ++ vb)).length + rest.length) < f →
        decodeMapEntry f kT vT
          (encode_bytes (fieldHeader 1 (wireTypeOf kT) ++ kb ++
            fieldHeader 2 (wireTypeOf vT) ++ vb) ++ rest)
          = .ok ((k, v'), rest)) := by
  obtain ⟨kb, k', henck, hposk, -, hvk', -, hkeyk, hlen10, -, hdecu⟩ :=
    encDecValue kT k hkft hkOK (mapKeyKind_simple kT hkk)
  have hkeq : k = k' := (hkeyk hkk).symm
  subst hkeq
  obtain ⟨vb, v', hencv, hposv, hreencv, hvv', hpyv, -, -, hdecvB, -⟩ :=
    encDecValue vT v hvft hvOK hsv
  have hb2 : vb.length + 12 < 2 ^ 64 := by
    simp only [hencv 2] at hb
    exact of_decide_eq_true hb
  have hfh1 : fieldHeader 1 (wireTypeOf kT) = [8 * 1 + wireTypeOf kT] :=
    fieldHeader_small 1 (wireTypeOf kT) (by norm_num) (wireTypeOf_lt kT)
  have hfh2 : fieldHeader 2 (wireTypeOf vT) = [8 * 2 + wireTypeOf vT] :=
    fieldHeader_small 2 (wireTypeOf vT) (by norm_num) (wireTypeOf_lt vT)
  have hklen : kb.length ≤ 10 := hlen10 hkk
  have hentlen : (fieldHeader 1 (wireTypeOf kT) ++ kb ++
      fieldHeader 2 (wireTypeOf vT) ++ vb).length < 2 ^ 64 := by
    simp only [List.length_append, hfh1, hfh2, List.length_cons, List.length_nil]
    omega
  refine ⟨kb, vb, v', henck 1, hencv 2, hreencv 2, hvv', hpyv, ?_⟩
  intro f rest hf
  have hvlen : 0 < (encode_varint (fieldHeader 1 (wireTypeOf kT) ++ kb ++
      fieldHeader 2 (wireTypeOf vT) ++ vb).length).length := encode_varint_pos _
  have hblen : (encode_bytes (fieldHeader 1 (wireTypeOf kT) ++ kb ++
      fieldHeader 2 (wireTypeOf vT) ++ vb)).length
      = (encode_varint (fieldHeader 1 (wireTypeOf kT) ++ kb ++
        fieldHeader 2 (wireTypeOf vT) ++ vb).length).length
        + (fieldHeader 1 (wireTypeOf kT) ++ kb ++
          fieldHeader 2 (wireTypeOf vT) ++ vb).length := by
    rw [encode_bytes, List.length_append]
  obtain ⟨f2, rfl⟩ : ∃ f2, f = f2 + 1 := ⟨f - 1, by omega⟩
  rw [decodeMapEntry]
  simp only [decode_bytes_encode _ rest hentlen, ok_bind]
  show (match f2 + 1 with
    | 0 => Except.error DecodeErr.fuelOut
    | _ + 1 => _) = _
  simp only [Nat.add_eq]
  -- run the two-iteration entry loop
  have hlenfacts : (fieldHeader 1 (wireTypeOf kT)).length = 1 ∧
      (fieldHeader 2 (wireTypeOf vT)).length = 1 := by
    rw [hfh1, hfh2]
    simp
  have hE : (fieldHeader 1 (wireTypeOf kT) ++ kb ++
      fieldHeader 2 (wireTypeOf vT) ++ vb).length
      = kb.length + vb.length + 2 := by
    simp only [List.length_append, hlenfacts.1, hlenfacts.2]
    omega
  obtain ⟨f3, hf3⟩ : ∃ f3, f2 = f3 + 1 := ⟨f2 - 1, by omega⟩
  obtain ⟨f4, hf4⟩ : ∃ f4, f3 = f4 + 1 := ⟨f3 - 1, by omega⟩
  have hloopE : entryLoop f2 kT vT none none
      (fieldHeader 1 (wireTypeOf kT) ++ kb ++
        fieldHeader 2 (wireTypeOf vT) ++ vb) = .ok (some k, some v') := by
    rw [show fieldHeader 1 (wireTypeOf kT) ++ kb ++
        fieldHeader 2 (wireTypeOf vT) ++ vb
        = fieldHeader 1 (wireTypeOf kT) ++
          (kb ++ (fieldHeader 2 (wireTypeOf vT) ++ vb)) by
      simp [List.append_assoc]]
    subst hf3
    rw [entryLoop_step kT vT f3 none none 1 (wireTypeOf kT)
      (kb ++ (fieldHeader 2 (wireTypeOf vT) ++ vb)) (by norm_num) (wireTypeOf_lt kT)]
    rw [if_pos rfl, if_neg (by simp)]
    simp only [hdecu (mapKeyKind_not_message kT hkk)
      (fieldHeader 2 (wireTypeOf vT) ++ vb) f3, ok_bind]
    subst hf4
    rw [entryLoop_step kT vT f4 (some k) none 2 (wireTypeOf vT) vb
      (by norm_num) (wireTypeOf_lt vT)]
    rw [if_neg (by norm_num), if_pos rfl, if_neg (by simp)]
    have hdecv : decodeValue f4 vT vb = .ok (v', []) := by
      have := hdecvB [] f4 (by omega)
      simpa using this
    simp only [hdecv, ok_bind]
    exact entryLoop_nil f4 kT vT (some k) (some v')
  simp only [hloopE, ok_bind]
  have hfin : entryFinish kT vT (some k) (some v') = .ok (k, v') :=
    entryFinish_eval kT vT k v' (valueOK_ne_vnone kT k hkOK)
      (valueOK_ne_vnone vT v' hvv')
      (valueOK_validateValue kT k hkOK) (valueOK_validateValue vT v' hvv')
  simp only [hfin, ok_bind]
termination_by (sizeOf kT + sizeOf vT, 0, 0, 1)
decreasing_by
  all_goals
    first
    | decreasing_tactic
    | (have h1 := sizeOf_pyFieldType_pos vT
       have h2 := sizeOf_pyFieldType_pos kT
       decreasing_tactic)

/-- `MapField` decoding, entry after the first: each chunk appends its
(key, value) pair to the already-started dict in order. -/
theorem encDecMapTail (kT vT : PyFieldType) (es : List (PyValue × PyValue))
    (number : Nat) (name : String) (FULL : FieldList) (req : Bool)
    (dflt : Option PyValue)
    (hkft : fieldTypeOK kT = true) (hvft : fieldTypeOK vT = true)
    (hkk : mapKeyKind kT = true) (hsv : simpleElem vT = true)
    (hes : entriesOK kT vT es = true) (hdist : keysDistinctB es = true)
    (hn29 : number < 2 ^ 29)
    (hfind : findByNumber FULL number = some (name, .mapF kT vT, req, dflt)) :
    ∃ mbs es',
      encodeMapEntries number kT vT es = .ok mbs ∧
      encodeMapEntries number kT vT es' = .ok mbs ∧
      2 * es.length ≤ mbs.length ∧
      entriesOK kT vT es' = true ∧
      es'.map Prod.fst = es.map Prod.fst ∧
      List.Forall₂ (fun a b => a.1 = b.1 ∧ pyEqV vT a.2 b.2 = .ok true) es es' ∧
      (∀ f acc rest done, 2 * (mbs ++ rest).length < f →
        lookupData acc name = none →
        (∀ e, e ∈ done → ∀ e2, e2 ∈ es → keyEq e.1 e2.1 = false) →
        fromStreamLoop f FULL (acc ++ [(name, .vdict done)]) (mbs ++ rest)
          = fromStreamLoop (f - es.length) FULL
              (acc ++ [(name, .vdict (done ++ es'))]) rest) := by
  cases es with
  | nil =>
    refine ⟨[], [], by rw [encodeMapEntries], by rw [encodeMapEntries], by simp,
      by rw [entriesOK], by simp, List.Forall₂.nil, ?_⟩
    intro f acc rest done hf hfr hdone
    simp
  | cons e1 etail =>
    obtain ⟨k1, v1⟩ := e1
    rw [entriesOK] at hes
    simp only [Bool.and_eq_true] at hes
    obtain ⟨⟨⟨hk1, hv1⟩, hb1⟩, hesT⟩ := hes
    rw [keysDistinctB] at hdist
    simp only [Bool.and_eq_true] at hdist
    obtain ⟨hd1, hdistT⟩ := hdist
    obtain ⟨kb, vb, v1', henck, hencv, hreencv, hv1', hpy1, hdecE⟩ :=
      encDecMapEntry kT vT k1 v1 hkft hvft hkk hsv hk1 hv1 hb1
    obtain ⟨mbsT, esT', hencT, hreencT, hlenT, hesT', hkeysT, hfaT, hloopT⟩ :=
      encDecMapTail kT vT etail number name FULL req dflt hkft hvft hkk hsv
        hesT hdistT hn29 hfind
    have hfh : 0 < (fieldHeader number 2).length := by
      rw [fieldHeader]
      exact encode_varint_pos _
    have heb : 0 < (encode_bytes (fieldHeader 1 (wireTypeOf kT) ++ kb ++
        fieldHeader 2 (wireTypeOf vT) ++ vb)).length := by
      rw [encode_bytes, List.length_append]
      have := encode_varint_pos (fieldHeader 1 (wireTypeOf kT) ++ kb ++
        fieldHeader 2 (wireTypeOf vT) ++ vb).length
      omega
    refine ⟨fieldHeader number 2 ++
        encode_bytes (fieldHeader 1 (wireTypeOf kT) ++ kb ++
          fieldHeader 2 (wireTypeOf vT) ++ vb) ++ mbsT,
      (k1, v1') :: esT', ?_, ?_, ?_, ?_, ?_,
      List.Forall₂.cons ⟨rfl, hpy1⟩ hfaT, ?_⟩
    · rw [encodeMapEntries]
      simp only [henck, ok_bind, hencv, ok_bind, hencT, ok_bind]
    · rw [encodeMapEntries]
      simp only [henck, ok_bind, hreencv, ok_bind, hreencT, ok_bind]
    · simp only [List.length_cons, List.length_append]
      omega
    · rw [entriesOK]
      simp only [Bool.and_eq_true]
      refine ⟨⟨⟨hk1, hv1'⟩, ?_⟩, hesT'⟩
      simp only [hreencv]
      simp only [hencv] at hb1
      exact hb1
    · simp only [List.map_cons, hkeysT]
    · intro f acc rest done hf hfr hdone
      simp only [List.length_append] at hf
      obtain ⟨f1, rfl⟩ : ∃ f1, f = f1 + 1 := ⟨f - 1, by omega⟩
      rw [show (fieldHeader number 2 ++
          encode_bytes (fieldHeader 1 (wireTypeOf kT) ++ kb ++
            fieldHeader 2 (wireTypeOf vT) ++ vb) ++ mbsT) ++ rest
          = (fieldHeader number 2 ++
            encode_bytes (fieldHeader 1 (wireTypeOf kT) ++ kb ++
              fieldHeader 2 (wireTypeOf vT) ++ vb)) ++ (mbsT ++ rest) by
        simp [List.append_assoc]]
      rw [loop_step_map FULL number name kT vT req dflt k1 v1' _ (mbsT ++ rest)
        (acc ++ [(name, PyValue.vdict done)]) f1 hfind hn29
        (hdecE f1 (mbsT ++ rest) (by simp only [List.length_append]; omega))]
      rw [mapInsert_snoc acc name done k1 v1' hfr
        (fun e hm => hdone e hm (k1, v1) (List.mem_cons_self _ _))]
      rw [hloopT f1 acc rest (done ++ [(k1, v1')])
        (by simp only [List.length_append]; omega) hfr
        (fun e hm e2 hm2 => by
          rcases List.mem_append.mp hm with hmd | hms
          · exact hdone e hmd e2 (List.mem_cons_of_mem _ hm2)
          · have he : e = (k1, v1') := by simpa using hms
            subst he
            have := List.all_eq_true.mp hd1 e2 hm2
            simp only [Bool.not_eq_true'] at this
            rw [keyEq_symm]
            exact this)]
      simp only [List.length_cons]
      rw [show f1 + 1 - (etail.length + 1) = f1 - etail.length by omega]
      rw [show (done ++ [(k1, v1')]) ++ esT' = done ++ ((k1, v1') :: esT') by simp]
termination_by (sizeOf kT + sizeOf vT, 0, es.length + 1, 2)
decreasing_by
  all_goals
    first
    | decreasing_tactic
    | (have h1 := sizeOf_pyFieldType_pos vT
       have h2 := sizeOf_pyFieldType_pos kT
       decreasing_tactic)

/-- The `to_stream` walk over a (suffix of a) field table produces a byte
string that the `from_stream` loop consumes chunk by chunk, extending the
accumulator with exactly the encoded fields, decoded to observably equal,
re-encodable values. -/
theorem encDecFields (fl : FieldList) (d : List (String × PyValue)) (FULL : FieldList)
    (hfl : fieldsOK fl = true)
    (hsub : ∀ nm num ft req dflt, (nm, num, ft, req, dflt) ∈ fieldDecls fl →
      findByNumber FULL num = some (nm, ft, req, dflt))
    (hget : ∀ nm num ft req dflt, (nm, num, ft, req, dflt) ∈ fieldDecls fl →
      (∃ w, lookupData d nm = some w ∧ valueOK ft w = true) ∨ lookupData d nm = none)
    (hreq : ∀ nm num ft dflt, (nm, num, ft, true, dflt) ∈ fieldDecls fl →
      getattrF ft dflt d nm ≠ .vnone) :
    ∃ bs k acc',
      encodeFields fl d = .ok bs ∧
      2 * k ≤ bs.length ∧
      acc'.map Prod.fst = encodedNames fl d ∧
      (∀ n w, (n, w) ∈ acc' → ∃ num ft req dflt,
        findByName fl n = some (num, ft, req, dflt) ∧ valueOK ft w = true) ∧
      encodeFields fl acc' = .ok bs ∧
      pyMsgEq fl d acc' = .ok true ∧
      (∀ f acc rest, 2 * (bs ++ rest).length < f →
        (∀ n, n ∈ fieldNames fl → lookupData acc n = none) →
        fromStreamLoop f FULL acc (bs ++ rest)
          = fromStreamLoop (f - k) FULL (acc ++ acc') rest) := by
  cases fl with
  | nil =>
    refine ⟨[], 0, [], by rw [encodeFields], by simp, by simp [encodedNames],
      fun n w hm => by simp at hm, by rw [encodeFields], by rw [pyMsgEq], ?_⟩
    intro f acc rest hf hfr
    simp
  | cons name number ftype req dflt rest =>
    have hheadmem : (name, number, ftype, req, dflt)
        ∈ fieldDecls (.cons name number ftype req dflt rest) := by
      rw [fieldDecls]
      exact List.mem_cons_self _ _
    have hfindF := hsub name number ftype req dflt hheadmem
    have hflC := hfl
    rw [fieldsOK.eq_def] at hflC
    simp only [Bool.and_eq_true] at hflC
    obtain ⟨⟨⟨⟨⟨⟨⟨⟨hn1, hn2⟩, hn3⟩, hftOK⟩, hdfOK⟩, hshape⟩, hnameN⟩, hnumN⟩,
      hrestOK⟩ := hflC
    have hn2' : number < 2 ^ 29 := by simpa using hn2
    have hnameNone : findByName rest name = none := Option.isNone_iff_eq_none.mp hnameN
    have hnotmem : name ∉ fieldNames rest := findByName_none_not_mem rest name hnameNone
    obtain ⟨bsR, kR, accR, hencR, hkR, hkeysR, hdeclR, hreencR, hmeqR, hloopR⟩ :=
      encDecFields rest d FULL (fieldsOK_rest hfl)
        (fun nm2 num2 ft2 req2 dflt2 hm => hsub nm2 num2 ft2 req2 dflt2
          (by rw [fieldDecls]; exact List.mem_cons_of_mem _ hm))
        (fun nm2 num2 ft2 req2 dflt2 hm => hget nm2 num2 ft2 req2 dflt2
          (by rw [fieldDecls]; exact List.mem_cons_of_mem _ hm))
        (fun nm2 num2 ft2 dflt2 hm => hreq nm2 num2 ft2 dflt2
          (by rw [fieldDecls]; exact List.mem_cons_of_mem _ hm))
    have haccRname : lookupData accR name = none := by
      cases hl : lookupData accR name with
      | none => rfl
      | some w =>
        exfalso
        have hmem := (lookupData_isSome_iff accR name).mp (by rw [hl]; rfl)
        rw [hkeysR] at hmem
        exact hnotmem ((encodedNames_sublist rest d).subset hmem)
    have hdeclLift : ∀ n w, (n, w) ∈ accR → ∃ num2 ft2 req2 dflt2,
        findByName (.cons name number ftype req dflt rest) n
          = some (num2, ft2, req2, dflt2) ∧ valueOK ft2 w = true := by
      intro n w hm
      obtain ⟨num2, ft2, req2, dflt2, hf2, hw2⟩ := hdeclR n w hm
      exact ⟨num2, ft2, req2, dflt2,
        findByName_lift name number ftype req dflt rest n _ hfl hf2, hw2⟩
    have hfreshHead : ∀ n, n ∈ fieldNames rest → lookupData [(name, PyValue.vnone)] n
        = lookupData [(name, PyValue.vnone)] n := fun _ _ => rfl
    have hW : valueOK ftype (getattrF ftype dflt d name) = true ∨
        (getattrF ftype dflt d name = .vnone ∧ lookupData d name = none) := by
      rcases hget name number ftype req dflt hheadmem with ⟨w, hlw, hwOK⟩ | hlnone
      · left
        rw [getattrF_lookup_some ftype dflt d name w hlw]
        exact hwOK
      · cases ftype with
        | repeatedF e p =>
          left
          rw [getattrF.eq_def, hlnone]
          show valueOK (.repeatedF e p) (.vlist []) = true
          rw [valueOK, valuesOK, encodePackedItems]
          simp
        | mapF kT vT =>
          left
          rw [getattrF.eq_def, hlnone]
          show valueOK (.mapF kT vT) (.vdict []) = true
          rw [valueOK, entriesOK, keysDistinctB]
          simp
        | messageF nm2 fl2 oos2 =>
          right
          rw [getattrF.eq_def, hlnone]
          exact ⟨rfl, rfl⟩
        | _ =>
          cases hdf : dflt with
          | some dd =>
            left
            rw [getattrF.eq_def, hlnone]
            rw [hdf] at hdfOK
            simpa using hdfOK
          | none =>
            right
            rw [getattrF.eq_def, hlnone]
            exact ⟨rfl, rfl⟩
    rcases hW with hwOK | ⟨hgnone, hlnone2⟩
    · -- the head field yields at least one chunk
      obtain ⟨w, hgw⟩ : ∃ w, getattrF ftype dflt d name = w := ⟨_, rfl⟩
      rw [hgw] at hwOK
      have hwnn : w ≠ .vnone := valueOK_ne_vnone ftype w hwOK
      by_cases hsimp : simpleElem ftype = true
      · -- scalar / enum / bytes / nested message: one header-plus-payload chunk
        obtain ⟨bsV, v', hencV, hposV, hreencV, hvOK', hpyV, -, -, hdecB, -⟩ :=
          encDecValue ftype w hftOK hwOK hsimp
        have hhdr : 0 < (fieldHeader number (wireTypeOf ftype)).length := by
          rw [fieldHeader]
          exact encode_varint_pos _
        have hgw' : getattrF ftype dflt ((name, v') :: accR) name = v' := by
          apply getattrF_lookup_some
          rw [lookupData, if_pos rfl]
        have hrestEnc : encodeFields rest ((name, v') :: accR) = .ok bsR := by
          rw [show (name, v') :: accR = [(name, v')] ++ accR from rfl,
            encodeFields_append_skip rest [(name, v')] accR (fun n hm => by
              rw [lookupData, if_neg (by intro he; exact hnotmem (he ▸ hm))]
              rfl)]
          exact hreencR
        refine ⟨(fieldHeader number (wireTypeOf ftype) ++ bsV) ++ bsR, kR + 1,
          (name, v') :: accR, ?_, ?_, ?_, ?_, ?_, ?_, ?_⟩
        · rw [encodeFields_cons_eval name number ftype req dflt rest d w hgw hwnn,
            encoder_dispatch_simple number ftype w hsimp]
          simp only [hencV number, ok_bind, pure_bind, hencR, ok_bind]
        · simp only [List.length_append]
          omega
        · show name :: accR.map Prod.fst
            = encodedNames (.cons name number ftype req dflt rest) d
          rw [encodedNames, hgw,
            if_pos (chunkYields_simple ftype w hsimp
              (pvIsNone_false_of_valueOK ftype w hwOK)), hkeysR]
        · intro n w2 hm
          rcases List.mem_cons.mp hm with he | hm2
          · injection he with e1 e2
            subst e1
            subst e2
            exact ⟨number, ftype, req, dflt, by rw [findByName, if_pos rfl], hvOK'⟩
          · exact hdeclLift n w2 hm2
        · rw [encodeFields_cons_eval name number ftype req dflt rest
            ((name, v') :: accR) v' hgw' (valueOK_ne_vnone ftype v' hvOK'),
            encoder_dispatch_simple number ftype v' hsimp]
          simp only [hreencV number, ok_bind, pure_bind, hrestEnc, ok_bind]
        · rw [pyMsgEq, hgw, hgw']
          rw [hpyV, ok_bind, if_pos rfl]
          rw [show (name, v') :: accR = [(name, v')] ++ accR from rfl,
            pyMsgEq_append_skip rest d [(name, v')] accR (fun n hm => by
              rw [lookupData, if_neg (by intro he; exact hnotmem (he ▸ hm))]
              rfl)]
          exact hmeqR
        · intro f acc rest2 hf hfr
          simp only [List.length_append] at hf
          obtain ⟨f1, rfl⟩ : ∃ f1, f = f1 + 1 := ⟨f - 1, by omega⟩
          rw [List.append_assoc (fieldHeader number (wireTypeOf ftype) ++ bsV) bsR rest2]
          rw [loop_step_simple FULL number name ftype req dflt v' bsV (bsR ++ rest2)
            acc f1 hfindF hn2' (simpleElem_not_unpacked ftype hsimp)
            (simpleElem_not_map ftype hsimp)
            (hdecB (bsR ++ rest2) f1 (by omega))]
          rw [assocSet_fresh acc name v'
            (hfr name (by rw [fieldNames]; exact List.mem_cons_self _ _))]
          rw [hloopR f1 (acc ++ [(name, v')]) rest2
            (by simp only [List.length_append]; omega)
            (fun n hm => by
              rw [lookupData_append_none _ _ _
                (hfr n (by rw [fieldNames]; exact List.mem_cons_of_mem _ hm))]
              rw [lookupData, if_neg (by intro he; exact hnotmem (he ▸ hm))]
              rfl)]
          rw [show f1 + 1 - (kR + 1) = f1 - kR by omega]
          rw [show (acc ++ [(name, v')]) ++ accR = acc ++ ((name, v') :: accR) by simp]
      · -- repeated or map field
        cases ftype with
        | repeatedF elem packed =>
          obtain ⟨xs, rfl⟩ := valueOK_repeated_shape elem packed w hwOK
          have hsimpE : simpleElem elem = true :=
            fieldTypeOK_repeated_simple elem packed hftOK
          have hftE : fieldTypeOK elem = true :=
            fieldTypeOK_repeated_elem elem packed hftOK
          have hvals : valuesOK elem xs = true := by
            rw [valueOK] at hwOK
            simp only [Bool.and_eq_true] at hwOK
            exact hwOK.1
          cases packed with
          | true =>
            have hnotmsg : ∀ nm2 fl2 oos2, elem ≠ .messageF nm2 fl2 oos2 :=
              fieldTypeOK_packed_not_message elem hftOK
            cases xs with
            | nil =>
              -- empty packed list: nothing on the wire
              have hone : encOneField number (.repeatedF elem true) (.vlist [])
                  = .ok [] := by
                rw [encOneField, encodeValueOnly]
                rfl
              have hgw2 : getattrF (.repeatedF elem true) dflt accR name
                  = .vlist [] := by
                rw [getattrF.eq_def, haccRname]
              have hpy0 : pyEqV (.repeatedF elem true) (.vlist []) (.vlist [])
                  = .ok true := by
                rw [pyEqV, if_pos rfl]
                show pyEqList elem [] [] = .ok true
                rw [pyEqList]
              refine ⟨bsR, kR, accR, ?_, hkR, ?_, hdeclLift, ?_, ?_, ?_⟩
              · rw [encodeFields_cons_eval name number _ req dflt rest d _ hgw hwnn]
                simp only [hone, ok_bind, hencR, ok_bind, List.nil_append]
              · show accR.map Prod.fst
                  = encodedNames (.cons name number (.repeatedF elem true) req dflt rest) d
                rw [encodedNames, hgw, if_neg (by simp [chunkYieldsEntry])]
                exact hkeysR
              · rw [encodeFields_cons_eval name number _ req dflt rest accR _ hgw2
                  (by simp)]
                simp only [hone, ok_bind, hreencR, ok_bind, List.nil_append]
              · rw [pyMsgEq, hgw, hgw2]
                rw [hpy0, ok_bind, if_pos rfl]
                exact hmeqR
              · intro f acc rest2 hf hfr
                exact hloopR f acc rest2 hf (fun n hm =>
                  hfr n (by rw [fieldNames]; exact List.mem_cons_of_mem _ hm))
            | cons x xtail =>
              obtain ⟨pbs, xs', hencP, hreencP, hlenP, hvP', hfaP, hloopP⟩ :=
                encDecPacked elem (x :: xtail) hftE hsimpE hnotmsg hvals
              have hpbslt : pbs.length < 2 ^ 64 := by
                have hwOK2 := hwOK
                rw [valueOK] at hwOK2
                simp only [Bool.and_eq_true] at hwOK2
                have h2 := hwOK2.2
                simp only [hencP, Bool.false_or] at h2
                exact of_decide_eq_true h2
              obtain ⟨y, ys, hxs'⟩ : ∃ y ys, xs' = y :: ys := by
                cases xs' with
                | nil =>
                  have := hfaP.length_eq
                  simp at this
                | cons a l => exact ⟨a, l, rfl⟩
              have hw2 : wireTypeOf (.repeatedF elem true) = 2 := by
                rw [wireTypeOf]
                simp
              have hencChunk : ∀ number2, encodeValueOnly number2
                  (.repeatedF elem true) (.vlist (x :: xtail))
                  = .ok (fieldHeader number2 2 ++ encode_bytes pbs) := by
                intro number2
                rw [encodeValueOnly]
                simp only [if_true]
                simp only [hencP, ok_bind]
                simp
              have hencChunk' : ∀ number2, encodeValueOnly number2
                  (.repeatedF elem true) (.vlist xs')
                  = .ok (fieldHeader number2 2 ++ encode_bytes pbs) := by
                intro number2
                rw [hxs', encodeValueOnly]
                simp only [if_true]
                rw [← hxs']
                simp only [hreencP, ok_bind]
                simp
              have hvOK' : valueOK (.repeatedF elem true) (.vlist xs') = true := by
                rw [valueOK]
                simp only [Bool.and_eq_true]
                refine ⟨hvP', ?_⟩
                simp only [hreencP, Bool.false_or]
                exact decide_eq_true hpbslt
              have hdecChunk : ∀ rest2 f2, 2 * (encode_bytes pbs).length < f2 →
                  decodeValue f2 (.repeatedF elem true) (encode_bytes pbs ++ rest2)
                    = .ok (.vlist xs', rest2) := by
                intro rest2 f2 hf2
                have hvpos := encode_varint_pos pbs.length
                have hlenB : (encode_bytes pbs).length
                    = (encode_varint pbs.length).length + pbs.length := by
                  rw [encode_bytes, List.length_append]
                obtain ⟨f3, rfl⟩ : ∃ f3, f2 = f3 + 1 := ⟨f2 - 1, by omega⟩
                rw [decodeValue, if_pos rfl]
                simp only [decode_bytes_encode pbs rest2 hpbslt, ok_bind]
                show (match f3 + 1 with
                  | 0 => Except.error DecodeErr.fuelOut
                  | _ + 1 => _) = _
                simp only [Nat.add_eq]
                simp only [hloopP f3 (by omega), ok_bind]
              have hgw' : getattrF (.repeatedF elem true) dflt
                  ((name, .vlist xs') :: accR) name = .vlist xs' := by
                apply getattrF_lookup_some
                rw [lookupData, if_pos rfl]
              have hhdr : 0 < (fieldHeader number 2).length := by
                rw [fieldHeader]
                exact encode_varint_pos _
              have hebpos : 0 < (encode_bytes pbs).length := by
                rw [encode_bytes, List.length_append]
                have := encode_varint_pos pbs.length
                omega
              refine ⟨(fieldHeader number 2 ++ encode_bytes pbs) ++ bsR, kR + 1,
                (name, .vlist xs') :: accR, ?_, ?_, ?_, ?_, ?_, ?_, ?_⟩
              · rw [encodeFields_cons_eval name number _ req dflt rest d _ hgw hwnn]
                rw [show encOneField number (.repeatedF elem true) (.vlist (x :: xtail))
                    = encodeValueOnly number (.repeatedF elem true)
                      (.vlist (x :: xtail)) from rfl]
                simp only [hencChunk, ok_bind, hencR, ok_bind]
              · simp only [List.length_append]
                omega
              · show name :: accR.map Prod.fst = encodedNames _ d
                rw [encodedNames, hgw, if_pos (by simp [chunkYieldsEntry]), hkeysR]
              · intro n w2 hm
                rcases List.mem_cons.mp hm with he | hm2
                · injection he with e1 e2
                  subst e1
                  subst e2
                  exact ⟨number, .repeatedF elem true, req, dflt,
                    by rw [findByName, if_pos rfl], hvOK'⟩
                · exact hdeclLift n w2 hm2
              · rw [encodeFields_cons_eval name number _ req dflt rest
                  ((name, .vlist xs') :: accR) _ hgw' (by simp)]
                rw [show encOneField number (.repeatedF elem true) (.vlist xs')
                    = encodeValueOnly number (.repeatedF elem true) (.vlist xs')
                  from rfl]
                rw [show (name, PyValue.vlist xs') :: accR
                    = [(name, PyValue.vlist xs')] ++ accR from rfl,
                  encodeFields_append_skip rest [(name, PyValue.vlist xs')] accR
                    (fun n hm => by
                      rw [lookupData, if_neg (by intro he; exact hnotmem (he ▸ hm))]
                      rfl)]
                simp only [hencChunk', ok_bind, hreencR, ok_bind]
              · rw [pyMsgEq, hgw, hgw']
                have hpyL : pyEqV (.repeatedF elem true) (.vlist (x :: xtail))
                    (.vlist xs') = .ok true := by
                  rw [pyEqV, if_pos (by
                    have := hfaP.length_eq
                    simp only [this])]
                  show pyEqList elem (x :: xtail) xs' = .ok true
                  exact pyEqList_of_forall2 elem _ _ hfaP
                rw [hpyL, ok_bind, if_pos rfl]
                rw [show (name, PyValue.vlist xs') :: accR
                    = [(name, PyValue.vlist xs')] ++ accR from rfl,
                  pyMsgEq_append_skip rest d [(name, PyValue.vlist xs')] accR
                    (fun n hm => by
                      rw [lookupData, if_neg (by intro he; exact hnotmem (he ▸ hm))]
                      rfl)]
                exact hmeqR
              · intro f acc rest2 hf hfr
                simp only [List.length_append] at hf
                obtain ⟨f1, rfl⟩ : ∃ f1, f = f1 + 1 := ⟨f - 1, by omega⟩
                rw [List.append_assoc (fieldHeader number 2 ++ encode_bytes pbs)
                  bsR rest2]
                rw [show fieldHeader number 2
                    = fieldHeader number (wireTypeOf (.repeatedF elem true)) by
                  rw [hw2]]
                rw [loop_step_simple FULL number name (.repeatedF elem true) req dflt
                  (.vlist xs') (encode_bytes pbs) (bsR ++ rest2) acc f1 hfindF hn2'
                  (fun e2 he => by simp at he)
                  (fun kT2 vT2 he => by simp at he)
                  (hdecChunk (bsR ++ rest2) f1 (by omega))]
                rw [assocSet_fresh acc name (.vlist xs')
                  (hfr name (by rw [fieldNames]; exact List.mem_cons_self _ _))]
                rw [hloopR f1 (acc ++ [(name, PyValue.vlist xs')]) rest2
                  (by simp only [List.length_append]; omega)
                  (fun n hm => by
                    rw [lookupData_append_none _ _ _
                      (hfr n (by rw [fieldNames]; exact List.mem_cons_of_mem _ hm))]
                    rw [lookupData, if_neg (by intro he; exact hnotmem (he ▸ hm))]
                    rfl)]
                rw [show f1 + 1 - (kR + 1) = f1 - kR by omega]
                rw [show (acc ++ [(name, PyValue.vlist xs')]) ++ accR
                    = acc ++ ((name, PyValue.vlist xs') :: accR) by simp]
          | false =>
            cases xs with
            | nil =>
              have hone : encOneField number (.repeatedF elem false) (.vlist [])
                  = .ok [] := by
                rw [encOneField, encodeValueOnly]
                rw [if_neg (by simp)]
                rw [encodeUnpackedItems]
              have hgw2 : getattrF (.repeatedF elem false) dflt accR name
                  = .vlist [] := by
                rw [getattrF.eq_def, haccRname]
              have hpy0 : pyEqV (.repeatedF elem false) (.vlist []) (.vlist [])
                  = .ok true := by
                rw [pyEqV, if_pos rfl]
                show pyEqList elem [] [] = .ok true
                rw [pyEqList]
              refine ⟨bsR, kR, accR, ?_, hkR, ?_, hdeclLift, ?_, ?_, ?_⟩
              · rw [encodeFields_cons_eval name number _ req dflt rest d _ hgw hwnn]
                simp only [hone, ok_bind, hencR, ok_bind, List.nil_append]
              · show accR.map Prod.fst = encodedNames _ d
                rw [encodedNames, hgw, if_neg (by simp [chunkYieldsEntry])]
                exact hkeysR
              · rw [encodeFields_cons_eval name number _ req dflt rest accR _ hgw2
                  (by simp)]
                simp only [hone, ok_bind, hreencR, ok_bind, List.nil_append]
              · rw [pyMsgEq, hgw, hgw2]
                rw [hpy0, ok_bind, if_pos rfl]
                exact hmeqR
              · intro f acc rest2 hf hfr
                exact hloopR f acc rest2 hf (fun n hm =>
                  hfr n (by rw [fieldNames]; exact List.mem_cons_of_mem _ hm))
            | cons x xtail =>
              rw [valuesOK] at hvals
              simp only [Bool.and_eq_true] at hvals
              obtain ⟨ibs, x', hencx, hposx, hreencx, hvx', hpyx, -, -, hdecBx, -⟩ :=
                encDecValue elem x hftE hvals.1 hsimpE
              obtain ⟨ubsT, xsT', hencT, hreencT, hlenT, hvT', hfaT, hloopT⟩ :=
                encDecUnpackedTail elem xtail number name FULL req dflt hftE hsimpE
                  hvals.2 hn2' hfindF
              have hhdr : 0 < (fieldHeader number (wireTypeOf elem)).length := by
                rw [fieldHeader]
                exact encode_varint_pos _
              have hencChunk : encodeUnpackedItems number elem (x :: xtail)
                  = .ok (fieldHeader number (wireTypeOf elem) ++ ibs ++ ubsT) := by
                rw [encodeUnpackedItems]
                simp only [hencx number, ok_bind, hencT, ok_bind]
              have hencChunk' : encodeUnpackedItems number elem (x' :: xsT')
                  = .ok (fieldHeader number (wireTypeOf elem) ++ ibs ++ ubsT) := by
                rw [encodeUnpackedItems]
                simp only [hreencx number, ok_bind, hreencT, ok_bind]
              have hvOK' : valueOK (.repeatedF elem false) (.vlist (x' :: xsT'))
                  = true := by
                rw [valueOK]
                simp only [Bool.and_eq_true]
                refine ⟨?_, by simp⟩
                rw [valuesOK]
                simp only [Bool.and_eq_true]
                exact ⟨hvx', hvT'⟩
              have hgw' : getattrF (.repeatedF elem false) dflt
                  ((name, .vlist (x' :: xsT')) :: accR) name
                  = .vlist (x' :: xsT') := by
                apply getattrF_lookup_some
                rw [lookupData, if_pos rfl]
              refine ⟨(fieldHeader number (wireTypeOf elem) ++ ibs ++ ubsT) ++ bsR,
                kR + (xtail.length + 1), (name, .vlist (x' :: xsT')) :: accR,
                ?_, ?_, ?_, ?_, ?_, ?_, ?_⟩
              · rw [encodeFields_cons_eval name number _ req dflt rest d _ hgw hwnn]
                rw [show encOneField number (.repeatedF elem false)
                    (.vlist (x :: xtail))
                    = encodeValueOnly number (.repeatedF elem false)
                      (.vlist (x :: xtail)) from rfl]
                rw [encodeValueOnly]
                rw [if_neg (by simp)]
                simp only [hencChunk, ok_bind, hencR, ok_bind]
                simp
              · simp only [List.length_append]
                omega
              · show name :: accR.map Prod.fst = encodedNames _ d
                rw [encodedNames, hgw, if_pos (by simp [chunkYieldsEntry]), hkeysR]
              · intro n w2 hm
                rcases List.mem_cons.mp hm with he | hm2
                · injection he with e1 e2
                  subst e1
                  subst e2
                  exact ⟨number, .repeatedF elem false, req, dflt,
                    by rw [findByName, if_pos rfl], hvOK'⟩
                · exact hdeclLift n w2 hm2
              · rw [encodeFields_cons_eval name number _ req dflt rest
                  ((name, .vlist (x' :: xsT')) :: accR) _ hgw' (by simp)]
                rw [show encOneField number (.repeatedF elem false)
                    (.vlist (x' :: xsT'))
                    = encodeValueOnly number (.repeatedF elem false)
                      (.vlist (x' :: xsT')) from rfl]
                rw [encodeValueOnly]
                rw [if_neg (by simp)]
                rw [show (name, PyValue.vlist (x' :: xsT')) :: accR
                    = [(name, PyValue.vlist (x' :: xsT'))] ++ accR from rfl,
                  encodeFields_append_skip rest [(name, PyValue.vlist (x' :: xsT'))]
                    accR (fun n hm => by
                      rw [lookupData, if_neg (by intro he; exact hnotmem (he ▸ hm))]
                      rfl)]
                simp only [hencChunk', ok_bind, hreencR, ok_bind]
                simp
              · rw [pyMsgEq, hgw, hgw']
                have hpyL : pyEqV (.repeatedF elem false) (.vlist (x :: xtail))
                    (.vlist (x' :: xsT')) = .ok true := by
                  rw [pyEqV, if_pos (by
                    have := hfaT.length_eq
                    simp only [List.length_cons, this])]
                  show pyEqList elem (x :: xtail) (x' :: xsT') = .ok true
                  exact pyEqList_of_forall2 elem _ _ (List.Forall₂.cons hpyx hfaT)
                rw [hpyL, ok_bind, if_pos rfl]
                rw [show (name, PyValue.vlist (x' :: xsT')) :: accR
                    = [(name, PyValue.vlist (x' :: xsT'))] ++ accR from rfl,
                  pyMsgEq_append_skip rest d [(name, PyValue.vlist (x' :: xsT'))]
                    accR (fun n hm => by
                      rw [lookupData, if_neg (by intro he; exact hnotmem (he ▸ hm))]
                      rfl)]
                exact hmeqR
              · intro f acc rest2 hf hfr
                simp only [List.length_append] at hf
                obtain ⟨f1, rfl⟩ : ∃ f1, f = f1 + 1 := ⟨f - 1, by omega⟩
                have hdec1 : decodeValue f1 (.repeatedF elem false)
                    (ibs ++ (ubsT ++ (bsR ++ rest2)))
                    = .ok (x', ubsT ++ (bsR ++ rest2)) := by
                  obtain ⟨f2, rfl⟩ : ∃ f2, f1 = f2 + 1 := ⟨f1 - 1, by omega⟩
                  rw [decodeValue, if_neg (by simp)]
                  exact hdecBx (ubsT ++ (bsR ++ rest2)) f2
                    (by first
                      | omega
                      | (simp only [List.length_append]; omega))
                rw [show ((fieldHeader number (wireTypeOf elem) ++ ibs ++ ubsT) ++ bsR)
                    ++ rest2
                    = (fieldHeader number (wireTypeOf elem) ++ ibs)
                      ++ (ubsT ++ (bsR ++ rest2)) by simp [List.append_assoc]]
                rw [loop_step_unpacked FULL number name elem req dflt x' ibs
                  (ubsT ++ (bsR ++ rest2)) acc f1 hfindF hn2' hdec1]
                rw [appendItem_fresh acc name x'
                  (hfr name (by rw [fieldNames]; exact List.mem_cons_self _ _))]
                rw [show acc ++ [(name, PyValue.vlist [x'])]
                    = acc ++ [(name, PyValue.vlist [x'])] from rfl]
                rw [hloopT f1 acc (bsR ++ rest2) [x']
                  (by simp only [List.length_append]; omega)
                  (hfr name (by rw [fieldNames]; exact List.mem_cons_self _ _))]
                rw [hloopR (f1 - xtail.length)
                  (acc ++ [(name, PyValue.vlist ([x'] ++ xsT'))]) rest2
                  (by simp only [List.length_append]; omega)
                  (fun n hm => by
                    rw [lookupData_append_none _ _ _
                      (hfr n (by rw [fieldNames]; exact List.mem_cons_of_mem _ hm))]
                    rw [lookupData, if_neg (by intro he; exact hnotmem (he ▸ hm))]
                    rfl)]
                rw [show f1 + 1 - (kR + (xtail.length + 1))
                    = f1 - xtail.length - kR by omega]
                rw [show (acc ++ [(name, PyValue.vlist ([x'] ++ xsT'))]) ++ accR
                    = acc ++ ((name, PyValue.vlist (x' :: xsT')) :: accR) by simp]
        | mapF kT vT =>
          obtain ⟨es, rfl⟩ := valueOK_map_shape kT vT w hwOK
          have hftM := hftOK
          rw [fieldTypeOK] at hftM
          simp only [Bool.and_eq_true] at hftM
          obtain ⟨⟨⟨hkk, hsv⟩, hkft⟩, hvft⟩ := hftM
          have hvM := hwOK
          rw [valueOK] at hvM
          simp only [Bool.and_eq_true] at hvM
          obtain ⟨hesOK, hdistOK⟩ := hvM
          cases es with
          | nil =>
            have hone : encOneField number (.mapF kT vT) (.vdict [])
                = .ok [] := by
              rw [encOneField, encodeValueOnly, encodeMapEntries]
            have hgw2 : getattrF (.mapF kT vT) dflt accR name = .vdict [] := by
              rw [getattrF.eq_def, haccRname]
            have hpy0 : pyEqV (.mapF kT vT) (.vdict []) (.vdict []) = .ok true := by
              rw [pyEqV, if_pos rfl]
              show pyEqDict vT [] [] = .ok true
              rw [pyEqDict]
            refine ⟨bsR, kR, accR, ?_, hkR, ?_, hdeclLift, ?_, ?_, ?_⟩
            · rw [encodeFields_cons_eval name number _ req dflt rest d _ hgw hwnn]
              simp only [hone, ok_bind, hencR, ok_bind, List.nil_append]
            · show accR.map Prod.fst = encodedNames _ d
              rw [encodedNames, hgw, if_neg (by simp [chunkYieldsEntry])]
              exact hkeysR
            · rw [encodeFields_cons_eval name number _ req dflt rest accR _ hgw2
                (by simp)]
              simp only [hone, ok_bind, hreencR, ok_bind, List.nil_append]
            · rw [pyMsgEq, hgw, hgw2]
              rw [hpy0, ok_bind, if_pos rfl]
              exact hmeqR
            · intro f acc rest2 hf hfr
              exact hloopR f acc rest2 hf (fun n hm =>
                hfr n (by rw [fieldNames]; exact List.mem_cons_of_mem _ hm))
          | cons e1 etail =>
            obtain ⟨k1, v1⟩ := e1
            rw [entriesOK] at hesOK
            simp only [Bool.and_eq_true] at hesOK
            obtain ⟨⟨⟨hk1, hv1⟩, hb1⟩, hesT⟩ := hesOK
            rw [keysDistinctB] at hdistOK
            simp only [Bool.and_eq_true] at hdistOK
            obtain ⟨hd1, hdistT⟩ := hdistOK
            obtain ⟨kb, vb, v1', henck, hencv, hreencv, hv1', hpy1, hdecE⟩ :=
              encDecMapEntry kT vT k1 v1 hkft hvft hkk hsv hk1 hv1 hb1
            obtain ⟨mbsT, esT', hencT, hreencT, hlenT, hesT', hkeysT, hfaT, hloopT⟩ :=
              encDecMapTail kT vT etail number name FULL req dflt hkft hvft hkk hsv
                hesT hdistT hn2' hfindF
            have hfh : 0 < (fieldHeader number 2).length := by
              rw [fieldHeader]
              exact encode_varint_pos _
            have hebpos : 0 < (encode_bytes (fieldHeader 1 (wireTypeOf kT) ++ kb ++
                fieldHeader 2 (wireTypeOf vT) ++ vb)).length := by
              rw [encode_bytes, List.length_append]
              have := encode_varint_pos (fieldHeader 1 (wireTypeOf kT) ++ kb ++
                fieldHeader 2 (wireTypeOf vT) ++ vb).length
              omega
            have hencChunk : encodeValueOnly number (.mapF kT vT)
                (.vdict ((k1, v1) :: etail))
                = .ok (fieldHeader number 2 ++
                  encode_bytes (fieldHeader 1 (wireTypeOf kT) ++ kb ++
                    fieldHeader 2 (wireTypeOf vT) ++ vb) ++ mbsT) := by
              rw [encodeValueOnly, encodeMapEntries]
              simp only [henck, ok_bind, hencv, ok_bind, hencT, ok_bind]
            have hencChunk' : encodeValueOnly number (.mapF kT vT)
                (.vdict ((k1, v1') :: esT'))
                = .ok (fieldHeader number 2 ++
                  encode_bytes (fieldHeader 1 (wireTypeOf kT) ++ kb ++
                    fieldHeader 2 (wireTypeOf vT) ++ vb) ++ mbsT) := by
              rw [encodeValueOnly, encodeMapEntries]
              simp only [henck, ok_bind, hreencv, ok_bind, hreencT, ok_bind]
            have hvOK' : valueOK (.mapF kT vT) (.vdict ((k1, v1') :: esT'))
                = true := by
              rw [valueOK]
              simp only [Bool.and_eq_true]
              constructor
              · rw [entriesOK]
                simp only [Bool.and_eq_true]
                refine ⟨⟨⟨hk1, hv1'⟩, ?_⟩, hesT'⟩
                simp only [hreencv]
                simp only [hencv] at hb1
                exact hb1
              · rw [keysDistinctB_congr ((k1, v1') :: esT') ((k1, v1) :: etail)
                  (by simp only [List.map_cons, hkeysT])]
                rw [keysDistinctB]
                simp only [Bool.and_eq_true]
                exact ⟨hd1, hdistT⟩
            have hgw' : getattrF (.mapF kT vT) dflt
                ((name, .vdict ((k1, v1') :: esT')) :: accR) name
                = .vdict ((k1, v1') :: esT') := by
              apply getattrF_lookup_some
              rw [lookupData, if_pos rfl]
            refine ⟨(fieldHeader number 2 ++
                encode_bytes (fieldHeader 1 (wireTypeOf kT) ++ kb ++
                  fieldHeader 2 (wireTypeOf vT) ++ vb) ++ mbsT) ++ bsR,
              kR + (etail.length + 1),
              (name, .vdict ((k1, v1') :: esT')) :: accR,
              ?_, ?_, ?_, ?_, ?_, ?_, ?_⟩
            · rw [encodeFields_cons_eval name number _ req dflt rest d _ hgw hwnn]
              rw [show encOneField number (.mapF kT vT) (.vdict ((k1, v1) :: etail))
                  = encodeValueOnly number (.mapF kT vT) (.vdict ((k1, v1) :: etail))
                from rfl]
              simp only [hencChunk, ok_bind, hencR, ok_bind]
            · simp only [List.length_append]
              omega
            · show name :: accR.map Prod.fst = encodedNames _ d
              rw [encodedNames, hgw, if_pos (by simp [chunkYieldsEntry]), hkeysR]
            · intro n w2 hm
              rcases List.mem_cons.mp hm with he | hm2
              · injection he with e1 e2
                subst e1
                subst e2
                exact ⟨number, .mapF kT vT, req, dflt,
                  by rw [findByName, if_pos rfl], hvOK'⟩
              · exact hdeclLift n w2 hm2
            · rw [encodeFields_cons_eval name number _ req dflt rest
                ((name, .vdict ((k1, v1') :: esT')) :: accR) _ hgw' (by simp)]
              rw [show encOneField number (.mapF kT vT) (.vdict ((k1, v1') :: esT'))
                  = encodeValueOnly number (.mapF kT vT) (.vdict ((k1, v1') :: esT'))
                from rfl]
              rw [show (name, PyValue.vdict ((k1, v1') :: esT')) :: accR
                  = [(name, PyValue.vdict ((k1, v1') :: esT'))] ++ accR from rfl,
                encodeFields_append_skip rest
                  [(name, PyValue.vdict ((k1, v1') :: esT'))] accR (fun n hm => by
                    rw [lookupData, if_neg (by intro he; exact hnotmem (he ▸ hm))]
                    rfl)]
              simp only [hencChunk', ok_bind, hreencR, ok_bind]
            · rw [pyMsgEq, hgw, hgw']
              have hrefl : ∀ e, e ∈ (k1, v1) :: etail → keyEq e.1 e.1 = true := by
                intro e hm
                obtain ⟨ke, ve⟩ := e
                have := entriesOK_mem kT vT ((k1, v1) :: etail)
                  (by
                    rw [entriesOK]
                    simp only [Bool.and_eq_true]
                    exact ⟨⟨⟨hk1, hv1⟩, hb1⟩, hesT⟩) ke ve hm
                exact keyEq_refl_of_key kT ke hkk this.1
              have hpyL : pyEqV (.mapF kT vT) (.vdict ((k1, v1) :: etail))
                  (.vdict ((k1, v1') :: esT')) = .ok true := by
                rw [pyEqV, if_pos (by
                  have : esT'.map Prod.fst = etail.map Prod.fst := hkeysT
                  have h2 : esT'.length = etail.length := by
                    have := congrArg List.length this
                    simpa using this
                  simp only [List.length_cons, h2])]
                show pyEqDict vT ((k1, v1) :: etail) ((k1, v1') :: esT') = .ok true
                have := pyEqDict_roundtrip vT ((k1, v1) :: etail)
                  ((k1, v1') :: esT') []
                  (by
                    rw [keysDistinctB]
                    simp only [Bool.and_eq_true]
                    exact ⟨hd1, hdistT⟩)
                  hrefl
                  (fun e2 hm => absurd hm (List.not_mem_nil e2))
                  (List.Forall₂.cons ⟨rfl, hpy1⟩ hfaT)
                simpa using this
              rw [hpyL, ok_bind, if_pos rfl]
              rw [show (name, PyValue.vdict ((k1, v1') :: esT')) :: accR
                  = [(name, PyValue.vdict ((k1, v1') :: esT'))] ++ accR from rfl,
                pyMsgEq_append_skip rest d
                  [(name, PyValue.vdict ((k1, v1') :: esT'))] accR (fun n hm => by
                    rw [lookupData, if_neg (by intro he; exact hnotmem (he ▸ hm))]
                    rfl)]
              exact hmeqR
            · intro f acc rest2 hf hfr
              simp only [List.length_append] at hf
              obtain ⟨f1, rfl⟩ : ∃ f1, f = f1 + 1 := ⟨f - 1, by omega⟩
              rw [show ((fieldHeader number 2 ++
                  encode_bytes (fieldHeader 1 (wireTypeOf kT) ++ kb ++
                    fieldHeader 2 (wireTypeOf vT) ++ vb) ++ mbsT) ++ bsR) ++ rest2
                  = (fieldHeader number 2 ++
                    encode_bytes (fieldHeader 1 (wireTypeOf kT) ++ kb ++
                      fieldHeader 2 (wireTypeOf vT) ++ vb))
                    ++ (mbsT ++ (bsR ++ rest2)) by simp [List.append_assoc]]
              rw [loop_step_map FULL number name kT vT req dflt k1 v1' _
                (mbsT ++ (bsR ++ rest2)) acc f1 hfindF hn2'
                (hdecE f1 (mbsT ++ (bsR ++ rest2))
                  (by simp only [List.length_append]; omega))]
              rw [mapInsert_fresh acc name k1 v1'
                (hfr name (by rw [fieldNames]; exact List.mem_cons_self _ _))]
              rw [hloopT f1 acc (bsR ++ rest2) [(k1, v1')]
                (by simp only [List.length_append]; omega)
                (hfr name (by rw [fieldNames]; exact List.mem_cons_self _ _))
                (fun e hm e2 hm2 => by
                  have he : e = (k1, v1') := by simpa using hm
                  subst he
                  have := List.all_eq_true.mp hd1 e2 hm2
                  simp only [Bool.not_eq_true'] at this
                  rw [keyEq_symm]
                  exact this)]
              rw [hloopR (f1 - etail.length)
                (acc ++ [(name, PyValue.vdict ([(k1, v1')] ++ esT'))]) rest2
                (by simp only [List.length_append]; omega)
                (fun n hm => by
                  rw [lookupData_append_none _ _ _
                    (hfr n (by rw [fieldNames]; exact List.mem_cons_of_mem _ hm))]
                  rw [lookupData, if_neg (by intro he; exact hnotmem (he ▸ hm))]
                  rfl)]
              rw [show f1 + 1 - (kR + (etail.length + 1))
                  = f1 - etail.length - kR by omega]
              rw [show (acc ++ [(name, PyValue.vdict ([(k1, v1')] ++ esT'))]) ++ accR
                  = acc ++ ((name, PyValue.vdict ((k1, v1') :: esT')) :: accR)
                by simp]
        | _ => exact absurd rfl hsimp
    · -- the head field is skipped (value `None`, necessarily optional)
      have hreqF : req = false := by
        by_contra hrt
        have hrt2 : req = true := by
          cases req
          · exact absurd rfl hrt
          · rfl
        subst hrt2
        exact hreq name number ftype dflt hheadmem hgnone
      subst hreqF
      have hgnone2 : getattrF ftype dflt accR name = .vnone := by
        rw [getattrF.eq_def, haccRname]
        rw [getattrF.eq_def, hlnone2] at hgnone
        exact hgnone
      have hencHead : encodeFields (.cons name number ftype false dflt rest) d
          = encodeFields rest d := by
        rw [encodeFields, hgnone]
        simp
      have hencHead2 : encodeFields (.cons name number ftype false dflt rest) accR
          = encodeFields rest accR := by
        rw [encodeFields, hgnone2]
        simp
      refine ⟨bsR, kR, accR, ?_, hkR, ?_, hdeclLift, ?_, ?_, ?_⟩
      · rw [hencHead]
        exact hencR
      · show accR.map Prod.fst = encodedNames _ d
        rw [encodedNames, hgnone, if_neg (by rw [chunkYields_vnone]; simp)]
        exact hkeysR
      · rw [hencHead2]
        exact hreencR
      · rw [pyMsgEq, hgnone, hgnone2]
        rw [pyEqV, ok_bind, if_pos rfl]
        exact hmeqR
      · intro f acc rest2 hf hfr
        exact hloopR f acc rest2 hf (fun n hm =>
          hfr n (by rw [fieldNames]; exact List.mem_cons_of_mem _ hm))
termination_by (sizeOf fl, 1, 0, 0)
decreasing_by
  all_goals
    first
    | decreasing_tactic
    | (have h1 := sizeOf_pyFieldType_pos ftype
       decreasing_tactic)
end

/-! ## Map-field construction (`MapField.__init__`) -/

/-- The field classes one can pass as a `MapField` key or value. -/
inductive FieldCtor where
  | int32C | int64C | sint32C | sint64C | uint32C | uint64C
  | fixed32C | fixed64C | sfixed32C | sfixed64C
  | stringC | boolC | bytesC | floatC | doubleC
deriving DecidableEq, Repr

/-- Errors a field constructor can raise. -/
inductive CtorErr where
  /-- `TypeError` (the map key check). -/
  | typeError
  /-- `FieldValidationError` (field-number validation). -/
  | fieldValidationError
deriving DecidableEq, Repr

/-- `MapField.valid_key_fields`: every scalar class except float, double
and bytes. -/
def validKeyField : FieldCtor → Bool
  | .int32C | .int64C | .sint32C | .sint64C | .uint32C | .uint64C => true
  | .fixed32C | .fixed64C | .sfixed32C | .sfixed64C => true
  | .stringC | .boolC => true
  | .bytesC | .floatC | .doubleC => false

/-- `Field._validate_field_number`: `[1, 2^29)` minus the reserved
`[19000, 20000)` range, else `FieldValidationError`. -/
def validateFieldNumber (number : Nat) : Except CtorErr Unit :=
  if 1 ≤ number ∧ number < 2 ^ 29 ∧ ¬(19000 ≤ number ∧ number < 20000) then
    .ok ()
  else .error .fieldValidationError

/-- The validation prefix of `MapField.__init__(key, value, number=...)`:
the key-subset check (raising `TypeError`) runs first, then
`super().__init__` validates the field number. -/
def mapFieldCtorCheck (key : FieldCtor) (number : Nat) : Except CtorErr Unit :=
  if validKeyField key then validateFieldNumber number
  else .error .typeError

/-- Counterexample for C9: a float-keyed map field is rejected with
`TypeError`, not `FieldValidationError`. -/
theorem map_key_float_raises_typeerror :
    mapFieldCtorCheck .floatC 1 = .error .typeError ∧
    CtorErr.typeError ≠ CtorErr.fieldValidationError :=
  ⟨rfl, by decide⟩

/-- Claim C9, amended: constructing a map field whose key class is outside
the scalar subset (floating-point, double or bytes keys in particular)
fails at descriptor-construction time with `TypeError`; key classes inside
the subset pass the key check. -/
theorem map_key_subset_check (key : FieldCtor) (number : Nat)
    (h1 : 1 ≤ number) (h2 : number < 2 ^ 29)
    (h3 : ¬(19000 ≤ number ∧ number < 20000)) :
    mapFieldCtorCheck key number =
      if validKeyField key then .ok () else .error .typeError := by
  rw [mapFieldCtorCheck]
  by_cases hk : validKeyField key
  · rw [if_pos hk, if_pos hk, validateFieldNumber, if_pos ⟨h1, h2, h3⟩]
  · rw [if_neg hk, if_neg hk]

/-- Witness for C9 at a rejected (float) and an accepted (string) key. -/
theorem map_key_subset_check_witness :
    (mapFieldCtorCheck .floatC 3 =
      if validKeyField .floatC then .ok () else .error .typeError) ∧
    (mapFieldCtorCheck .stringC 3 =
      if validKeyField .stringC then .ok () else .error .typeError) :=
  ⟨map_key_subset_check .floatC 3 (by norm_num) (by norm_num) (by norm_num),
    map_key_subset_check .stringC 3 (by norm_num) (by norm_num) (by norm_num)⟩

/-! ## Strict decoding of required fields (C5) -/

/-- Claim C5 failing input: a message with a required `int32` field whose
declared default is `0` is rejected by a strict `from_bytes(b'')` with
`MissingRequiredField`, because the code tests `not default` (Python
truthiness) instead of `default is None`; `_add_field_to_message` and the
`to_bytes` side use `default is None`, so the declared zero default should
have satisfied the check. -/
theorem required_zero_default_rejected :
    from_bytes ⟨"R", .cons "n" 1 .int32F true (some (.vint 0)) .nil, []⟩ []
      = .error (.missingRequiredField "n") ∧
    isInitialized (.cons "n" 1 .int32F true (some (.vint 0)) .nil) [] = true :=
  ⟨rfl, rfl⟩

/-! ## Decode-error scoping (C6) -/

/-- Counterexample for C7: comparing instances of two different message
types raises `ValueError` instead of returning inequality. -/
theorem eq_different_types_raises :
    eqPy ⟨"A", .cons "x" 1 .int32F false none .nil, []⟩ ⟨[("x", .vint 1)], []⟩
      ⟨"B", .cons "y" 1 .int32F false none .nil, []⟩ ⟨[("y", .vint 1)], []⟩
      = .error .valueError := rfl

theorem pyMsgEq_ok_true_iff (flds : FieldList) (d1 d2 : List (String × PyValue)) :
    pyMsgEq flds d1 d2 = .ok true ↔
      ∀ decl ∈ fieldDecls flds,
        pyEqV decl.2.2.1 (getattrF decl.2.2.1 decl.2.2.2.2 d1 decl.1)
          (getattrF decl.2.2.1 decl.2.2.2.2 d2 decl.1) = .ok true := by
  induction flds using fieldListInduction with
  | hnil => simp [pyMsgEq, fieldDecls]
  | hcons name num ftype req dflt rest ih =>
    rw [pyMsgEq]
    cases h : pyEqV ftype (getattrF ftype dflt d1 name) (getattrF ftype dflt d2 name) with
    | error e =>
      simp only [h, error_bind, fieldDecls, List.mem_cons]
      constructor
      · intro hcontra
        exact absurd hcontra (by simp)
      · intro hall
        have h2 := hall (name, num, ftype, req, dflt) (Or.inl rfl)
        simp only at h2
        rw [h] at h2
        exact absurd h2 (by simp)
    | ok b =>
      cases b with
      | false =>
        simp only [h, ok_bind]
        rw [if_neg (by simp)]
        simp only [fieldDecls, List.mem_cons]
        constructor
        · intro hcontra
          exact absurd hcontra (by simp)
        · intro hall
          have h2 := hall (name, num, ftype, req, dflt) (Or.inl rfl)
          simp only at h2
          rw [h] at h2
          exact absurd h2 (by simp)
      | true =>
        simp only [h, ok_bind, if_true]
        simp only [fieldDecls, List.mem_cons]
        constructor
        · intro hrest decl hdecl
          rcases hdecl with hdecl | hdecl
          · subst hdecl
            exact h
          · exact (ih.mp hrest) decl hdecl
        · intro hall
          exact ih.mpr (fun decl hdecl => hall decl (Or.inr hdecl))

/-- Claim C7, amended: same-type comparison holds exactly when every
declared field's observable value (stored value or declared default)
matches; comparing instances of different message types raises
`ValueError` rather than returning inequality. -/
theorem message_eq_spec (s1 s2 : Schema) (m1 m2 : PyInstance) :
    (s2.typeName ≠ s1.typeName → eqPy s1 m1 s2 m2 = .error .valueError) ∧
    (s2.typeName = s1.typeName →
      (eqPy s1 m1 s2 m2 = .ok true ↔
        ∀ decl ∈ fieldDecls s1.fields,
          pyEqV decl.2.2.1 (getattrF decl.2.2.1 decl.2.2.2.2 m1.data decl.1)
            (getattrF decl.2.2.1 decl.2.2.2.2 m2.data decl.1) = .ok true)) := by
  constructor
  · intro h
    simp [eqPy, h]
  · intro h
    rw [eqPy, if_pos h]
    exact pyMsgEq_ok_true_iff s1.fields m1.data m2.data

/-- Witness for C7's amended theorem: a mismatch raising `ValueError` and
a same-type reflexive equality. -/
theorem message_eq_spec_witness :
    (eqPy ⟨"C", .nil, []⟩ ⟨[], []⟩ ⟨"D", .nil, []⟩ ⟨[], []⟩
      = .error .valueError) ∧
    (eqPy ⟨"C", .nil, []⟩ ⟨[], []⟩ ⟨"C", .nil, []⟩ ⟨[], []⟩ = .ok true) :=
  ⟨(message_eq_spec ⟨"C", .nil, []⟩ ⟨"D", .nil, []⟩ ⟨[], []⟩ ⟨[], []⟩).1
      (by decide),
    ((message_eq_spec ⟨"C", .nil, []⟩ ⟨"C", .nil, []⟩ ⟨[], []⟩ ⟨[], []⟩).2
      rfl).mpr (by simp [fieldDecls])⟩

/-! ## C1: the full-message round trip -/

end Protox
